import Mathlib

/-!
Shallow embedding of the routing-decision engine of the Network_Simulator
repository: the Dijkstra and Bellman-Ford shortest-path engines
(`DijkstraAlgorithm.execute`, `BellmanFordAlgorithm.execute`) and the
BGP-style policy path selector (`BGPPathSelection`).

Modelling conventions:
* JavaScript numbers are modelled as integers (`Int`); the graph weights in
  the repository are integral.
* The value `Infinity` used for distances is `DNum.inf`; finite distances
  are `DNum.fin n`.
* Plain JS objects used as string-keyed records (`distances`, `previous`,
  the adjacency map) are insertion-ordered association lists with the JS
  update semantics: assigning to an existing key updates it in place,
  assigning to a fresh key appends it.  Reading an absent key yields
  `none` (JS `undefined`); the source's comparisons against `undefined`
  are `NaN` comparisons, i.e. always false, which the embedding mirrors.
* The thrown negative-cycle `Error` (Bellman-Ford) and the `TypeError`
  thrown when the adjacency builder writes through a dangling edge
  endpoint (Dijkstra) are `Except.error` with a distinguishing message.
* The predecessor walk `while (current !== null)` never terminates when
  `current` falls on an absent key: `previous[current]` is `undefined`
  and `undefined !== null` holds, so the loop spins forever.  The same
  happens on a cyclic predecessor chain.  `walkPrev` therefore returns an
  `Option`, `none` meaning the walk — and hence the whole call —
  diverges, and the execute functions return
  `Option (Except String AlgorithmResult)` with `none` for a call that
  never returns.
* The `executionTime` field (`performance.now()` telemetry) has no
  behavioural content and is omitted from the result record.
* `Math.random()` draws in `BGPPathSelection` are modelled by a caller
  supplied stream `attrs : Nat → Nat × Nat` giving the (local-preference,
  MED) draw pair for the k-th `BGPPath` record constructed during the
  call, counted in program order; the ranges [100,199] and [0,49] are
  reproduced by reduction mod 100 and mod 50.
-/

/-- A network node.  The source type also carries `x`, `y`, `label` and
`status` fields, all of which are display-only and never read by the
algorithms; only `id` is embedded. -/
structure Node where
  id : String
deriving DecidableEq, Repr

/-- A network edge.  The source type also carries an `id` and a `status`
field, never read by the algorithms. -/
structure Edge where
  source : String
  target : String
  weight : Int
deriving DecidableEq, Repr

/-- A distance value: a finite number or `Infinity`. -/
inductive DNum where
  | inf : DNum
  | fin : Int → DNum
deriving DecidableEq, Repr

/-- JS object assignment `m[k] = v`: update an existing key in place,
otherwise append the new key. -/
def setKey {α : Type} (m : List (String × α)) (k : String) (v : α) :
    List (String × α) :=
  match m with
  | [] => [(k, v)]
  | p :: rest => if p.1 = k then (k, v) :: rest else p :: setKey rest k v

/-- JS object read `m[k]`: `none` models `undefined`. -/
def getKey {α : Type} (m : List (String × α)) (k : String) : Option α :=
  match m with
  | [] => none
  | p :: rest => if p.1 = k then some p.2 else getKey rest k

abbrev DistMap := List (String × DNum)
abbrev PrevMap := List (String × Option String)

/-- Routing table row (interface `RoutingTableEntry` in BellmanFord.ts). -/
structure RoutingTableEntry where
  destination : String
  nextHop : String
  cost : Int
  hops : Nat
  path : List String
deriving DecidableEq, Repr

/-- Result record (interface `AlgorithmResult` in BellmanFord.ts), minus
the `executionTime` telemetry field. -/
structure AlgorithmResult where
  distances : DistMap
  previous : PrevMap
  path : List String
  routingTable : List RoutingTableEntry
  iterations : Nat
deriving DecidableEq, Repr

/-- `distances[node.id] = node.id === source ? 0 : Infinity` over the node
list. -/
def initDistances (nodes : List Node) (source : String) : DistMap :=
  nodes.foldl (fun m n => setKey m n.id (if n.id = source then DNum.fin 0 else DNum.inf)) []

/-- `previous[node.id] = null` over the node list. -/
def initPrevious (nodes : List Node) : PrevMap :=
  nodes.foldl (fun m n => setKey m n.id none) []

/-- The relaxation guard
`distances[from] !== Infinity && distances[from] + w < distances[to]`
as a Boolean on the current distance map.  An absent key on either side
makes the comparison a `NaN` comparison in JS, hence false. -/
def canRelaxB (d : DistMap) (a b : String) (w : Int) : Bool :=
  match getKey d a with
  | some (DNum.fin da) =>
    match getKey d b with
    | some DNum.inf => true
    | some (DNum.fin db) => decide (da + w < db)
    | none => false
  | _ => false

/-- Bellman-Ford working state: the two maps and the per-pass
`hasUpdate` flag. -/
structure BFState where
  d : DistMap
  p : PrevMap
  upd : Bool
deriving DecidableEq, Repr

/-- One directed relaxation attempt `from = a, to = b` of weight `w`. -/
def relaxDir (s : BFState) (a b : String) (w : Int) : BFState :=
  match getKey s.d a with
  | some (DNum.fin da) =>
    let fire : Bool :=
      match getKey s.d b with
      | some DNum.inf => true
      | some (DNum.fin db) => decide (da + w < db)
      | none => false
    if fire then
      { d := setKey s.d b (DNum.fin (da + w)),
        p := setKey s.p b (some a),
        upd := true }
    else s
  | _ => s

/-- Processing of one edge inside a pass: both directions, source→target
first (the `directions` array in the source). -/
def bfProcessEdge (s : BFState) (e : Edge) : BFState :=
  relaxDir (relaxDir s e.source e.target e.weight) e.target e.source e.weight

/-- One relaxation pass over every edge, with `hasUpdate` starting false. -/
def bfPass (edges : List Edge) (s : BFState) : BFState :=
  edges.foldl bfProcessEdge { s with upd := false }

/-- The bounded pass loop (`for i in 0 .. nodes.length-2`), stopping early
when a pass makes no update.  Returns the final state and the number of
passes actually executed (the source's `iterations` counter). -/
def bfLoop (edges : List Edge) (s : BFState) : Nat → BFState × Nat
  | 0 => (s, 0)
  | k + 1 =>
    let s' := bfPass edges s
    if s'.upd then
      let r := bfLoop edges s' k
      (r.1, r.2 + 1)
    else (s', 1)

/-- The final full edge-scan: true iff some edge can still be relaxed in
either direction (the source throws at the first such edge). -/
def negCheckB (edges : List Edge) (d : DistMap) : Bool :=
  edges.any (fun e => canRelaxB d e.source e.target e.weight ||
                      canRelaxB d e.target e.source e.weight)

/-- The backward predecessor walk (`while (current !== null)` with
`unshift`).  A `null` predecessor (`some none`) ends the walk.  An absent
key leaves `current` as JS `undefined`, which is `!== null`, so the
source loop never terminates: `none` models that divergence.  Exhausting
the fuel is also `none`: the callers pass fuel larger than the key
count, so a walk that runs out of fuel revisited a key and the source
loop is likewise infinite. -/
def walkPrev (p : PrevMap) : Nat → String → Option (List String)
  | 0, _ => none
  | fuel + 1, cur =>
    match getKey p cur with
    | some (some nxt) => (walkPrev p fuel nxt).map (fun l => l ++ [cur])
    | some none => some [cur]
    | none => none

/-- Routing-table generation shared verbatim by the Dijkstra and
Bellman-Ford sources: one row per non-source node of finite distance,
built from that node's predecessor walk; `none` as soon as one of those
walks diverges (the call then never returns). -/
def buildTable (nodes : List Node) (source : String) (d : DistMap) (p : PrevMap) :
    Option (List RoutingTableEntry) :=
  nodes.foldl (fun acc node =>
    acc.bind (fun rows =>
      if node.id = source then some rows
      else
        match getKey d node.id with
        | some (DNum.fin c) =>
          (walkPrev p (p.length + 1) node.id).map (fun nodePath =>
            rows ++ [{ destination := node.id,
                       nextHop := match nodePath with
                                  | _ :: b :: _ => b
                                  | _ => node.id,
                       cost := c,
                       hops := nodePath.length - 1,
                       path := nodePath }])
        | _ => some rows)) (some [])

/-- `BellmanFordAlgorithm.execute` (BellmanFord.ts).  The thrown
`Error('Graph contains negative cycle')` is the `Except.error` case;
the outer `none` models the call never returning because a predecessor
walk diverges (a destination absent from `previous` makes
`while (current !== null)` spin forever on `undefined`). -/
def BellmanFordExecute (nodes : List Node) (edges : List Edge)
    (source destination : String) : Option (Except String AlgorithmResult) :=
  let s0 : BFState := { d := initDistances nodes source, p := initPrevious nodes, upd := false }
  let r := bfLoop edges s0 (nodes.length - 1)
  let st := r.1
  if negCheckB edges st.d then
    some (Except.error "Graph contains negative cycle")
  else
    match walkPrev st.p (st.p.length + 1) destination,
          buildTable nodes source st.d st.p with
    | some path, some table =>
      some (Except.ok
        { distances := st.d,
          previous := st.p,
          path := if source ∈ path then path else [],
          routingTable := table,
          iterations := r.2 })
    | _, _ => none

/-- The strict `<` comparison used by the minimum-reduce in Dijkstra
(`distances[node] < distances[min]`): `Infinity` compares less than
nothing, `undefined` yields a `NaN` comparison, hence false. -/
def dLtB : Option DNum → Option DNum → Bool
  | some (DNum.fin a), some (DNum.fin b) => decide (a < b)
  | some (DNum.fin _), some DNum.inf => true
  | _, _ => false

/-- `Array.from(unvisited).reduce((min, node) => ...)`: the first node of
minimum current distance, the head being the reduce's initial value. -/
def minFold (d : DistMap) (x : String) (xs : List String) : String :=
  xs.foldl (fun m n => if dLtB (getKey d n) (getKey d m) then n else m) x

/-- `newDistance < distances[neighbor]` for a finite candidate
`newDistance = c`; an absent key is a `NaN` comparison, hence false. -/
def candLtB (c : Int) : Option DNum → Bool
  | some DNum.inf => true
  | some (DNum.fin b) => decide (c < b)
  | none => false

/-- The inner write `graph[a][b] = w` on a present outer key: the
no-dangling normal form of `setInner`, used by the proofs below. -/
def setInnerT (g : List (String × List (String × Int))) (a b : String) (w : Int) :
    List (String × List (String × Int)) :=
  match getKey g a with
  | some inner => setKey g a (setKey inner b w)
  | none => g

/-- Inner JS-object write `graph[a][b] = w` of the adjacency builder.  On
a dangling endpoint the outer object is `undefined` and the source throws
a `TypeError`, modelled as `none`. -/
def setInner (g : List (String × List (String × Int))) (a b : String) (w : Int) :
    Option (List (String × List (String × Int))) :=
  match getKey g a with
  | some inner => some (setKey g a (setKey inner b w))
  | none => none

/-- The adjacency construction on well-formed edges (every endpoint a
listed node), where no write can throw: the normal form of `buildGraph`
used by the proofs below. -/
def buildGraphT (nodes : List Node) (edges : List Edge) :
    List (String × List (String × Int)) :=
  let g0 := nodes.foldl (fun g n => setKey g n.id ([] : List (String × Int))) []
  edges.foldl (fun g e => setInnerT (setInnerT g e.source e.target e.weight) e.target e.source e.weight) g0

/-- The adjacency construction of `DijkstraAlgorithm.execute`: an empty
inner map per node, then `graph[edge.source][edge.target] = w` and
`graph[edge.target][edge.source] = w` per edge; `none` as soon as one of
those writes hits a dangling endpoint and throws a `TypeError`. -/
def buildGraph (nodes : List Node) (edges : List Edge) :
    Option (List (String × List (String × Int))) :=
  let g0 := nodes.foldl (fun g n => setKey g n.id ([] : List (String × Int))) []
  edges.foldl (fun acc e => acc.bind (fun g =>
    (setInner g e.source e.target e.weight).bind (fun g2 =>
      setInner g2 e.target e.source e.weight))) (some g0)

/-- The neighbor-update loop of one Dijkstra iteration: for each adjacency
entry of `current`, skip visited neighbors, else relax with the live value
of `distances[current]`. -/
def relaxNeighbors (current : String) (visited : List String)
    (inner : List (String × Int)) (d0 : DistMap) (p0 : PrevMap) :
    DistMap × PrevMap :=
  inner.foldl (fun dp pr =>
    if pr.1 ∈ visited then dp
    else
      match getKey dp.1 current with
      | some (DNum.fin da) =>
        let cand := da + pr.2
        if candLtB cand (getKey dp.1 pr.1) then
          (setKey dp.1 pr.1 (DNum.fin cand), setKey dp.2 pr.1 (some current))
        else dp
      | _ => dp) (d0, p0)

/-- The main Dijkstra loop.  Each executed iteration increments the
counter, selects the unvisited node of minimum distance, breaks on an
infinite minimum, relaxes the unvisited neighbors, marks the node visited
and breaks once the destination is visited.  `fuel` is the entry size of
the unvisited set, which the loop shrinks by one per iteration. -/
def dijkstraLoop (g : List (String × List (String × Int))) (destination : String) :
    Nat → List String → List String → DistMap → PrevMap → Nat →
    DistMap × PrevMap × Nat
  | 0, _, _, d, p, it => (d, p, it)
  | _ + 1, [], _, d, p, it => (d, p, it)
  | fuel + 1, u :: us, visited, d, p, it =>
    let it' := it + 1
    let current := minFold d u us
    match getKey d current with
    | some (DNum.fin _) =>
      match getKey g current with
      | some inner =>
        let dp := relaxNeighbors current visited inner d p
        let visited' := visited ++ [current]
        let unvisited' := (u :: us).erase current
        if current = destination then (dp.1, dp.2, it')
        else dijkstraLoop g destination fuel unvisited' visited' dp.1 dp.2 it'
      | none => (d, p, it')
    | _ => (d, p, it')

/-- `DijkstraAlgorithm.execute` (the Dijkstra source file).  `some
(Except.error "TypeError")` models the `TypeError` thrown while building
the adjacency object of a graph with a dangling edge endpoint; the outer
`none` models the call never returning because a predecessor walk
diverges. -/
def DijkstraExecute (nodes : List Node) (edges : List Edge)
    (source destination : String) : Option (Except String AlgorithmResult) :=
  let d0 := initDistances nodes source
  let p0 := initPrevious nodes
  match buildGraph nodes edges with
  | none => some (Except.error "TypeError")
  | some g =>
    let unvisited := (nodes.map (fun n => n.id)).eraseDups
    let r := dijkstraLoop g destination unvisited.length unvisited [] d0 p0 0
    match walkPrev r.2.1 (r.2.1.length + 1) destination,
          buildTable nodes source r.1 r.2.1 with
    | some path, some table =>
      some (Except.ok
        { distances := r.1,
          previous := r.2.1,
          path := if source ∈ path then path else [],
          routingTable := table,
          iterations := r.2.2 })
    | _, _ => none

/-- A candidate BGP path with its attributes (interface `BGPPath`). -/
structure BGPPath where
  path : List String
  weight : Int
  localPref : Nat
  asPathLength : Nat
  med : Nat
  igpCost : Int
deriving DecidableEq, Repr

/-- The neighbor computation of the DFS edge scan: `edge.source ===
current` gives the target, else `edge.target === current` gives the
source, else no neighbor. -/
def neighborOf (e : Edge) (current : String) : Option String :=
  if e.source = current then some e.target
  else if e.target = current then some e.source
  else none

/-- The depth bound of `findAllPaths` (default parameter `maxDepth = 10`,
always used with the default). -/
def bgpMaxDepth : Nat := 10

/-- The recursive depth-first enumeration of `findAllPaths`, with the
shared mutable `visited` set and `path` array made explicit (the source
adds/pushes before the edge scan and deletes/pops after, which is the same
as handing the extended copies to the recursive calls).  `fuel` only backs
the recursion; called with `fuel = maxDepth + 2` it can never run out
before the `depth > maxDepth` cut (each level consumes one unit of fuel
and one unit of depth). -/
def bgpDfs (edges : List Edge) (endNode : String) (maxDepth : Nat) :
    Nat → Nat → String → List String → List String → List (List String)
  | 0, _, _, _, _ => []
  | fuel + 1, depth, current, visited, path =>
    if depth > maxDepth then []
    else if current = endNode then [path ++ [current]]
    else if current ∈ visited then []
    else
      let visited' := visited ++ [current]
      let path' := path ++ [current]
      edges.foldl (fun acc e =>
        acc ++
          match neighborOf e current with
          | some nb =>
            if nb ≠ "" ∧ nb ∉ visited' then
              bgpDfs edges endNode maxDepth fuel (depth + 1) nb visited' path'
            else []
          | none => []) []

/-- `BGPPathSelection.findAllPaths` (the `nodes` parameter of the source
is unused). -/
def findAllPaths (edges : List Edge) (start endNode : String) : List (List String) :=
  bgpDfs edges endNode bgpMaxDepth (bgpMaxDepth + 2) 0 start [] []

/-- The edge matcher of `calculatePathWeight`: either direction. -/
def matchesEdge (e : Edge) (a b : String) : Bool :=
  (decide (e.source = a) && decide (e.target = b)) ||
  (decide (e.target = a) && decide (e.source = b))

/-- `BGPPathSelection.calculatePathWeight`: sum, over consecutive node
pairs, of the weight of the first edge matching the pair in either
direction (0 when no edge matches). -/
def calculatePathWeight : List String → List Edge → Int
  | a :: b :: rest, edges =>
    (match edges.find? (fun e => matchesEdge e a b) with
     | some e => e.weight
     | none => 0) + calculatePathWeight (b :: rest) edges
  | _, _ => 0

/-- `Math.max(...)` over a list, only ever applied to non-empty lists. -/
def listMaxNat : List Nat → Nat
  | [] => 0
  | x :: xs => xs.foldl max x

/-- `Math.min(...)` over a list, only ever applied to non-empty lists. -/
def listMinNat : List Nat → Nat
  | [] => 0
  | x :: xs => xs.foldl min x

/-- `Math.min(...)` over a list of integers. -/
def listMinInt : List Int → Int
  | [] => 0
  | x :: xs => xs.foldl min x

/-- `BGPPathSelection.selectBestPath`: the four-criteria election.  Each
stage filters the survivors to those attaining the best value of the
current criterion and returns at once when exactly one remains; after the
last stage the first survivor in evaluation order is returned. -/
def selectBestPath (paths : List BGPPath) : Option BGPPath :=
  if paths.length = 0 then none
  else if paths.length = 1 then paths.head?
  else
    let b1 := paths.filter (fun p => p.localPref = listMaxNat (paths.map (fun q => q.localPref)))
    if b1.length = 1 then b1.head?
    else
      let b2 := b1.filter (fun p => p.asPathLength = listMinNat (b1.map (fun q => q.asPathLength)))
      if b2.length = 1 then b2.head?
      else
        let b3 := b2.filter (fun p => p.med = listMinNat (b2.map (fun q => q.med)))
        if b3.length = 1 then b3.head?
        else
          let b4 := b3.filter (fun p => p.igpCost = listMinInt (b3.map (fun q => q.igpCost)))
          b4.head?

/-- The election as worded by the specification, for comparison with the
source's `selectBestPath`: on a non-empty candidate set, filter the
survivors to those with the highest local preference, then the shortest
AS-path length, then the lowest MED, then the lowest IGP cost — in that
strict order — stopping as soon as exactly one survivor remains and
otherwise returning the first remaining survivor in evaluation order;
`none` on an empty set. -/
def specSelectBest (paths : List BGPPath) : Option BGPPath :=
  match paths with
  | [] => none
  | _ =>
    let s1 := paths.filter (fun p => p.localPref = listMaxNat (paths.map (fun q => q.localPref)))
    if s1.length = 1 then s1.head?
    else
      let s2 := s1.filter (fun p => p.asPathLength = listMinNat (s1.map (fun q => q.asPathLength)))
      if s2.length = 1 then s2.head?
      else
        let s3 := s2.filter (fun p => p.med = listMinNat (s2.map (fun q => q.med)))
        if s3.length = 1 then s3.head?
        else
          let s4 := s3.filter (fun p => p.igpCost = listMinInt (s3.map (fun q => q.igpCost)))
          s4.head?

/-- Construction of one `BGPPath` record from an enumerated path, using
the `k`-th random draw pair of the call: local preference
`Math.floor(Math.random()*100) + 100` and MED `Math.floor(Math.random()*50)`. -/
def mkBGPPath (edges : List Edge) (attrs : Nat → Nat × Nat) (k : Nat)
    (path : List String) : BGPPath :=
  { path := path,
    weight := calculatePathWeight path edges,
    localPref := 100 + (attrs k).1 % 100,
    asPathLength := path.length - 1,
    med := (attrs k).2 % 50,
    igpCost := calculatePathWeight path edges }

/-- The seeding of `distances`/`previous` from the winning path:
`distances[nodeId] = index === 0 ? 0 : bestPath.weight` and
`previous[nodeId] = bestPath.path[index - 1]` for `index > 0`. -/
def seedFromBest (bp : BGPPath) (d0 : DistMap) (p0 : PrevMap) : DistMap × PrevMap :=
  bp.path.enum.foldl (fun dp pr =>
    (setKey dp.1 pr.2 (if pr.1 = 0 then DNum.fin 0 else DNum.fin bp.weight),
     if pr.1 > 0 then setKey dp.2 pr.2 (bp.path.get? (pr.1 - 1)) else dp.2))
    (d0, p0)

/-- The per-destination routing-table loop of `BGPPathSelection.execute`:
for each non-source node, the enumerated paths whose last node is that
node are re-attributed with fresh draws and the best one becomes the row.
The accumulator threads the table rows and the index of the next random
draw pair. -/
def bgpTable (nodes : List Node) (edges : List Edge) (source : String)
    (allPaths : List (List String)) (attrs : Nat → Nat × Nat) (k0 : Nat) :
    List RoutingTableEntry :=
  (nodes.foldl (fun (acc : List RoutingTableEntry × Nat) node =>
    if node.id = source then acc
    else
      let ptn := allPaths.filter (fun p => p.getLast? = some node.id)
      if ptn.length > 0 then
        let cands := ptn.enum.map (fun pr => mkBGPPath edges attrs (acc.2 + pr.1) pr.2)
        match selectBestPath cands with
        | some best =>
          (acc.1 ++ [{ destination := node.id,
                       nextHop := match best.path with
                                  | _ :: b :: _ => b
                                  | _ => node.id,
                       cost := best.weight,
                       hops := best.path.length - 1,
                       path := best.path }],
           acc.2 + ptn.length)
        | none => (acc.1, acc.2 + ptn.length)
      else acc) ([], k0)).1

/-- `BGPPathSelection.execute`. -/
def BGPExecute (nodes : List Node) (edges : List Edge)
    (source destination : String) (attrs : Nat → Nat × Nat) : AlgorithmResult :=
  let allPaths := findAllPaths edges source destination
  let iterations := allPaths.length
  if allPaths.length = 0 then
    { distances := [], previous := [], path := [], routingTable := [],
      iterations := iterations }
  else
    let bgpPaths := allPaths.enum.map (fun pr => mkBGPPath edges attrs pr.1 pr.2)
    let bestPath := selectBestPath bgpPaths
    let d0 := nodes.foldl (fun m n => setKey m n.id DNum.inf) []
    let p0 := initPrevious nodes
    let dp := match bestPath with
              | some bp => seedFromBest bp d0 p0
              | none => (d0, p0)
    { distances := dp.1,
      previous := dp.2,
      path := match bestPath with
              | some bp => bp.path
              | none => [],
      routingTable := bgpTable nodes edges source allPaths attrs allPaths.length,
      iterations := iterations }

/-- Projection of a terminating, normally returning run onto its result
record. -/
def okResult : Option (Except String AlgorithmResult) → Option AlgorithmResult
  | some (Except.ok r) => some r
  | _ => none

/-- Two node ids are linked when some edge of the list joins them (in
either direction, matching the undirected reading used by every engine). -/
def linked (edges : List Edge) (a b : String) : Prop :=
  ∃ e ∈ edges, (e.source = a ∧ e.target = b) ∨ (e.source = b ∧ e.target = a)

/-- Graph-theoretic reachability from `src` over the undirected edge
list. -/
inductive Reaches (edges : List Edge) (src : String) : String → Prop
  | refl : Reaches edges src src
  | step {a b : String} : Reaches edges src a → linked edges a b → Reaches edges src b

/-- An edge with source and target exchanged, the weight kept. -/
def swapEdge (e : Edge) : Edge :=
  { source := e.target, target := e.source, weight := e.weight }

/-- The edge list with its `i`-th element reversed. -/
def swapAt (edges : List Edge) (i : Nat) : List Edge :=
  match edges.get? i with
  | some e => edges.set i (swapEdge e)
  | none => edges

/-- The default six-node demo topology of the repository (nodes A–F). -/
def defaultNodes : List Node := [⟨"A"⟩, ⟨"B"⟩, ⟨"C"⟩, ⟨"D"⟩, ⟨"E"⟩, ⟨"F"⟩]

/-- The default demo edge list A-B(4), A-D(2), B-C(3), B-F(1), C-E(2),
D-F(5), D-E(7), F-E(3). -/
def defaultEdges : List Edge :=
  [⟨"A", "B", 4⟩, ⟨"A", "D", 2⟩, ⟨"B", "C", 3⟩, ⟨"B", "F", 1⟩,
   ⟨"C", "E", 2⟩, ⟨"D", "F", 5⟩, ⟨"D", "E", 7⟩, ⟨"F", "E", 3⟩]

/-- Two-node graph with two parallel A–B edges of different weight. -/
def parallelNodes : List Node := [⟨"A"⟩, ⟨"B"⟩]

/-- Parallel edge list: A-B(1) first, A-B(5) second. -/
def parallelEdges : List Edge := [⟨"A", "B", 1⟩, ⟨"A", "B", 5⟩]

/-- Three-node line graph A-B(1), B-C(1). -/
def lineNodes : List Node := [⟨"A"⟩, ⟨"B"⟩, ⟨"C"⟩]

/-- Edges of the line graph. -/
def lineEdges : List Edge := [⟨"A", "B", 1⟩, ⟨"B", "C", 1⟩]

/-- Triangle with a direct A-C edge and a heavier detour through B. -/
def triangleNodes : List Node := [⟨"A"⟩, ⟨"B"⟩, ⟨"C"⟩]

/-- Edges of the triangle: A-C(1), A-B(1), B-C(5). -/
def triangleEdges : List Edge := [⟨"A", "C", 1⟩, ⟨"A", "B", 1⟩, ⟨"B", "C", 5⟩]

/-- Draw stream that boosts the local preference of the third constructed
`BGPPath` (draw index 2) and leaves all others at the range floor. -/
def attrsThird : Nat → Nat × Nat := fun k => if k = 2 then (99, 0) else (0, 0)

/-- Draw stream that boosts the local preference of the fourth constructed
`BGPPath` (draw index 3) instead. -/
def attrsFourth : Nat → Nat × Nat := fun k => if k = 3 then (99, 0) else (0, 0)

/-- Constant draw stream (all draws at the range floor). -/
def attrsZero : Nat → Nat × Nat := fun _ => (0, 0)

/-- Graph with a single negative edge A-B(-1) and an isolated node D. -/
def negEdgeNodes : List Node := [⟨"A"⟩, ⟨"B"⟩, ⟨"D"⟩]

/-- The single negative edge A-B(-1). -/
def negEdgeEdges : List Edge := [⟨"A", "B", -1⟩]

/-- Line graph A-B(2), B-C(-3) whose second edge is negative and
reachable from A. -/
def negReachEdges : List Edge := [⟨"A", "B", 2⟩, ⟨"B", "C", -3⟩]

/-- Four-node graph on which Dijkstra's early exit at the destination D
leaves node X with a non-final distance: the cheap route to X through Y
is discovered only after D is settled. -/
def earlyNodes : List Node := [⟨"A"⟩, ⟨"D"⟩, ⟨"X"⟩, ⟨"Y"⟩]

/-- Edges A-D(1), A-X(10), D-Y(1), Y-X(1). -/
def earlyEdges : List Edge :=
  [⟨"A", "D", 1⟩, ⟨"A", "X", 10⟩, ⟨"D", "Y", 1⟩, ⟨"Y", "X", 1⟩]

/-- Two edges joining the same unordered endpoint pair. -/
def sameEnds (e1 e2 : Edge) : Prop :=
  (e1.source = e2.source ∧ e1.target = e2.target) ∨
  (e1.source = e2.target ∧ e1.target = e2.source)

instance (e1 e2 : Edge) : Decidable (sameEnds e1 e2) := by
  unfold sameEnds
  infer_instance

/-- A walk from `src` over the undirected edge list, together with its
aggregate weight: each step traverses one listed edge in either
direction. -/
inductive WWalk (edges : List Edge) (src : String) : String → Int → Prop
  | refl : WWalk edges src src 0
  | step {a b : String} {m : Int} {e : Edge} :
      WWalk edges src a m → e ∈ edges →
      (e.source = a ∧ e.target = b) ∨ (e.source = b ∧ e.target = a) →
      WWalk edges src b (m + e.weight)

/-- Pointwise domination of distance maps: every finite entry of `d`
stays present in `d2` with a value no larger. -/
def MonoD (d2 d : DistMap) : Prop :=
  ∀ k n, getKey d k = some (DNum.fin n) →
    ∃ n2, getKey d2 k = some (DNum.fin n2) ∧ n2 ≤ n

/-- Adjacency weight lookup `graph[a][b]` of the built Dijkstra graph. -/
def adjW (g : List (String × List (String × Int))) (a b : String) : Option Int :=
  match getKey g a with
  | some inner => getKey inner b
  | none => none

/-- Every finite distance entry is the weight of an actual walk from the
source. -/
def SoundD (edges : List Edge) (src : String) (d : DistMap) : Prop :=
  ∀ k n, getKey d k = some (DNum.fin n) → WWalk edges src k n

/-- Every adjacency entry records the endpoints and weight of some listed
edge. -/
def AdjTrace (edges : List Edge) (g : List (String × List (String × Int))) : Prop :=
  ∀ a inner, getKey g a = some inner → ∀ pr ∈ inner,
    ∃ e ∈ edges, ((e.source = a ∧ e.target = pr.1) ∨
      (e.source = pr.1 ∧ e.target = a)) ∧ e.weight = pr.2

/-- One step of the neighbor-update fold of `relaxNeighbors`. -/
def relaxStep (current : String) (visited : List String)
    (dp : DistMap × PrevMap) (pr : String × Int) : DistMap × PrevMap :=
  if pr.1 ∈ visited then dp
  else
    match getKey dp.1 current with
    | some (DNum.fin da) =>
      let cand := da + pr.2
      if candLtB cand (getKey dp.1 pr.1) then
        (setKey dp.1 pr.1 (DNum.fin cand), setKey dp.2 pr.1 (some current))
      else dp
    | _ => dp

/-- The concrete result Bellman-Ford returns on the default scenario with
source A and destination E. -/
def bfResultAE : AlgorithmResult :=
  { distances := [("A", DNum.fin 0), ("B", DNum.fin 4), ("C", DNum.fin 7),
      ("D", DNum.fin 2), ("E", DNum.fin 8), ("F", DNum.fin 5)],
    previous := [("A", none), ("B", some "A"), ("C", some "B"),
      ("D", some "A"), ("E", some "F"), ("F", some "B")],
    path := ["A", "B", "F", "E"],
    routingTable :=
      [⟨"B", "B", 4, 1, ["A", "B"]⟩,
       ⟨"C", "B", 7, 2, ["A", "B", "C"]⟩,
       ⟨"D", "D", 2, 1, ["A", "D"]⟩,
       ⟨"E", "B", 8, 3, ["A", "B", "F", "E"]⟩,
       ⟨"F", "B", 5, 2, ["A", "B", "F"]⟩],
    iterations := 2 }

/-- The concrete result Dijkstra returns on the default scenario with
source A and destination E. -/
def dijResultAE : AlgorithmResult :=
  { distances := [("A", DNum.fin 0), ("B", DNum.fin 4), ("C", DNum.fin 7),
      ("D", DNum.fin 2), ("E", DNum.fin 8), ("F", DNum.fin 5)],
    previous := [("A", none), ("B", some "A"), ("C", some "B"),
      ("D", some "A"), ("E", some "F"), ("F", some "B")],
    path := ["A", "B", "F", "E"],
    routingTable :=
      [⟨"B", "B", 4, 1, ["A", "B"]⟩,
       ⟨"C", "B", 7, 2, ["A", "B", "C"]⟩,
       ⟨"D", "D", 2, 1, ["A", "D"]⟩,
       ⟨"E", "B", 8, 3, ["A", "B", "F", "E"]⟩,
       ⟨"F", "B", 5, 2, ["A", "B", "F"]⟩],
    iterations := 6 }

/-- C4: on the default topology with source A and destination E, both
engines return normally, Dijkstra with distance 8 to E along the path
[A,B,F,E], and Bellman-Ford with exactly the same distance and path. -/
theorem c4_default_scenario :
    DijkstraExecute defaultNodes defaultEdges "A" "E" =
      some (Except.ok dijResultAE) ∧
    BellmanFordExecute defaultNodes defaultEdges "A" "E" =
      some (Except.ok bfResultAE) ∧
    getKey dijResultAE.distances "E" = some (DNum.fin 8) ∧
    dijResultAE.path = ["A", "B", "F", "E"] ∧
    getKey bfResultAE.distances "E" = some (DNum.fin 8) ∧
    bfResultAE.path = ["A", "B", "F", "E"] := by
  refine ⟨by rfl, by rfl, by decide, by decide, by decide, by decide⟩

/-- C2: on the line graph A-B(1), B-C(1) with source A and destination C,
node B has a path from A (within the depth bound), yet the routing table
of `BGPPathSelection.execute` holds a row for C only: the candidate set
used for the table is the set of enumerated source-to-destination paths,
whose last node is always the destination, so every other node's filter
comes up empty and only the destination ever receives a row. -/
theorem c2_routing_table_only_destination :
    (BGPExecute lineNodes lineEdges "A" "C" attrsZero).routingTable.map
      (fun r => r.destination) = ["C"] ∧
    findAllPaths lineEdges "A" "B" = [["A", "B"]] := by
  refine ⟨by decide, by decide⟩

/-- C1 counterexample, two independent failure modes on non-negative
weights.  First, with the two parallel edges A-B(1), A-B(5), Dijkstra's
adjacency map keeps only the last parallel weight and reports distance 5
to the reachable node B while Bellman-Ford relaxes every listed edge and
reports 1.  Second, even without parallel edges, Dijkstra's early exit at
the destination D leaves the reachable node X at distance 10 while
Bellman-Ford, which always runs to convergence, reports 3. -/
theorem c1_counterexample :
    (parallelEdges.all (fun e => decide (0 ≤ e.weight)) = true ∧
     (okResult (DijkstraExecute parallelNodes parallelEdges "A" "B")).map
       (fun r => getKey r.distances "B") = some (some (DNum.fin 5)) ∧
     (okResult (BellmanFordExecute parallelNodes parallelEdges "A" "B")).map
       (fun r => getKey r.distances "B") = some (some (DNum.fin 1)) ∧
     Reaches parallelEdges "A" "B") ∧
    (earlyEdges.all (fun e => decide (0 ≤ e.weight)) = true ∧
     (okResult (DijkstraExecute earlyNodes earlyEdges "A" "D")).map
       (fun r => getKey r.distances "X") = some (some (DNum.fin 10)) ∧
     (okResult (BellmanFordExecute earlyNodes earlyEdges "A" "D")).map
       (fun r => getKey r.distances "X") = some (some (DNum.fin 3)) ∧
     Reaches earlyEdges "A" "X") := by
  constructor
  · refine ⟨by decide, by decide, by decide, ?_⟩
    exact Reaches.step Reaches.refl ⟨⟨"A", "B", 1⟩, by decide, Or.inl ⟨rfl, rfl⟩⟩
  · refine ⟨by decide, by decide, by decide, ?_⟩
    exact Reaches.step Reaches.refl ⟨⟨"A", "X", 10⟩, by decide, Or.inl ⟨rfl, rfl⟩⟩

/-- C7 counterexample: when no source-to-destination path exists,
`BGPPathSelection.execute` returns the empty `distances` map, with no
entry at all for any input node (here node A). -/
theorem c7_counterexample :
    getKey (BGPExecute parallelNodes [] "A" "B" attrsZero).distances "A" = none := by
  decide

/-- C8 counterexample: on the triangle A-C(1), A-B(1), B-C(5), two runs
of `BGPPathSelection.execute` on identical inputs but different random
draws elect different winners for the table row of C, whose cost field is
1 in one run and 6 in the other. -/
theorem c8_counterexample :
    (BGPExecute triangleNodes triangleEdges "A" "C" attrsThird).routingTable.map
      (fun r => r.cost) = [1] ∧
    (BGPExecute triangleNodes triangleEdges "A" "C" attrsFourth).routingTable.map
      (fun r => r.cost) = [6] := by
  refine ⟨by decide, by decide⟩

/-- Every node reachable from A over the single edge A-B(-1) is A or B. -/
theorem reaches_negEdge (x : String) (h : Reaches negEdgeEdges "A" x) :
    x = "A" ∨ x = "B" := by
  induction h with
  | refl => exact Or.inl rfl
  | step _ hl _ =>
    obtain ⟨e, he, hd⟩ := hl
    simp only [negEdgeEdges, List.mem_singleton] at he
    subst he
    rcases hd with ⟨_, h2⟩ | ⟨h1, _⟩
    · exact Or.inr h2.symm
    · exact Or.inl h1.symm

/-- C6 counterexample: with the single negative edge A-B(-1) and the
isolated destination D (unreachable from A), `BellmanFordAlgorithm.execute`
does not return normally: it throws the negative-cycle error. -/
theorem c6_counterexample :
    BellmanFordExecute negEdgeNodes negEdgeEdges "A" "D" =
      some (Except.error "Graph contains negative cycle") ∧
    ¬ Reaches negEdgeEdges "A" "D" := by
  refine ⟨by rfl, fun h => ?_⟩
  rcases reaches_negEdge "D" h with h' | h' <;> exact absurd h' (by decide)

/-- Reading back the key just written. -/
theorem getKey_setKey_self {α : Type} (m : List (String × α)) (k : String) (v : α) :
    getKey (setKey m k v) k = some v := by
  induction m with
  | nil => simp [setKey, getKey]
  | cons p rest ih =>
    by_cases h : p.1 = k
    · simp [setKey, h, getKey]
    · simp [setKey, h, getKey, ih]

/-- Writing one key leaves every other key unchanged. -/
theorem getKey_setKey_ne {α : Type} (m : List (String × α)) (k k' : String) (v : α)
    (h : k' ≠ k) : getKey (setKey m k v) k' = getKey m k' := by
  induction m with
  | nil => simp [setKey, getKey, Ne.symm h]
  | cons p rest ih =>
    by_cases hp : p.1 = k
    · subst hp
      simp [setKey, getKey, Ne.symm h, h]
    · simp [setKey, hp, getKey, ih]

/-- A present key stays present under any write. -/
theorem isSome_getKey_setKey {α : Type} (m : List (String × α)) (k k' : String) (v : α)
    (h : (getKey m k').isSome) : (getKey (setKey m k v) k').isSome := by
  by_cases hk : k' = k
  · subst hk; simp [getKey_setKey_self]
  · rwa [getKey_setKey_ne m k k' v hk]

/-- Value of a fold of id-determined writes over the node list: the last
write for a key wins, and the written value depends only on the key. -/
theorem getKey_foldl_setKey {α : Type} (f : String → α) (nodes : List Node)
    (m0 : List (String × α)) (k : String) :
    getKey (nodes.foldl (fun m n => setKey m n.id (f n.id)) m0) k =
      if k ∈ nodes.map (fun n => n.id) then some (f k) else getKey m0 k := by
  induction nodes generalizing m0 with
  | nil => simp
  | cons n rest ih =>
    simp only [List.foldl_cons, List.map_cons, List.mem_cons]
    rw [ih]
    by_cases hk : k ∈ rest.map (fun n => n.id)
    · simp [hk]
    · by_cases he : k = n.id
      · subst he
        simp [hk, getKey_setKey_self]
      · simp [hk, he, getKey_setKey_ne m0 n.id k (f n.id) he]

/-- The initial distance map: `fin 0` at the source, `inf` elsewhere, no
entry for ids outside the node list. -/
theorem getKey_initDistances (nodes : List Node) (source k : String) :
    getKey (initDistances nodes source) k =
      if k ∈ nodes.map (fun n => n.id) then
        some (if k = source then DNum.fin 0 else DNum.inf)
      else none := by
  unfold initDistances
  rw [getKey_foldl_setKey (fun x => if x = source then DNum.fin 0 else DNum.inf)]
  rfl

/-- The initial predecessor map: `none` for every node id. -/
theorem getKey_initPrevious (nodes : List Node) (k : String) :
    getKey (initPrevious nodes) k =
      if k ∈ nodes.map (fun n => n.id) then some none else none := by
  unfold initPrevious
  rw [getKey_foldl_setKey (fun _ => (none : Option String))]
  rfl

/-- The pass loop executes at most its bound's worth of passes. -/
theorem bfLoop_count_le (edges : List Edge) (s : BFState) (k : Nat) :
    (bfLoop edges s k).2 ≤ k := by
  induction k generalizing s with
  | zero => simp [bfLoop]
  | succ k ih =>
    simp only [bfLoop]
    split
    · exact Nat.succ_le_succ (ih (bfPass edges s))
    · exact Nat.succ_le_succ (Nat.zero_le k)

/-- C3: `BellmanFordAlgorithm.execute` throws the distinct negative-cycle
error, propagated to the caller, exactly when some edge can still be
relaxed (in either direction) after the bounded relaxation passes; any
normally returned result ran at most |V|-1 passes (it is never a
truncated result of an aborted run). -/
theorem c3_negative_cycle_detection (nodes : List Node) (edges : List Edge)
    (source destination : String) :
    (BellmanFordExecute nodes edges source destination =
        some (Except.error "Graph contains negative cycle") ↔
      ∃ e ∈ edges,
        (canRelaxB (bfLoop edges ⟨initDistances nodes source, initPrevious nodes, false⟩
            (nodes.length - 1)).1.d e.source e.target e.weight ||
         canRelaxB (bfLoop edges ⟨initDistances nodes source, initPrevious nodes, false⟩
            (nodes.length - 1)).1.d e.target e.source e.weight) = true) ∧
    ∀ r, BellmanFordExecute nodes edges source destination = some (Except.ok r) →
      r.iterations ≤ nodes.length - 1 := by
  constructor
  · rw [← List.any_eq_true]
    show _ ↔ negCheckB edges _ = true
    unfold BellmanFordExecute
    dsimp only
    split
    · next h => simp [h]
    · next h =>
      have hne := Bool.eq_false_iff.2 h
      constructor
      · intro hc
        exfalso
        split at hc
        · exact Except.noConfusion (Option.some.inj hc)
        · cases hc
      · intro hc
        rw [hc] at hne
        cases hne
  · intro r hr
    unfold BellmanFordExecute at hr
    dsimp only at hr
    split at hr
    · exact absurd (Option.some.inj hr) (fun hx => Except.noConfusion hx)
    · split at hr
      · have h1 := Option.some.inj hr
        have h2 := Except.ok.inj h1
        subst h2
        exact bfLoop_count_le edges _ (nodes.length - 1)
      · cases hr

/-- Witness for C3: on the line graph with the reachable negative edge
B-C(-3), the run ends in the negative-cycle error, so the theorem yields a
still-relaxable edge after the passes. -/
theorem c3_witness :
    ∃ e ∈ negReachEdges,
      (canRelaxB (bfLoop negReachEdges
          ⟨initDistances triangleNodes "A", initPrevious triangleNodes, false⟩
          (triangleNodes.length - 1)).1.d e.source e.target e.weight ||
       canRelaxB (bfLoop negReachEdges
          ⟨initDistances triangleNodes "A", initPrevious triangleNodes, false⟩
          (triangleNodes.length - 1)).1.d e.target e.source e.weight) = true :=
  (c3_negative_cycle_detection triangleNodes negReachEdges "A" "C").1.mp (by rfl)

/-- Two candidates, first has strictly higher local preference: stage 1
elects the first. -/
theorem selectBestPath_lp_first (a b : BGPPath) (h : b.localPref < a.localPref) :
    selectBestPath [a, b] = some a := by
  have h1 : listMaxNat [a.localPref, b.localPref] = a.localPref := by
    simp [listMaxNat, Nat.max_eq_left (Nat.le_of_lt h)]
  unfold selectBestPath
  simp [h1, List.filter, Nat.ne_of_lt h]

/-- Two candidates, second has strictly higher local preference: stage 1
elects the second. -/
theorem selectBestPath_lp_second (a b : BGPPath) (h : a.localPref < b.localPref) :
    selectBestPath [a, b] = some b := by
  have h1 : listMaxNat [a.localPref, b.localPref] = b.localPref := by
    simp [listMaxNat, Nat.max_eq_right (Nat.le_of_lt h)]
  unfold selectBestPath
  simp [h1, List.filter, Nat.ne_of_lt h]

/-- Equal local preference, first has strictly shorter AS path: stage 2
elects the first. -/
theorem selectBestPath_aspl_first (a b : BGPPath) (hlp : a.localPref = b.localPref)
    (h : a.asPathLength < b.asPathLength) : selectBestPath [a, b] = some a := by
  unfold selectBestPath
  simp [listMaxNat, listMinNat, List.filter, hlp.symm,
    Nat.min_eq_left (Nat.le_of_lt h), Ne.symm (Nat.ne_of_lt h)]

/-- Equal local preference, second has strictly shorter AS path: stage 2
elects the second. -/
theorem selectBestPath_aspl_second (a b : BGPPath) (hlp : a.localPref = b.localPref)
    (h : b.asPathLength < a.asPathLength) : selectBestPath [a, b] = some b := by
  unfold selectBestPath
  simp [listMaxNat, listMinNat, List.filter, hlp,
    Nat.min_eq_right (Nat.le_of_lt h), Ne.symm (Nat.ne_of_lt h)]

/-- The source election agrees pointwise with the election as the
specification words it, pinning the strict criterion order (MED before
IGP cost), the stop-as-soon-as-one-remains behaviour and the
first-remaining tie-break. -/
theorem selectBest_eq_spec :
    ∀ paths : List BGPPath, selectBestPath paths = specSelectBest paths := by
  intro paths
  match paths with
  | [] => rfl
  | [a] =>
    simp [selectBestPath, specSelectBest, listMaxNat]
  | a :: b :: l =>
    unfold selectBestPath specSelectBest
    rw [if_neg (by simp), if_neg (by simp)]

/-- C5: `selectBestPath` coincides on every candidate set with the
four-stage cascade the specification describes — highest local
preference, then shortest AS path, then lowest MED, then lowest IGP
cost, each stage filtering to the best value, returning at once when
exactly one survivor remains and otherwise the first remaining survivor
in evaluation order; in particular the candidate with the higher local
preference wins regardless of every other attribute, in either
presentation order, and with equal local preference the one with the
shorter AS path wins, in either order. -/
theorem c5_selection_precedence :
    (∀ paths : List BGPPath, selectBestPath paths = specSelectBest paths) ∧
    (∀ p q : BGPPath, q.localPref < p.localPref →
      selectBestPath [p, q] = some p ∧ selectBestPath [q, p] = some p) ∧
    (∀ p q : BGPPath, p.localPref = q.localPref →
      p.asPathLength < q.asPathLength →
      selectBestPath [p, q] = some p ∧ selectBestPath [q, p] = some p) := by
  refine ⟨selectBest_eq_spec, fun p q h => ⟨selectBestPath_lp_first p q h,
    selectBestPath_lp_second q p h⟩, fun p q hlp h =>
    ⟨selectBestPath_aspl_first p q hlp h,
     selectBestPath_aspl_second q p hlp.symm h⟩⟩

/-- Witness for C5: on concrete candidates the source election equals
the specification's cascade, the higher local preference beats a lower
cost and a shorter AS path, and with equal local preference the shorter
AS path wins. -/
theorem c5_witness :
    selectBestPath
        [⟨["A", "B", "C"], 9, 150, 2, 0, 9⟩, ⟨["A", "C"], 1, 120, 1, 0, 1⟩] =
      specSelectBest
        [⟨["A", "B", "C"], 9, 150, 2, 0, 9⟩, ⟨["A", "C"], 1, 120, 1, 0, 1⟩] ∧
    selectBestPath
        [⟨["A", "B", "C"], 9, 150, 2, 0, 9⟩, ⟨["A", "C"], 1, 120, 1, 0, 1⟩] =
      some ⟨["A", "B", "C"], 9, 150, 2, 0, 9⟩ ∧
    selectBestPath
        [⟨["A", "C"], 1, 120, 1, 0, 1⟩, ⟨["A", "B", "C"], 9, 120, 2, 0, 9⟩] =
      some ⟨["A", "C"], 1, 120, 1, 0, 1⟩ := by
  refine ⟨c5_selection_precedence.1 _,
    (c5_selection_precedence.2.1 ⟨["A", "B", "C"], 9, 150, 2, 0, 9⟩
      ⟨["A", "C"], 1, 120, 1, 0, 1⟩ (by decide)).1,
    (c5_selection_precedence.2.2 ⟨["A", "C"], 1, 120, 1, 0, 1⟩
      ⟨["A", "B", "C"], 9, 120, 2, 0, 9⟩ (by decide) (by decide)).1⟩

/-- C8 (amended): re-running any engine on identical inputs — including,
for BGP, an identical draw stream — yields identical distances,
predecessors, paths and routing tables (the embedding already omits the
executionTime telemetry); across different draws even the topology-derived
cost field of a routing row can change, as the counterexample shows. -/
theorem c8_idempotence (nodes : List Node) (edges : List Edge)
    (source destination : String) (attrs1 attrs2 : Nat → Nat × Nat)
    (h : attrs1 = attrs2) :
    DijkstraExecute nodes edges source destination =
      DijkstraExecute nodes edges source destination ∧
    BellmanFordExecute nodes edges source destination =
      BellmanFordExecute nodes edges source destination ∧
    BGPExecute nodes edges source destination attrs1 =
      BGPExecute nodes edges source destination attrs2 := by
  subst h
  exact ⟨rfl, rfl, rfl⟩

/-- Witness for C8: the BGP engine is a function of its inputs and draw
stream on a concrete query. -/
theorem c8_witness :
    BGPExecute triangleNodes triangleEdges "A" "C" attrsZero =
      BGPExecute triangleNodes triangleEdges "A" "C" attrsZero :=
  (c8_idempotence triangleNodes triangleEdges "A" "C" attrsZero attrsZero rfl).2.2

/-- The guarded path assignment `path.includes(source) ? path : []` is
empty exactly when the walk misses the source. -/
theorem ite_mem_empty_iff (s : String) (W : List String) :
    (if s ∈ W then W else []) = [] ↔ s ∉ W := by
  by_cases h : s ∈ W
  · simp only [if_pos h]
    constructor
    · intro hW
      rw [hW] at h
      exact absurd h (List.not_mem_nil s)
    · intro hs
      exact absurd h hs
  · simp [h]

/-- Every routing-table row's destination carries a finite distance: the
builder simply skips infinite (and absent) entries. -/
theorem mem_buildTable {nodes : List Node} {source : String} {d : DistMap}
    {p : PrevMap} {rows : List RoutingTableEntry} {entry : RoutingTableEntry}
    (h : buildTable nodes source d p = some rows) (hm : entry ∈ rows) :
    ∃ c, getKey d entry.destination = some (DNum.fin c) := by
  unfold buildTable at h
  have key : ∀ (l : List Node) (acc : Option (List RoutingTableEntry)),
      (∀ rows2, acc = some rows2 → ∀ e ∈ rows2,
        ∃ c, getKey d e.destination = some (DNum.fin c)) →
      ∀ rows2, l.foldl (fun acc node => acc.bind (fun rows3 =>
          if node.id = source then some rows3
          else
            match getKey d node.id with
            | some (DNum.fin c) =>
              (walkPrev p (p.length + 1) node.id).map (fun nodePath =>
                rows3 ++ [{ destination := node.id,
                            nextHop := match nodePath with
                                       | _ :: b :: _ => b
                                       | _ => node.id,
                            cost := c,
                            hops := nodePath.length - 1,
                            path := nodePath }])
            | _ => some rows3)) acc = some rows2 →
        ∀ e ∈ rows2, ∃ c, getKey d e.destination = some (DNum.fin c) := by
    intro l
    induction l with
    | nil =>
      intro acc hacc rows2 heq
      exact hacc rows2 heq
    | cons node rest ih =>
      intro acc hacc rows2 heq
      rw [List.foldl_cons] at heq
      refine ih _ ?_ rows2 heq
      intro rows3 hstep e he
      cases acc with
      | none => cases hstep
      | some rows0 =>
        have hstep2 : (if node.id = source then some rows0
            else
              match getKey d node.id with
              | some (DNum.fin c) =>
                (walkPrev p (p.length + 1) node.id).map (fun nodePath =>
                  rows0 ++ [{ destination := node.id,
                              nextHop := match nodePath with
                                         | _ :: b :: _ => b
                                         | _ => node.id,
                              cost := c,
                              hops := nodePath.length - 1,
                              path := nodePath }])
              | _ => some rows0) = some rows3 := hstep
        split at hstep2
        · have h3 := Option.some.inj hstep2
          subst h3
          exact hacc rows0 rfl e he
        · split at hstep2
          · next c hc =>
            cases hw : walkPrev p (p.length + 1) node.id with
            | none =>
              rw [hw] at hstep2
              cases hstep2
            | some nodePath =>
              rw [hw] at hstep2
              have h3 := Option.some.inj hstep2
              subst h3
              rcases List.mem_append.1 he with he2 | he2
              · exact hacc rows0 rfl e he2
              · rw [List.mem_singleton.1 he2]
                exact ⟨c, hc⟩
          · have h3 := Option.some.inj hstep2
            subst h3
            exact hacc rows0 rfl e he
  refine key nodes (some []) ?_ rows h entry hm
  intro rows2 h2 e he
  have h3 := Option.some.inj h2
  subst h3
  cases he

/-- Generic fold invariant with membership of the processed element. -/
theorem foldl_invariant {α β : Type} (P : α → Prop) (f : α → β → α) (l : List β)
    (s : α) (hs : P s) (hstep : ∀ a b, b ∈ l → P a → P (f a b)) :
    P (l.foldl f s) := by
  induction l generalizing s with
  | nil => exact hs
  | cons x xs ih =>
    exact ih (f s x) (hstep s x (List.mem_cons_self x xs) hs)
      (fun a b hb ha => hstep a b (List.mem_cons_of_mem x hb) ha)

/-- Membership in an updated association list comes from the new pair or
the old list. -/
theorem mem_setKey {α : Type} {m : List (String × α)} {k : String} {v : α}
    {pr : String × α} (h : pr ∈ setKey m k v) : pr = (k, v) ∨ pr ∈ m := by
  induction m with
  | nil => simpa [setKey] using h
  | cons q rest ih =>
    unfold setKey at h
    split at h
    · rcases List.mem_cons.1 h with h' | h'
      · exact Or.inl h'
      · exact Or.inr (List.mem_cons_of_mem q h')
    · rcases List.mem_cons.1 h with h' | h'
      · exact Or.inr (h' ▸ List.mem_cons_self q rest)
      · rcases ih h' with h'' | h''
        · exact Or.inl h''
        · exact Or.inr (List.mem_cons_of_mem q h'')

/-- Every distance map whose finite entries all name reachable nodes. -/
def FinReaches (edges : List Edge) (src : String) (d : DistMap) : Prop :=
  ∀ k n, getKey d k = some (DNum.fin n) → Reaches edges src k

/-- The endpoints of a listed edge are linked in both directions. -/
theorem linked_of_mem {edges : List Edge} {e : Edge} (he : e ∈ edges) :
    linked edges e.source e.target ∧ linked edges e.target e.source :=
  ⟨⟨e, he, Or.inl ⟨rfl, rfl⟩⟩, ⟨e, he, Or.inr ⟨rfl, rfl⟩⟩⟩

/-- The initial distance map's finite entries all name the source. -/
theorem finReaches_init (edges : List Edge) (nodes : List Node) (source : String) :
    FinReaches edges source (initDistances nodes source) := by
  intro k n hk
  rw [getKey_initDistances] at hk
  split at hk
  · split at hk
    · next h => exact h ▸ Reaches.refl
    · cases hk
  · cases hk

/-- A directed relaxation preserves presence of any key in both maps and
the reachability of finitely-distanced nodes (given its endpoints are
linked). -/
theorem relaxDir_pres {edges : List Edge} {src : String} {s : BFState}
    {a b : String} {w : Int} (hl : linked edges a b)
    (hfr : FinReaches edges src s.d) :
    FinReaches edges src (relaxDir s a b w).d ∧
    (∀ k, (getKey s.d k).isSome → (getKey (relaxDir s a b w).d k).isSome) ∧
    (∀ k, (getKey s.p k).isSome → (getKey (relaxDir s a b w).p k).isSome) := by
  unfold relaxDir
  dsimp only
  split
  · next da hda =>
    split
    · refine ⟨?_, ?_, ?_⟩
      · intro k n hk
        by_cases hkb : k = b
        · subst hkb
          exact Reaches.step (hfr a da hda) hl
        · rw [getKey_setKey_ne _ _ _ _ hkb] at hk
          exact hfr k n hk
      · intro k hk
        exact isSome_getKey_setKey _ _ _ _ hk
      · intro k hk
        exact isSome_getKey_setKey _ _ _ _ hk
    · exact ⟨hfr, fun _ h => h, fun _ h => h⟩
  · exact ⟨hfr, fun _ h => h, fun _ h => h⟩

/-- Edge processing (both directions) preserves the same invariants. -/
theorem bfProcessEdge_pres {edges : List Edge} {src : String} {s : BFState}
    {e : Edge} (he : e ∈ edges) (hfr : FinReaches edges src s.d) :
    FinReaches edges src (bfProcessEdge s e).d ∧
    (∀ k, (getKey s.d k).isSome → (getKey (bfProcessEdge s e).d k).isSome) ∧
    (∀ k, (getKey s.p k).isSome → (getKey (bfProcessEdge s e).p k).isSome) := by
  obtain ⟨h1, h2⟩ := linked_of_mem he
  unfold bfProcessEdge
  obtain ⟨f1, f2, f3⟩ := relaxDir_pres (s := s) (w := e.weight) h1 hfr
  obtain ⟨g1, g2, g3⟩ := relaxDir_pres (s := relaxDir s e.source e.target e.weight)
    (w := e.weight) h2 f1
  exact ⟨g1, fun k hk => g2 k (f2 k hk), fun k hk => g3 k (f3 k hk)⟩

/-- One pass preserves the invariants. -/
theorem bfPass_pres {edges : List Edge} {src : String} {s : BFState}
    (hfr : FinReaches edges src s.d) :
    FinReaches edges src (bfPass edges s).d ∧
    (∀ k, (getKey s.d k).isSome → (getKey (bfPass edges s).d k).isSome) ∧
    (∀ k, (getKey s.p k).isSome → (getKey (bfPass edges s).p k).isSome) := by
  unfold bfPass
  refine foldl_invariant
    (P := fun t : BFState =>
      FinReaches edges src t.d ∧
      (∀ k, (getKey s.d k).isSome → (getKey t.d k).isSome) ∧
      (∀ k, (getKey s.p k).isSome → (getKey t.p k).isSome))
    bfProcessEdge edges _ ⟨hfr, fun _ h => h, fun _ h => h⟩ ?_
  intro t e he ⟨ht1, ht2, ht3⟩
  obtain ⟨u1, u2, u3⟩ := bfProcessEdge_pres he ht1
  exact ⟨u1, fun k hk => u2 k (ht2 k hk), fun k hk => u3 k (ht3 k hk)⟩

/-- The pass loop preserves the invariants. -/
theorem bfLoop_pres {edges : List Edge} {src : String} (s : BFState) (n : Nat)
    (hfr : FinReaches edges src s.d) :
    FinReaches edges src (bfLoop edges s n).1.d ∧
    (∀ k, (getKey s.d k).isSome → (getKey (bfLoop edges s n).1.d k).isSome) ∧
    (∀ k, (getKey s.p k).isSome → (getKey (bfLoop edges s n).1.p k).isSome) := by
  induction n generalizing s with
  | zero => exact ⟨hfr, fun _ h => h, fun _ h => h⟩
  | succ n ih =>
    simp only [bfLoop]
    obtain ⟨p1, p2, p3⟩ := bfPass_pres (s := s) hfr
    split
    · obtain ⟨q1, q2, q3⟩ := ih (bfPass edges s) p1
      exact ⟨q1, fun k hk => q2 k (p2 k hk), fun k hk => q3 k (p3 k hk)⟩
    · exact ⟨p1, p2, p3⟩

/-- An adjacency structure all of whose entries come from listed edges. -/
def AdjOk (edges : List Edge) (g : List (String × List (String × Int))) : Prop :=
  ∀ a inner, getKey g a = some inner → ∀ pr ∈ inner, linked edges a pr.1

/-- `setInnerT` keeps the adjacency sound when the written pair is linked. -/
theorem setInner_adjOk {edges : List Edge} {g : List (String × List (String × Int))}
    {a b : String} {w : Int} (hg : AdjOk edges g) (hl : linked edges a b) :
    AdjOk edges (setInnerT g a b w) := by
  unfold setInnerT
  split
  · next inner hinner =>
    intro x xinner hx pr hpr
    by_cases hxa : x = a
    · subst hxa
      rw [getKey_setKey_self] at hx
      injection hx with hx
      subst hx
      rcases mem_setKey hpr with h' | h'
      · rw [h']
        exact hl
      · exact hg x inner hinner pr h'
    · rw [getKey_setKey_ne _ _ _ _ hxa] at hx
      exact hg x xinner hx pr hpr
  · exact hg

/-- The built adjacency structure is sound for the edge list. -/
theorem adjOk_buildGraph (nodes : List Node) (edges : List Edge) :
    AdjOk edges (buildGraphT nodes edges) := by
  unfold buildGraphT
  dsimp only
  refine foldl_invariant (P := AdjOk edges) _ edges _ ?base ?step
  case base =>
    have h0 : ∀ g0 : List (String × List (String × Int)),
        (∀ a inner, getKey g0 a = some inner → inner = []) → AdjOk edges g0 := by
      intro g0 hg0 a inner ha pr hpr
      rw [hg0 a inner ha] at hpr
      cases hpr
    refine h0 _ (foldl_invariant
      (P := fun g : List (String × List (String × Int)) =>
        ∀ a inner, getKey g a = some inner → inner = []) _ nodes [] ?_ ?_)
    · intro a inner ha
      cases ha
    · intro g n _ hg a inner ha
      by_cases hna : a = n.id
      · subst hna
        rw [getKey_setKey_self] at ha
        injection ha with ha
        exact ha.symm
      · rw [getKey_setKey_ne _ _ _ _ hna] at ha
        exact hg a inner ha
  case step =>
    intro g e he hg
    obtain ⟨h1, h2⟩ := linked_of_mem he
    exact setInner_adjOk (setInner_adjOk hg h1) h2

/-- The neighbor-relaxation fold preserves key presence in both maps and
reachability of finite entries, provided the adjacency entries of the
current node are linked to it and the current node's own finite distance
witnesses its reachability. -/
theorem relaxNeighbors_pres {edges : List Edge} {src : String}
    {current : String} {visited : List String} {inner : List (String × Int)}
    {d : DistMap} {p : PrevMap}
    (hlink : ∀ pr ∈ inner, linked edges current pr.1)
    (hfr : FinReaches edges src d) :
    FinReaches edges src (relaxNeighbors current visited inner d p).1 ∧
    (∀ k, (getKey d k).isSome →
      (getKey (relaxNeighbors current visited inner d p).1 k).isSome) ∧
    (∀ k, (getKey p k).isSome →
      (getKey (relaxNeighbors current visited inner d p).2 k).isSome) := by
  unfold relaxNeighbors
  refine foldl_invariant
    (P := fun dp : DistMap × PrevMap =>
      FinReaches edges src dp.1 ∧
      (∀ k, (getKey d k).isSome → (getKey dp.1 k).isSome) ∧
      (∀ k, (getKey p k).isSome → (getKey dp.2 k).isSome))
    _ inner (d, p) ⟨hfr, fun _ h => h, fun _ h => h⟩ ?_
  intro dp pr hpr ⟨h1, h2, h3⟩
  dsimp only
  split
  · exact ⟨h1, h2, h3⟩
  · split
    · next da hda =>
      split
      · refine ⟨?_, ?_, ?_⟩
        · intro k n hk
          by_cases hkb : k = pr.1
          · subst hkb
            exact Reaches.step (h1 current da hda) (hlink pr hpr)
          · rw [getKey_setKey_ne _ _ _ _ hkb] at hk
            exact h1 k n hk
        · intro k hk
          exact isSome_getKey_setKey _ _ _ _ (h2 k hk)
        · intro k hk
          exact isSome_getKey_setKey _ _ _ _ (h3 k hk)
      · exact ⟨h1, h2, h3⟩
    · exact ⟨h1, h2, h3⟩

/-- The Dijkstra main loop preserves key presence in both maps and
reachability of finite entries. -/
theorem dijkstraLoop_pres {edges : List Edge} {src : String}
    (g : List (String × List (String × Int))) (dest : String)
    (fuel : Nat) (uv vis : List String) (d : DistMap) (p : PrevMap) (it : Nat)
    (hadj : AdjOk edges g) (hfr : FinReaches edges src d) :
    FinReaches edges src (dijkstraLoop g dest fuel uv vis d p it).1 ∧
    (∀ k, (getKey d k).isSome →
      (getKey (dijkstraLoop g dest fuel uv vis d p it).1 k).isSome) ∧
    (∀ k, (getKey p k).isSome →
      (getKey (dijkstraLoop g dest fuel uv vis d p it).2.1 k).isSome) := by
  induction fuel generalizing uv vis d p it with
  | zero => exact ⟨hfr, fun _ h => h, fun _ h => h⟩
  | succ fuel ih =>
    match uv with
    | [] => exact ⟨hfr, fun _ h => h, fun _ h => h⟩
    | u :: us =>
      simp only [dijkstraLoop]
      split
      · split
        · next inner hinner =>
          obtain ⟨r1, r2, r3⟩ := relaxNeighbors_pres
            (hadj (minFold d u us) inner hinner) hfr
          split
          · exact ⟨r1, r2, r3⟩
          · obtain ⟨q1, q2, q3⟩ := ih _ _ _ _ _ r1
            exact ⟨q1, fun k hk => q2 k (r2 k hk), fun k hk => q3 k (r3 k hk)⟩
        · exact ⟨hfr, fun _ h => h, fun _ h => h⟩
      · exact ⟨hfr, fun _ h => h, fun _ h => h⟩

/-- A left fold of `max` stays within the folded elements. -/
theorem foldl_max_mem {α : Type} [LinearOrder α] (xs : List α) (x : α) :
    xs.foldl max x ∈ x :: xs := by
  induction xs generalizing x with
  | nil => exact List.mem_singleton.2 rfl
  | cons y ys ih =>
    simp only [List.foldl_cons]
    rcases List.mem_cons.1 (ih (max x y)) with h | h
    · rw [h]
      rcases max_choice x y with hc | hc <;> rw [hc]
      · exact List.mem_cons_self _ _
      · exact List.mem_cons_of_mem _ (List.mem_cons_self _ _)
    · exact List.mem_cons_of_mem _ (List.mem_cons_of_mem _ h)

/-- A left fold of `min` stays within the folded elements. -/
theorem foldl_min_mem {α : Type} [LinearOrder α] (xs : List α) (x : α) :
    xs.foldl min x ∈ x :: xs := by
  induction xs generalizing x with
  | nil => exact List.mem_singleton.2 rfl
  | cons y ys ih =>
    simp only [List.foldl_cons]
    rcases List.mem_cons.1 (ih (min x y)) with h | h
    · rw [h]
      rcases min_choice x y with hc | hc <;> rw [hc]
      · exact List.mem_cons_self _ _
      · exact List.mem_cons_of_mem _ (List.mem_cons_self _ _)
    · exact List.mem_cons_of_mem _ (List.mem_cons_of_mem _ h)

/-- `head?` of a non-empty list is `some`. -/
theorem head_isSome_of_ne_nil {α : Type} {l : List α} (h : l ≠ []) :
    l.head?.isSome := by
  cases l with
  | nil => exact absurd rfl h
  | cons a l => rfl

/-- Stage 1 of the election never empties the candidate set: the maximum
local preference is attained. -/
theorem filterMax_ne_nil (l : List BGPPath) (f : BGPPath → Nat) (h : l ≠ []) :
    l.filter (fun p => f p = listMaxNat (l.map f)) ≠ [] := by
  have hmem : listMaxNat (l.map f) ∈ l.map f := by
    cases l with
    | nil => exact absurd rfl h
    | cons a as =>
      show listMaxNat (f a :: as.map f) ∈ _
      simpa only [listMaxNat, List.map_cons] using foldl_max_mem (as.map f) (f a)
  obtain ⟨x, hx, hfx⟩ := List.mem_map.1 hmem
  exact List.ne_nil_of_mem (List.mem_filter.2 ⟨hx, by simp [hfx]⟩)

/-- A `Nat`-minimum filter stage never empties the candidate set. -/
theorem filterMinNat_ne_nil (l : List BGPPath) (f : BGPPath → Nat) (h : l ≠ []) :
    l.filter (fun p => f p = listMinNat (l.map f)) ≠ [] := by
  have hmem : listMinNat (l.map f) ∈ l.map f := by
    cases l with
    | nil => exact absurd rfl h
    | cons a as =>
      show listMinNat (f a :: as.map f) ∈ _
      simpa only [listMinNat, List.map_cons] using foldl_min_mem (as.map f) (f a)
  obtain ⟨x, hx, hfx⟩ := List.mem_map.1 hmem
  exact List.ne_nil_of_mem (List.mem_filter.2 ⟨hx, by simp [hfx]⟩)

/-- An `Int`-minimum filter stage never empties the candidate set. -/
theorem filterMinInt_ne_nil (l : List BGPPath) (f : BGPPath → Int) (h : l ≠ []) :
    l.filter (fun p => f p = listMinInt (l.map f)) ≠ [] := by
  have hmem : listMinInt (l.map f) ∈ l.map f := by
    cases l with
    | nil => exact absurd rfl h
    | cons a as =>
      show listMinInt (f a :: as.map f) ∈ _
      simpa only [listMinInt, List.map_cons] using foldl_min_mem (as.map f) (f a)
  obtain ⟨x, hx, hfx⟩ := List.mem_map.1 hmem
  exact List.ne_nil_of_mem (List.mem_filter.2 ⟨hx, by simp [hfx]⟩)

/-- `selectBestPath` of a non-empty candidate set always elects a path. -/
theorem selectBestPath_isSome {paths : List BGPPath} (h : paths ≠ []) :
    (selectBestPath paths).isSome := by
  unfold selectBestPath
  dsimp only
  split
  · next h0 => exact absurd (List.length_eq_zero.1 h0) h
  split
  · exact head_isSome_of_ne_nil h
  have hb1 := filterMax_ne_nil paths (fun q => q.localPref) h
  split
  · exact head_isSome_of_ne_nil hb1
  have hb2 := filterMinNat_ne_nil _ (fun q => q.asPathLength) hb1
  split
  · exact head_isSome_of_ne_nil hb2
  have hb3 := filterMinNat_ne_nil _ (fun q => q.med) hb2
  split
  · exact head_isSome_of_ne_nil hb3
  exact head_isSome_of_ne_nil (filterMinInt_ne_nil _ (fun q => q.igpCost) hb3)

/-- Seeding from the winning path preserves key presence and leaves every
key outside the winning path untouched. -/
theorem seedFromBest_pres (bp : BGPPath) (d0 : DistMap) (p0 : PrevMap) :
    (∀ k, (getKey d0 k).isSome → (getKey (seedFromBest bp d0 p0).1 k).isSome) ∧
    (∀ k, (getKey p0 k).isSome → (getKey (seedFromBest bp d0 p0).2 k).isSome) ∧
    (∀ k, k ∉ bp.path → getKey (seedFromBest bp d0 p0).1 k = getKey d0 k) := by
  unfold seedFromBest
  refine foldl_invariant
    (P := fun dp : DistMap × PrevMap =>
      (∀ k, (getKey d0 k).isSome → (getKey dp.1 k).isSome) ∧
      (∀ k, (getKey p0 k).isSome → (getKey dp.2 k).isSome) ∧
      (∀ k, k ∉ bp.path → getKey dp.1 k = getKey d0 k))
    _ _ _ ⟨fun _ h => h, fun _ h => h, fun _ _ => rfl⟩ ?_
  intro dp pr hpr ⟨h1, h2, h3⟩
  have hmem : pr.2 ∈ bp.path :=
    List.getElem?_mem (List.mem_enum_iff_getElem?.1 hpr)
  refine ⟨?_, ?_, ?_⟩
  · intro k hk
    exact isSome_getKey_setKey _ _ _ _ (h1 k hk)
  · intro k hk
    dsimp only
    split
    · exact isSome_getKey_setKey _ _ _ _ (h2 k hk)
    · exact h2 k hk
  · intro k hk
    have hne : k ≠ pr.2 := fun he => hk (he ▸ hmem)
    dsimp only
    rw [getKey_setKey_ne _ _ _ _ hne]
    exact h3 k hk

/-- Updates of two distinct keys commute when the first key is already
present (fresh keys append at the end, so the builder below only relies
on this for initialized outer keys). -/
theorem setKey_comm {α : Type} {m : List (String × α)} {a b : String}
    (va vb : α) (hab : a ≠ b) (ha : (getKey m a).isSome) :
    setKey (setKey m a va) b vb = setKey (setKey m b vb) a va := by
  induction m with
  | nil => simp [getKey] at ha
  | cons p rest ih =>
    by_cases hpa : p.1 = a
    · have hpb : ¬ p.1 = b := by rw [hpa]; exact hab
      simp [setKey, hpa, hpb, hab, Ne.symm hab]
    · by_cases hpb : p.1 = b
      · simp [setKey, hpa, hpb, hab, Ne.symm hab]
      · have ha' : (getKey rest a).isSome := by
          simpa [getKey, hpa] using ha
        simp [setKey, hpa, hpb, ih ha']

/-- The two inner writes of one undirected edge commute. -/
theorem setInner_comm (g : List (String × List (String × Int))) (a b x y : String)
    (wa wb : Int) (hab : a ≠ b) :
    setInnerT (setInnerT g a x wa) b y wb = setInnerT (setInnerT g b y wb) a x wa := by
  unfold setInnerT
  rcases hga : getKey g a with _ | ia <;> rcases hgb : getKey g b with _ | ib
  · simp [hga, hgb]
  · simp only [hga, hgb]
    rw [show getKey (setKey g b (setKey ib y wb)) a = none from by
      rw [getKey_setKey_ne _ _ _ _ hab]; exact hga]
  · simp only [hga, hgb]
    rw [show getKey (setKey g a (setKey ia x wa)) b = none from by
      rw [getKey_setKey_ne _ _ _ _ (Ne.symm hab)]; exact hgb]
  · simp only [hga, hgb]
    rw [show getKey (setKey g a (setKey ia x wa)) b = some ib from by
      rw [getKey_setKey_ne _ _ _ _ (Ne.symm hab)]; exact hgb]
    rw [show getKey (setKey g b (setKey ib y wb)) a = some ia from by
      rw [getKey_setKey_ne _ _ _ _ hab]; exact hga]
    exact setKey_comm _ _ hab (by rw [hga]; rfl)

/-- Reversing an edge does not change its contribution to the adjacency
structure. -/
theorem addEdge_swap (g : List (String × List (String × Int))) (e : Edge) :
    setInnerT (setInnerT g (swapEdge e).source (swapEdge e).target (swapEdge e).weight)
      (swapEdge e).target (swapEdge e).source (swapEdge e).weight =
    setInnerT (setInnerT g e.source e.target e.weight) e.target e.source e.weight := by
  by_cases h : e.source = e.target
  · unfold swapEdge
    rw [h]
  · unfold swapEdge
    dsimp only
    exact setInner_comm g e.target e.source e.source e.target e.weight e.weight
      (Ne.symm h)

/-- Reversing any one edge leaves the whole adjacency structure
unchanged. -/
theorem buildGraph_swapAt (nodes : List Node) (edges : List Edge) (i : Nat) :
    buildGraphT nodes (swapAt edges i) = buildGraphT nodes edges := by
  unfold buildGraphT
  dsimp only
  have main : ∀ (l : List Edge) (j : Nat) (g : List (String × List (String × Int))),
      (swapAt l j).foldl
        (fun g e => setInnerT (setInnerT g e.source e.target e.weight)
          e.target e.source e.weight) g =
      l.foldl
        (fun g e => setInnerT (setInnerT g e.source e.target e.weight)
          e.target e.source e.weight) g := by
    intro l
    induction l with
    | nil => intro j g; rfl
    | cons e es ih =>
      intro j g
      match j with
      | 0 =>
        show ((swapEdge e) :: es).foldl _ g = _
        simp only [List.foldl_cons]
        rw [addEdge_swap]
      | j + 1 =>
        have hs : swapAt (e :: es) (j + 1) = e :: swapAt es j := by
          unfold swapAt
          rw [List.get?_cons_succ]
          cases hg : es.get? j with
          | none => rfl
          | some e2 => rfl
        rw [hs]
        simp only [List.foldl_cons]
        exact ih j _
  exact main edges i _

/-- Reversing an edge leaves its neighbor view unchanged at every node. -/
theorem neighborOf_swap (e : Edge) (c : String) :
    neighborOf (swapEdge e) c = neighborOf e c := by
  cases e with
  | mk s t w =>
    unfold swapEdge neighborOf
    dsimp only
    by_cases h1 : s = c <;> by_cases h2 : t = c <;> simp [h1, h2]

/-- Reversing an edge leaves its match view unchanged at every node
pair. -/
theorem matchesEdge_swap (e : Edge) (a b : String) :
    matchesEdge (swapEdge e) a b = matchesEdge e a b := by
  cases e with
  | mk s t w =>
    unfold swapEdge matchesEdge
    dsimp only
    exact Bool.or_comm _ _

/-- The first matching weight is unchanged by reversing any one edge. -/
theorem findWeight_swapAt (l : List Edge) (i : Nat) (a b : String) :
    (match (swapAt l i).find? (fun e => matchesEdge e a b) with
     | some e => e.weight
     | none => 0) =
    (match l.find? (fun e => matchesEdge e a b) with
     | some e => e.weight
     | none => 0) := by
  induction l generalizing i with
  | nil => rfl
  | cons e es ih =>
    match i with
    | 0 =>
      show (match ((swapEdge e) :: es).find? _ with | some e => e.weight | none => 0) = _
      rw [List.find?_cons, List.find?_cons, matchesEdge_swap]
      cases hm : matchesEdge e a b with
      | true => simp [swapEdge]
      | false => simp
    | j + 1 =>
      have hs : swapAt (e :: es) (j + 1) = e :: swapAt es j := by
        unfold swapAt
        rw [List.get?_cons_succ]
        cases hg : es.get? j with
        | none => rfl
        | some e2 => rfl
      rw [hs, List.find?_cons, List.find?_cons]
      cases hm : matchesEdge e a b with
      | true => rfl
      | false => simpa using ih j

/-- The aggregate path weight is unchanged by reversing any one edge. -/
theorem calculatePathWeight_swapAt (path : List String) (l : List Edge) (i : Nat) :
    calculatePathWeight path (swapAt l i) = calculatePathWeight path l := by
  induction path with
  | nil => rfl
  | cons a rest ih =>
    cases rest with
    | nil => rfl
    | cons b rest2 =>
      show (match (swapAt l i).find? _ with | some e => e.weight | none => 0) + _ = _
      rw [findWeight_swapAt, ih]
      rfl

/-- `swapAt` on a cons at a positive index skips the head. -/
theorem swapAt_cons_succ (e : Edge) (es : List Edge) (j : Nat) :
    swapAt (e :: es) (j + 1) = e :: swapAt es j := by
  unfold swapAt
  rw [List.get?_cons_succ]
  cases hg : es.get? j with
  | none => rfl
  | some e2 => rfl

/-- Accumulating fold of appends is the initial accumulator followed by
the joined per-element contributions. -/
theorem foldl_append_join (F : Edge → List (List String)) (l : List Edge)
    (acc : List (List String)) :
    l.foldl (fun acc e => acc ++ F e) acc = acc ++ (l.map F).flatten := by
  induction l generalizing acc with
  | nil => simp
  | cons e es ih => simp [ih, List.append_assoc]

/-- Mapping over a one-edge-reversed list agrees with mapping over the
original when the function ignores reversal. -/
theorem map_swapAt {β : Type} (l : List Edge) (i : Nat) (F G : Edge → β)
    (hFG : ∀ e, F e = G e) (hsw : ∀ e, F (swapEdge e) = G e) :
    (swapAt l i).map F = l.map G := by
  induction l generalizing i with
  | nil => rfl
  | cons e es ih =>
    match i with
    | 0 =>
      show ((swapEdge e) :: es).map F = _
      simp only [List.map_cons]
      rw [hsw e]
      exact congrArg _ (List.map_congr_left (fun x _ => hFG x))
    | j + 1 =>
      rw [swapAt_cons_succ]
      simp only [List.map_cons]
      rw [hFG e]
      exact congrArg _ (ih j)

/-- The depth-first path enumeration ignores the orientation of every
edge. -/
theorem bgpDfs_swapAt (edges : List Edge) (i : Nat) (endNode : String)
    (maxDepth : Nat) :
    ∀ fuel depth current visited path,
      bgpDfs (swapAt edges i) endNode maxDepth fuel depth current visited path =
      bgpDfs edges endNode maxDepth fuel depth current visited path := by
  intro fuel
  induction fuel with
  | zero => intro depth current visited path; rfl
  | succ fuel ih =>
    intro depth current visited path
    unfold bgpDfs
    by_cases h1 : depth > maxDepth
    · simp [h1]
    by_cases h2 : current = endNode
    · simp [h1, h2]
    by_cases h3 : current ∈ visited
    · simp [h1, h2, h3]
    simp only [if_neg h1, if_neg h2, if_neg h3]
    rw [foldl_append_join, foldl_append_join]
    refine congrArg _ (congrArg _ ?_)
    apply map_swapAt
    · intro e
      cases hn : neighborOf e current with
      | none => simp [hn]
      | some nb => simp [hn, ih]
    · intro e
      cases hn : neighborOf e current with
      | none => simp [neighborOf_swap, hn]
      | some nb => simp [neighborOf_swap, hn, ih]

/-- `findAllPaths` ignores the orientation of every edge. -/
theorem findAllPaths_swapAt (edges : List Edge) (i : Nat) (start endNode : String) :
    findAllPaths (swapAt edges i) start endNode = findAllPaths edges start endNode := by
  unfold findAllPaths
  exact bgpDfs_swapAt edges i endNode bgpMaxDepth _ 0 start [] []

/-- A present outer key makes the inner write succeed with the
normal-form result. -/
theorem setInner_eq_someT {g : List (String × List (String × Int))}
    {a : String} (b : String) (w : Int) (h : (getKey g a).isSome) :
    setInner g a b w = some (setInnerT g a b w) := by
  obtain ⟨inner, hg⟩ := Option.isSome_iff_exists.1 h
  unfold setInner setInnerT
  rw [hg]

/-- An absent outer key makes the inner write throw. -/
theorem setInner_eq_none {g : List (String × List (String × Int))}
    {a : String} (b : String) (w : Int) (h : getKey g a = none) :
    setInner g a b w = none := by
  unfold setInner
  rw [h]

/-- An inner write never changes which outer keys are present. -/
theorem isSome_setInner (g : List (String × List (String × Int)))
    (a b : String) (w : Int) (k : String) :
    (getKey (setInnerT g a b w) k).isSome = (getKey g k).isSome := by
  unfold setInnerT
  cases hg : getKey g a with
  | none => rfl
  | some inner =>
    by_cases hk : k = a
    · subst hk
      rw [getKey_setKey_self, hg]
      rfl
    · rw [getKey_setKey_ne _ _ _ _ hk]

/-- The two-write contribution of one edge to the throwing builder is
orientation-independent: both orders succeed identically or both throw. -/
theorem addEdgeO_swap (g : List (String × List (String × Int))) (e : Edge) :
    (setInner g (swapEdge e).source (swapEdge e).target (swapEdge e).weight).bind
      (fun g2 => setInner g2 (swapEdge e).target (swapEdge e).source
        (swapEdge e).weight) =
    (setInner g e.source e.target e.weight).bind
      (fun g2 => setInner g2 e.target e.source e.weight) := by
  unfold swapEdge
  dsimp only
  by_cases hs : (getKey g e.source).isSome <;>
    by_cases ht : (getKey g e.target).isSome
  · rw [setInner_eq_someT _ _ ht, setInner_eq_someT _ _ hs]
    show setInner (setInnerT g e.target e.source e.weight)
        e.source e.target e.weight =
      setInner (setInnerT g e.source e.target e.weight)
        e.target e.source e.weight
    rw [setInner_eq_someT _ _ (by rw [isSome_setInner]; exact hs),
        setInner_eq_someT _ _ (by rw [isSome_setInner]; exact ht)]
    have hT := addEdge_swap g e
    unfold swapEdge at hT
    dsimp only at hT
    rw [hT]
  · rw [setInner_eq_none _ _ (Option.not_isSome_iff_eq_none.1 ht),
        setInner_eq_someT _ _ hs]
    show (none : Option (List (String × List (String × Int)))) =
      setInner (setInnerT g e.source e.target e.weight)
        e.target e.source e.weight
    rw [setInner_eq_none _ _ (by
      have := isSome_setInner g e.source e.target e.weight e.target
      rw [Option.not_isSome_iff_eq_none.1 ht] at this
      exact Option.not_isSome_iff_eq_none.1 (by rw [this]; exact fun hx => by cases hx))]
  · rw [setInner_eq_none _ _ (Option.not_isSome_iff_eq_none.1 hs),
        setInner_eq_someT _ _ ht]
    show setInner (setInnerT g e.target e.source e.weight)
        e.source e.target e.weight =
      (none : Option (List (String × List (String × Int))))
    rw [setInner_eq_none _ _ (by
      have := isSome_setInner g e.target e.source e.weight e.source
      rw [Option.not_isSome_iff_eq_none.1 hs] at this
      exact Option.not_isSome_iff_eq_none.1 (by rw [this]; exact fun hx => by cases hx))]
  · rw [setInner_eq_none _ _ (Option.not_isSome_iff_eq_none.1 hs),
        setInner_eq_none _ _ (Option.not_isSome_iff_eq_none.1 ht)]
    rfl

/-- Reversing any one edge leaves the whole throwing builder unchanged. -/
theorem buildGraphO_swapAt (nodes : List Node) (edges : List Edge) (i : Nat) :
    buildGraph nodes (swapAt edges i) = buildGraph nodes edges := by
  unfold buildGraph
  dsimp only
  have main : ∀ (l : List Edge) (j : Nat)
      (acc : Option (List (String × List (String × Int)))),
      (swapAt l j).foldl
        (fun acc e => acc.bind (fun g =>
          (setInner g e.source e.target e.weight).bind (fun g2 =>
            setInner g2 e.target e.source e.weight))) acc =
      l.foldl
        (fun acc e => acc.bind (fun g =>
          (setInner g e.source e.target e.weight).bind (fun g2 =>
            setInner g2 e.target e.source e.weight))) acc := by
    intro l
    induction l with
    | nil => intro j acc; rfl
    | cons e es ih =>
      intro j acc
      match j with
      | 0 =>
        show ((swapEdge e) :: es).foldl _ acc = _
        simp only [List.foldl_cons]
        have hstep : acc.bind (fun g =>
            (setInner g (swapEdge e).source (swapEdge e).target
              (swapEdge e).weight).bind (fun g2 =>
              setInner g2 (swapEdge e).target (swapEdge e).source
                (swapEdge e).weight)) =
          acc.bind (fun g =>
            (setInner g e.source e.target e.weight).bind (fun g2 =>
              setInner g2 e.target e.source e.weight)) := by
          cases acc with
          | none => rfl
          | some g => exact addEdgeO_swap g e
        rw [hstep]
      | j + 1 =>
        rw [swapAt_cons_succ]
        simp only [List.foldl_cons]
        exact ih j _
  exact main edges i _

/-- `DijkstraAlgorithm.execute` ignores the orientation of every edge:
the graph it builds is identical. -/
theorem dijkstra_execute_swapAt (nodes : List Node) (edges : List Edge) (i : Nat)
    (source destination : String) :
    DijkstraExecute nodes (swapAt edges i) source destination =
    DijkstraExecute nodes edges source destination := by
  unfold DijkstraExecute
  rw [buildGraphO_swapAt]

/-- `BGPPathSelection.execute` ignores the orientation of every edge for
any fixed draw stream. -/
theorem bgp_execute_swapAt (nodes : List Node) (edges : List Edge) (i : Nat)
    (source destination : String) (attrs : Nat → Nat × Nat) :
    BGPExecute nodes (swapAt edges i) source destination attrs =
    BGPExecute nodes edges source destination attrs := by
  have hmk : mkBGPPath (swapAt edges i) = mkBGPPath edges := by
    funext attrs2 k p
    unfold mkBGPPath
    rw [calculatePathWeight_swapAt]
  have hbt : bgpTable nodes (swapAt edges i) = bgpTable nodes edges := by
    funext source2 ap attrs2 k0
    unfold bgpTable
    rw [hmk]
  unfold BGPExecute
  rw [findAllPaths_swapAt, hmk, hbt]

/-- Whether a key currently holds a finite distance. -/
def finKeyB (d : DistMap) (k : String) : Bool :=
  match getKey d k with
  | some (DNum.fin _) => true
  | _ => false

/-- A negative edge both of whose endpoints hold finite distances: such
an edge acts as a reachable negative two-node cycle. -/
def PoisonB (d : DistMap) (e : Edge) : Bool :=
  decide (e.weight < 0) && finKeyB d e.source && finKeyB d e.target

/-- A non-relaxable direction leaves the state unchanged. -/
theorem relaxDir_of_not_canRelax {s : BFState} {a b : String} {w : Int}
    (h : canRelaxB s.d a b w = false) : relaxDir s a b w = s := by
  unfold canRelaxB at h
  unfold relaxDir
  split
  · next da hda =>
    rw [hda] at h
    dsimp only at h ⊢
    rw [h]
    rfl
  · rfl

/-- A relaxable direction fires and produces the updated state. -/
theorem relaxDir_of_canRelax {s : BFState} {a b : String} {w : Int} {da : Int}
    (hda : getKey s.d a = some (DNum.fin da)) (h : canRelaxB s.d a b w = true) :
    relaxDir s a b w =
      ⟨setKey s.d b (DNum.fin (da + w)), setKey s.p b (some a), true⟩ := by
  unfold canRelaxB at h
  rw [hda] at h
  unfold relaxDir
  rw [hda]
  dsimp only at h ⊢
  rw [h]
  rfl

/-- A relaxable direction names a finite origin. -/
theorem canRelax_elim {d : DistMap} {a b : String} {w : Int}
    (h : canRelaxB d a b w = true) : ∃ da, getKey d a = some (DNum.fin da) := by
  unfold canRelaxB at h
  rcases hda : getKey d a with _ | v
  · rw [hda] at h
    cases h
  · cases v with
    | inf => rw [hda] at h; cases h
    | fin da => exact ⟨da, rfl⟩

/-- The relaxation test between two finite entries is the strict
comparison. -/
theorem canRelax_fin_fin {d : DistMap} {a b : String} {w : Int} {da db : Int}
    (ha : getKey d a = some (DNum.fin da)) (hb : getKey d b = some (DNum.fin db)) :
    canRelaxB d a b w = decide (da + w < db) := by
  unfold canRelaxB
  rw [ha, hb]

/-- On a negative edge between two finite entries, some direction is
always relaxable. -/
theorem canRelax_or_of_poison {d : DistMap} {a b : String} {w : Int}
    {da db : Int} (ha : getKey d a = some (DNum.fin da))
    (hb : getKey d b = some (DNum.fin db)) (hw : w < 0) :
    canRelaxB d a b w = true ∨ canRelaxB d b a w = true := by
  rw [canRelax_fin_fin ha hb, canRelax_fin_fin hb ha]
  by_cases h1 : da + w < db
  · exact Or.inl (by simpa using h1)
  · refine Or.inr (by simp; omega)

/-- Finiteness of any key survives a relaxation attempt. -/
theorem finKeyB_relaxDir {s : BFState} {a b : String} {w : Int} {k : String}
    (h : finKeyB s.d k = true) : finKeyB (relaxDir s a b w).d k = true := by
  unfold relaxDir
  split
  · dsimp only
    split
    · unfold finKeyB at h ⊢
      by_cases hkb : k = b
      · subst hkb
        rw [getKey_setKey_self]
      · rw [getKey_setKey_ne _ _ _ _ hkb]
        exact h
    · exact h
  · exact h

/-- Finiteness of any key survives edge processing. -/
theorem finKeyB_bfProcessEdge {s : BFState} {e : Edge} {k : String}
    (h : finKeyB s.d k = true) : finKeyB (bfProcessEdge s e).d k = true :=
  finKeyB_relaxDir (finKeyB_relaxDir h)

/-- The update flag never resets during relaxation. -/
theorem relaxDir_upd_mono {s : BFState} {a b : String} {w : Int}
    (h : s.upd = true) : (relaxDir s a b w).upd = true := by
  unfold relaxDir
  split
  · dsimp only
    split
    · rfl
    · exact h
  · exact h

/-- A relaxation attempt that reports no update did nothing. -/
theorem relaxDir_of_upd_false {s : BFState} {a b : String} {w : Int}
    (h : (relaxDir s a b w).upd = false) : relaxDir s a b w = s := by
  cases hc : canRelaxB s.d a b w with
  | false => exact relaxDir_of_not_canRelax hc
  | true =>
    obtain ⟨da, hda⟩ := canRelax_elim hc
    rw [relaxDir_of_canRelax hda hc] at h
    cases h

/-- Processing one undirected edge in the two possible orientations: the
results agree unless the weight is negative and both endpoints end up
finite in both runs (the poisoned case, which later forces the
negative-cycle error in both runs). -/
theorem relax_pair_dichotomy (s : BFState) (u v : String) (w : Int) (huv : u ≠ v) :
    relaxDir (relaxDir s v u w) u v w = relaxDir (relaxDir s u v w) v u w ∨
    ((decide (w < 0) && finKeyB (relaxDir (relaxDir s u v w) v u w).d u &&
        finKeyB (relaxDir (relaxDir s u v w) v u w).d v) = true ∧
     (decide (w < 0) && finKeyB (relaxDir (relaxDir s v u w) u v w).d u &&
        finKeyB (relaxDir (relaxDir s v u w) u v w).d v) = true) := by
  cases hA : canRelaxB s.d u v w with
  | false =>
    cases hB : canRelaxB s.d v u w with
    | false =>
      left
      rw [relaxDir_of_not_canRelax hA, relaxDir_of_not_canRelax hB,
        relaxDir_of_not_canRelax hA]
    | true =>
      -- only v→u fires on the original state
      obtain ⟨db, hdb⟩ := canRelax_elim hB
      have hs1 : relaxDir s v u w =
          ⟨setKey s.d u (DNum.fin (db + w)), setKey s.p u (some v), true⟩ :=
        relaxDir_of_canRelax hdb hB
      have hv1 : getKey (setKey s.d u (DNum.fin (db + w))) v =
          some (DNum.fin db) := by
        rw [getKey_setKey_ne _ _ _ _ (Ne.symm huv)]
        exact hdb
      have hu1 : getKey (setKey s.d u (DNum.fin (db + w))) u =
          some (DNum.fin (db + w)) := getKey_setKey_self _ _ _
      have hc2 : canRelaxB (setKey s.d u (DNum.fin (db + w))) u v w =
          decide (db + w + w < db) := canRelax_fin_fin hu1 hv1
      by_cases hw : w < 0
      · right
        have hc2t : canRelaxB (setKey s.d u (DNum.fin (db + w))) u v w = true := by
          rw [hc2]
          simp only [decide_eq_true_eq]
          omega
        have hs2 : relaxDir
            (⟨setKey s.d u (DNum.fin (db + w)), setKey s.p u (some v), true⟩ : BFState)
            u v w =
            ⟨setKey (setKey s.d u (DNum.fin (db + w))) v (DNum.fin (db + w + w)),
             setKey (setKey s.p u (some v)) v (some u), true⟩ :=
          relaxDir_of_canRelax hu1 hc2t
        constructor
        · rw [relaxDir_of_not_canRelax hA, hs1]
          dsimp only
          have hfu : finKeyB (setKey s.d u (DNum.fin (db + w))) u = true := by
            unfold finKeyB
            rw [hu1]
          have hfv : finKeyB (setKey s.d u (DNum.fin (db + w))) v = true := by
            unfold finKeyB
            rw [hv1]
          simp [hfu, hfv, hw]
        · rw [hs1, hs2]
          dsimp only
          have hfv : finKeyB (setKey (setKey s.d u (DNum.fin (db + w))) v
              (DNum.fin (db + w + w))) v = true := by
            unfold finKeyB
            rw [getKey_setKey_self]
          have hfu : finKeyB (setKey (setKey s.d u (DNum.fin (db + w))) v
              (DNum.fin (db + w + w))) u = true := by
            unfold finKeyB
            rw [getKey_setKey_ne _ _ _ _ huv, hu1]
          simp [hfu, hfv, hw]
      · left
        have hc2f : canRelaxB (setKey s.d u (DNum.fin (db + w))) u v w = false := by
          rw [hc2]
          simp only [decide_eq_false_iff_not]
          omega
        rw [hs1, relaxDir_of_not_canRelax hA, hs1,
          relaxDir_of_not_canRelax (s := ⟨_, _, _⟩) hc2f]
  | true =>
    obtain ⟨da, hda⟩ := canRelax_elim hA
    have hs1 : relaxDir s u v w =
        ⟨setKey s.d v (DNum.fin (da + w)), setKey s.p v (some u), true⟩ :=
      relaxDir_of_canRelax hda hA
    have hu1 : getKey (setKey s.d v (DNum.fin (da + w))) u =
        some (DNum.fin da) := by
      rw [getKey_setKey_ne _ _ _ _ huv]
      exact hda
    have hv1 : getKey (setKey s.d v (DNum.fin (da + w))) v =
        some (DNum.fin (da + w)) := getKey_setKey_self _ _ _
    have hc2 : canRelaxB (setKey s.d v (DNum.fin (da + w))) v u w =
        decide (da + w + w < da) := canRelax_fin_fin hv1 hu1
    cases hB : canRelaxB s.d v u w with
    | false =>
      by_cases hw : w < 0
      · right
        have hc2t : canRelaxB (setKey s.d v (DNum.fin (da + w))) v u w = true := by
          rw [hc2]
          simp only [decide_eq_true_eq]
          omega
        have hs2 : relaxDir
            (⟨setKey s.d v (DNum.fin (da + w)), setKey s.p v (some u), true⟩ : BFState)
            v u w =
            ⟨setKey (setKey s.d v (DNum.fin (da + w))) u (DNum.fin (da + w + w)),
             setKey (setKey s.p v (some u)) u (some v), true⟩ :=
          relaxDir_of_canRelax hv1 hc2t
        constructor
        · rw [hs1, hs2]
          dsimp only
          have hfu : finKeyB (setKey (setKey s.d v (DNum.fin (da + w))) u
              (DNum.fin (da + w + w))) u = true := by
            unfold finKeyB
            rw [getKey_setKey_self]
          have hfv : finKeyB (setKey (setKey s.d v (DNum.fin (da + w))) u
              (DNum.fin (da + w + w))) v = true := by
            unfold finKeyB
            rw [getKey_setKey_ne _ _ _ _ (Ne.symm huv), hv1]
          simp [hfu, hfv, hw]
        · rw [relaxDir_of_not_canRelax hB, hs1]
          dsimp only
          have hfu : finKeyB (setKey s.d v (DNum.fin (da + w))) u = true := by
            unfold finKeyB
            rw [hu1]
          have hfv : finKeyB (setKey s.d v (DNum.fin (da + w))) v = true := by
            unfold finKeyB
            rw [hv1]
          simp [hfu, hfv, hw]
      · left
        have hc2f : canRelaxB (setKey s.d v (DNum.fin (da + w))) v u w = false := by
          rw [hc2]
          simp only [decide_eq_false_iff_not]
          omega
        rw [relaxDir_of_not_canRelax hB, hs1,
          relaxDir_of_not_canRelax (s := ⟨_, _, _⟩) hc2f]
    | true =>
      obtain ⟨db, hdb⟩ := canRelax_elim hB
      have h1 : da + w < db := by
        have := canRelax_fin_fin (w := w) hda hdb
        rw [hA] at this
        have := of_decide_eq_true this.symm
        exact this
      have h2 : db + w < da := by
        have := canRelax_fin_fin (w := w) hdb hda
        rw [hB] at this
        have := of_decide_eq_true this.symm
        exact this
      have hw : w < 0 := by omega
      right
      have hc2t : canRelaxB (setKey s.d v (DNum.fin (da + w))) v u w = true := by
        rw [hc2]
        simp only [decide_eq_true_eq]
        omega
      have hs2 : relaxDir
          (⟨setKey s.d v (DNum.fin (da + w)), setKey s.p v (some u), true⟩ : BFState)
          v u w =
          ⟨setKey (setKey s.d v (DNum.fin (da + w))) u (DNum.fin (da + w + w)),
           setKey (setKey s.p v (some u)) u (some v), true⟩ :=
        relaxDir_of_canRelax hv1 hc2t
      have hs1' : relaxDir s v u w =
          ⟨setKey s.d u (DNum.fin (db + w)), setKey s.p u (some v), true⟩ :=
        relaxDir_of_canRelax hdb hB
      have hv1' : getKey (setKey s.d u (DNum.fin (db + w))) v =
          some (DNum.fin db) := by
        rw [getKey_setKey_ne _ _ _ _ (Ne.symm huv)]
        exact hdb
      have hu1' : getKey (setKey s.d u (DNum.fin (db + w))) u =
          some (DNum.fin (db + w)) := getKey_setKey_self _ _ _
      have hc2t' : canRelaxB (setKey s.d u (DNum.fin (db + w))) u v w = true := by
        rw [canRelax_fin_fin hu1' hv1']
        simp only [decide_eq_true_eq]
        omega
      have hs2' : relaxDir
          (⟨setKey s.d u (DNum.fin (db + w)), setKey s.p u (some v), true⟩ : BFState)
          u v w =
          ⟨setKey (setKey s.d u (DNum.fin (db + w))) v (DNum.fin (db + w + w)),
           setKey (setKey s.p u (some v)) v (some u), true⟩ :=
        relaxDir_of_canRelax hu1' hc2t'
      constructor
      · rw [hs1, hs2]
        dsimp only
        have hfu : finKeyB (setKey (setKey s.d v (DNum.fin (da + w))) u
            (DNum.fin (da + w + w))) u = true := by
          unfold finKeyB
          rw [getKey_setKey_self]
        have hfv : finKeyB (setKey (setKey s.d v (DNum.fin (da + w))) u
            (DNum.fin (da + w + w))) v = true := by
          unfold finKeyB
          rw [getKey_setKey_ne _ _ _ _ (Ne.symm huv), hv1]
        simp [hfu, hfv, hw]
      · rw [hs1', hs2']
        dsimp only
        have hfv : finKeyB (setKey (setKey s.d u (DNum.fin (db + w))) v
            (DNum.fin (db + w + w))) v = true := by
          unfold finKeyB
          rw [getKey_setKey_self]
        have hfu : finKeyB (setKey (setKey s.d u (DNum.fin (db + w))) v
            (DNum.fin (db + w + w))) u = true := by
          unfold finKeyB
          rw [getKey_setKey_ne _ _ _ _ huv, hu1']
        simp [hfu, hfv, hw]

/-- A finite entry behind a true `finKeyB`. -/
theorem finKeyB_elim {d : DistMap} {k : String} (h : finKeyB d k = true) :
    ∃ n, getKey d k = some (DNum.fin n) := by
  unfold finKeyB at h
  rcases hg : getKey d k with _ | v
  · rw [hg] at h
    cases h
  · cases v with
    | inf => rw [hg] at h; cases h
    | fin n => exact ⟨n, rfl⟩

/-- One edge's dichotomy, phrased on `bfProcessEdge` and `PoisonB`. -/
theorem bfProcessEdge_swap_dichotomy (s : BFState) (e : Edge) :
    bfProcessEdge s (swapEdge e) = bfProcessEdge s e ∨
    (PoisonB (bfProcessEdge s e).d e = true ∧
     PoisonB (bfProcessEdge s (swapEdge e)).d e = true) := by
  by_cases huv : e.source = e.target
  · left
    have he : swapEdge e = e := by
      cases e
      unfold swapEdge
      dsimp only at huv ⊢
      rw [huv]
    rw [he]
  · have h := relax_pair_dichotomy s e.source e.target e.weight huv
    unfold bfProcessEdge PoisonB
    dsimp only [swapEdge]
    exact h

/-- Poison survives any sequence of edge processing. -/
theorem poisonB_foldl {s : BFState} {l : List Edge} {e : Edge}
    (h : PoisonB s.d e = true) : PoisonB (l.foldl bfProcessEdge s).d e = true := by
  refine foldl_invariant (P := fun t : BFState => PoisonB t.d e = true) _ l s h ?_
  intro t e2 _ ht
  unfold PoisonB at ht ⊢
  simp only [Bool.and_eq_true] at ht ⊢
  exact ⟨⟨ht.1.1, finKeyB_bfProcessEdge ht.1.2⟩, finKeyB_bfProcessEdge ht.2⟩

/-- Poison survives a pass. -/
theorem poisonB_bfPass {s : BFState} {l : List Edge} {e : Edge}
    (h : PoisonB s.d e = true) : PoisonB (bfPass l s).d e = true :=
  poisonB_foldl (s := { s with upd := false }) h

/-- Poison survives the whole pass loop. -/
theorem poisonB_bfLoop {l : List Edge} {e : Edge} (n : Nat) (s : BFState)
    (h : PoisonB s.d e = true) : PoisonB (bfLoop l s n).1.d e = true := by
  induction n generalizing s with
  | zero => exact h
  | succ n ih =>
    simp only [bfLoop]
    split
    · exact ih (bfPass l s) (poisonB_bfPass h)
    · exact poisonB_bfPass h

/-- An update flag once set survives any further processing. -/
theorem upd_foldl_mono {s : BFState} {l : List Edge} (h : s.upd = true) :
    (l.foldl bfProcessEdge s).upd = true := by
  refine foldl_invariant (P := fun t : BFState => t.upd = true) _ l s h ?_
  intro t e _ ht
  exact relaxDir_upd_mono (relaxDir_upd_mono ht)

/-- Processing a poisoned edge always reports an update. -/
theorem bfProcessEdge_upd_of_poison {t : BFState} {e : Edge}
    (h : PoisonB t.d e = true) : (bfProcessEdge t e).upd = true := by
  unfold PoisonB at h
  simp only [Bool.and_eq_true] at h
  obtain ⟨⟨hw, hfu⟩, hfv⟩ := h
  obtain ⟨du, hdu⟩ := finKeyB_elim hfu
  obtain ⟨dv, hdv⟩ := finKeyB_elim hfv
  have hw' : e.weight < 0 := of_decide_eq_true hw
  unfold bfProcessEdge
  cases hc1 : canRelaxB t.d e.source e.target e.weight with
  | true =>
    rw [relaxDir_of_canRelax hdu hc1]
    exact relaxDir_upd_mono rfl
  | false =>
    rw [relaxDir_of_not_canRelax hc1]
    rcases canRelax_or_of_poison hdu hdv hw' with hc | hc
    · rw [hc1] at hc
      cases hc
    · rw [relaxDir_of_canRelax hdv hc]

/-- A pass over a list containing a poisoned edge always updates. -/
theorem bfPass_upd_of_poison {s : BFState} {l : List Edge} {e : Edge}
    (he : e ∈ l) (h : PoisonB s.d e = true) : (bfPass l s).upd = true := by
  obtain ⟨l1, l2, rfl⟩ := List.append_of_mem he
  unfold bfPass
  rw [List.foldl_append, List.foldl_cons]
  exact upd_foldl_mono (bfProcessEdge_upd_of_poison
    (poisonB_foldl (s := { s with upd := false }) h))

/-- A poisoned edge present in the list makes the final scan throw. -/
theorem negCheckB_of_poison {l : List Edge} {d : DistMap} {e : Edge}
    (he : e ∈ l) (h : PoisonB d e = true) : negCheckB l d = true := by
  unfold negCheckB
  rw [List.any_eq_true]
  refine ⟨e, he, ?_⟩
  unfold PoisonB at h
  simp only [Bool.and_eq_true] at h
  obtain ⟨⟨hw, hfu⟩, hfv⟩ := h
  obtain ⟨du, hdu⟩ := finKeyB_elim hfu
  obtain ⟨dv, hdv⟩ := finKeyB_elim hfv
  rcases canRelax_or_of_poison hdu hdv (of_decide_eq_true hw) with hc | hc
  · simp [hc]
  · simp [hc]

/-- `any` ignores the reversal of one edge when the tested predicate
does. -/
theorem any_swapAt (l : List Edge) (j : Nat) (f : Edge → Bool)
    (hf : ∀ e, f (swapEdge e) = f e) : (swapAt l j).any f = l.any f := by
  induction l generalizing j with
  | nil => rfl
  | cons e es ih =>
    match j with
    | 0 =>
      have h0 : swapAt (e :: es) 0 = swapEdge e :: es := rfl
      rw [h0, List.any_cons, List.any_cons, hf]
    | j + 1 =>
      rw [swapAt_cons_succ, List.any_cons, List.any_cons, ih j]

/-- The final scan ignores the orientation of every edge. -/
theorem negCheckB_swapAt (l : List Edge) (j : Nat) (d : DistMap) :
    negCheckB (swapAt l j) d = negCheckB l d := by
  unfold negCheckB
  refine any_swapAt l j _ ?_
  intro e
  cases e
  dsimp only [swapEdge]
  exact Bool.or_comm _ _

/-- Fold-level dichotomy: the two orientations of one edge either keep
the whole fold in lockstep or leave a poisoned edge in both final
states. -/
theorem foldl_swap_dichotomy (l : List Edge) (j : Nat) (s : BFState) :
    (swapAt l j).foldl bfProcessEdge s = l.foldl bfProcessEdge s ∨
    (∃ e ∈ l, PoisonB (l.foldl bfProcessEdge s).d e = true ∧
       PoisonB ((swapAt l j).foldl bfProcessEdge s).d e = true) := by
  induction l generalizing j s with
  | nil => left; rfl
  | cons e es ih =>
    match j with
    | 0 =>
      have h0 : swapAt (e :: es) 0 = swapEdge e :: es := rfl
      rw [h0, List.foldl_cons, List.foldl_cons]
      rcases bfProcessEdge_swap_dichotomy s e with heq | ⟨hp1, hp2⟩
      · left
        rw [heq]
      · right
        exact ⟨e, List.mem_cons_self e es, poisonB_foldl hp1, poisonB_foldl hp2⟩
    | j + 1 =>
      rw [swapAt_cons_succ, List.foldl_cons, List.foldl_cons]
      rcases ih j (bfProcessEdge s e) with heq | ⟨e2, he2, hp1, hp2⟩
      · left
        exact heq
      · right
        exact ⟨e2, List.mem_cons_of_mem e he2, hp1, hp2⟩

/-- Pass-level dichotomy. -/
theorem bfPass_swap_dichotomy (l : List Edge) (j : Nat) (s : BFState) :
    bfPass (swapAt l j) s = bfPass l s ∨
    (∃ e ∈ l, PoisonB (bfPass l s).d e = true ∧
       PoisonB (bfPass (swapAt l j) s).d e = true) :=
  foldl_swap_dichotomy l j { s with upd := false }

/-- Loop-level dichotomy: either the runs stay in lockstep, or both end
in a state the final scan rejects. -/
theorem bfLoop_swap_dichotomy (l : List Edge) (j : Nat) (n : Nat) (s : BFState) :
    bfLoop (swapAt l j) s n = bfLoop l s n ∨
    (negCheckB l (bfLoop l s n).1.d = true ∧
     negCheckB (swapAt l j) (bfLoop (swapAt l j) s n).1.d = true) := by
  induction n generalizing s with
  | zero => left; rfl
  | succ n ih =>
    simp only [bfLoop]
    rcases bfPass_swap_dichotomy l j s with heq | ⟨e, he, hp1, hp2⟩
    · rw [heq]
      cases hu : (bfPass l s).upd with
      | true =>
        simp only [hu, if_true]
        rcases ih (bfPass l s) with heq2 | ⟨hn1, hn2⟩
        · left
          rw [heq2]
        · right
          exact ⟨hn1, hn2⟩
      | false =>
        simp [hu]
    · right
      constructor
      · split
        · exact negCheckB_of_poison he (poisonB_bfLoop n (bfPass l s) hp1)
        · exact negCheckB_of_poison he hp1
      · rw [negCheckB_swapAt]
        split
        · exact negCheckB_of_poison he (poisonB_bfLoop n (bfPass (swapAt l j) s) hp2)
        · exact negCheckB_of_poison he hp2

/-- `BellmanFordAlgorithm.execute` ignores the orientation of every edge:
either the runs agree state-for-state, or both throw the negative-cycle
error. -/
theorem bf_execute_swapAt (nodes : List Node) (edges : List Edge) (i : Nat)
    (source destination : String) :
    BellmanFordExecute nodes (swapAt edges i) source destination =
    BellmanFordExecute nodes edges source destination := by
  unfold BellmanFordExecute
  dsimp only
  rcases bfLoop_swap_dichotomy edges i (nodes.length - 1)
      ⟨initDistances nodes source, initPrevious nodes, false⟩ with heq | ⟨hn1, hn2⟩
  · rw [heq, negCheckB_swapAt]
  · rw [hn1, hn2]
    rfl

/-- C9: replacing any edge of the list by its reversal (same weight,
endpoints exchanged) leaves the result of each engine unchanged —
Dijkstra builds an identical adjacency map, the policy selector sees
identical neighbor and weight views, and Bellman-Ford either stays in
lockstep or throws the identical negative-cycle error in both runs. -/
theorem c9_edge_reversal_symmetry (nodes : List Node) (edges : List Edge) (i : Nat)
    (source destination : String) (attrs : Nat → Nat × Nat) :
    DijkstraExecute nodes (swapAt edges i) source destination =
      DijkstraExecute nodes edges source destination ∧
    BellmanFordExecute nodes (swapAt edges i) source destination =
      BellmanFordExecute nodes edges source destination ∧
    BGPExecute nodes (swapAt edges i) source destination attrs =
      BGPExecute nodes edges source destination attrs :=
  ⟨dijkstra_execute_swapAt nodes edges i source destination,
   bf_execute_swapAt nodes edges i source destination,
   bgp_execute_swapAt nodes edges i source destination attrs⟩

/-- Key presence survives a relaxation attempt. -/
theorem isSome_relaxDir {s : BFState} {a b : String} {w : Int} {k : String}
    (h : (getKey s.d k).isSome) : (getKey (relaxDir s a b w).d k).isSome := by
  unfold relaxDir
  split
  · dsimp only
    split
    · exact isSome_getKey_setKey _ _ _ _ h
    · exact h
  · exact h

/-- Key presence survives edge processing. -/
theorem isSome_bfProcessEdge {s : BFState} {e : Edge} {k : String}
    (h : (getKey s.d k).isSome) : (getKey (bfProcessEdge s e).d k).isSome :=
  isSome_relaxDir (isSome_relaxDir h)

/-- Key presence survives any processing sequence. -/
theorem isSome_foldl {s : BFState} {l : List Edge} {k : String}
    (h : (getKey s.d k).isSome) :
    (getKey (l.foldl bfProcessEdge s).d k).isSome := by
  refine foldl_invariant (P := fun t : BFState => (getKey t.d k).isSome) _ l s h ?_
  intro t e _ ht
  exact isSome_bfProcessEdge ht

/-- Key presence survives a pass. -/
theorem isSome_bfPass {s : BFState} {l : List Edge} {k : String}
    (h : (getKey s.d k).isSome) : (getKey (bfPass l s).d k).isSome :=
  isSome_foldl (s := { s with upd := false }) h

/-- Finiteness of a key survives any processing sequence. -/
theorem finKeyB_foldl {s : BFState} {l : List Edge} {k : String}
    (h : finKeyB s.d k = true) : finKeyB (l.foldl bfProcessEdge s).d k = true := by
  refine foldl_invariant (P := fun t : BFState => finKeyB t.d k = true) _ l s h ?_
  intro t e _ ht
  exact finKeyB_bfProcessEdge ht

/-- Finiteness of a key survives a pass. -/
theorem finKeyB_bfPass {s : BFState} {l : List Edge} {k : String}
    (h : finKeyB s.d k = true) : finKeyB (bfPass l s).d k = true :=
  finKeyB_foldl (s := { s with upd := false }) h

/-- Finiteness of a key survives the pass loop. -/
theorem finKeyB_bfLoop {l : List Edge} {k : String} (n : Nat) (s : BFState)
    (h : finKeyB s.d k = true) : finKeyB (bfLoop l s n).1.d k = true := by
  induction n generalizing s with
  | zero => exact h
  | succ n ih =>
    simp only [bfLoop]
    split
    · exact ih (bfPass l s) (finKeyB_bfPass h)
    · exact finKeyB_bfPass h

/-- Edge processing that reports no update did nothing. -/
theorem bfProcessEdge_of_upd_false {t : BFState} {e : Edge}
    (h : (bfProcessEdge t e).upd = false) : bfProcessEdge t e = t := by
  unfold bfProcessEdge at h ⊢
  have h1 : (relaxDir t e.source e.target e.weight).upd = false := by
    cases hu : (relaxDir t e.source e.target e.weight).upd with
    | false => rfl
    | true =>
      rw [relaxDir_upd_mono hu] at h
      cases h
  rw [relaxDir_of_upd_false h1] at h ⊢
  exact relaxDir_of_upd_false h

/-- Edge processing that reports no update found neither direction
relaxable. -/
theorem canRelax_false_of_upd_false {t : BFState} {e : Edge}
    (h : (bfProcessEdge t e).upd = false) :
    canRelaxB t.d e.source e.target e.weight = false ∧
    canRelaxB t.d e.target e.source e.weight = false := by
  unfold bfProcessEdge at h
  have h1 : (relaxDir t e.source e.target e.weight).upd = false := by
    cases hu : (relaxDir t e.source e.target e.weight).upd with
    | false => rfl
    | true =>
      rw [relaxDir_upd_mono hu] at h
      cases h
  have heq1 : relaxDir t e.source e.target e.weight = t := relaxDir_of_upd_false h1
  rw [heq1] at h
  constructor
  · cases hc : canRelaxB t.d e.source e.target e.weight with
    | false => rfl
    | true =>
      obtain ⟨da, hda⟩ := canRelax_elim hc
      rw [relaxDir_of_canRelax hda hc] at h1
      cases h1
  · cases hc : canRelaxB t.d e.target e.source e.weight with
    | false => rfl
    | true =>
      obtain ⟨da, hda⟩ := canRelax_elim hc
      rw [relaxDir_of_canRelax hda hc] at h
      cases h

/-- A whole processing sequence that reports no update did nothing and
found nothing relaxable. -/
theorem foldl_fixpoint : ∀ (l : List Edge) (s : BFState),
    (l.foldl bfProcessEdge s).upd = false →
    (l.foldl bfProcessEdge s = s ∧
     ∀ e ∈ l, canRelaxB s.d e.source e.target e.weight = false ∧
       canRelaxB s.d e.target e.source e.weight = false) := by
  intro l
  induction l with
  | nil => exact fun s _ => ⟨rfl, fun e he => absurd he (List.not_mem_nil e)⟩
  | cons e es ih =>
    intro s h
    rw [List.foldl_cons] at h
    have h1 : (bfProcessEdge s e).upd = false := by
      cases hu : (bfProcessEdge s e).upd with
      | false => rfl
      | true =>
        rw [upd_foldl_mono hu] at h
        cases h
    have heq : bfProcessEdge s e = s := bfProcessEdge_of_upd_false h1
    rw [heq] at h
    obtain ⟨hfold, hrest⟩ := ih s h
    refine ⟨by rw [List.foldl_cons, heq]; exact hfold, ?_⟩
    intro e2 he2
    rcases List.mem_cons.1 he2 with he2 | he2
    · subst he2
      exact canRelax_false_of_upd_false h1
    · exact hrest e2 he2

/-- A pass that reports no update found nothing relaxable on its input
distances. -/
theorem bfPass_fixpoint {l : List Edge} {s : BFState}
    (h : (bfPass l s).upd = false) :
    ∀ e ∈ l, canRelaxB s.d e.source e.target e.weight = false ∧
      canRelaxB s.d e.target e.source e.weight = false :=
  (foldl_fixpoint l { s with upd := false } h).2

/-- A pass that reports no update leaves the maps unchanged. -/
theorem bfPass_of_upd_false {l : List Edge} {s : BFState}
    (h : (bfPass l s).upd = false) : bfPass l s = { s with upd := false } :=
  (foldl_fixpoint l { s with upd := false } h).1

/-- The relaxation guard from a finite entry into an infinite one is
always true. -/
theorem canRelax_fin_inf {d : DistMap} {a b : String} {w : Int} {da : Int}
    (ha : getKey d a = some (DNum.fin da)) (hb : getKey d b = some DNum.inf) :
    canRelaxB d a b w = true := by
  unfold canRelaxB
  rw [ha, hb]

/-- At a fixpoint, the neighbor of a finite node (with a present entry)
is finite. -/
theorem fin_of_fixpoint {edges : List Edge} {d : DistMap} {a b : String}
    (hfix : ∀ e ∈ edges, canRelaxB d e.source e.target e.weight = false ∧
      canRelaxB d e.target e.source e.weight = false)
    (hl : linked edges a b) (ha : finKeyB d a = true)
    (hb : (getKey d b).isSome) : finKeyB d b = true := by
  obtain ⟨e, he, hd⟩ := hl
  obtain ⟨da, hda⟩ := finKeyB_elim ha
  obtain ⟨vb, hvb⟩ := Option.isSome_iff_exists.1 hb
  cases vb with
  | fin n =>
    unfold finKeyB
    rw [hvb]
  | inf =>
    have hcr : canRelaxB d a b e.weight = true := canRelax_fin_inf hda hvb
    rcases hd with ⟨h1, h2⟩ | ⟨h1, h2⟩
    · rw [← h1, ← h2] at hcr
      rw [(hfix e he).1] at hcr
      cases hcr
    · rw [← h2, ← h1] at hcr
      rw [(hfix e he).2] at hcr
      cases hcr

/-- At a fixpoint, finiteness propagates down a whole linked walk. -/
theorem fixpoint_walk {edges : List Edge} {d : DistMap}
    (hfix : ∀ e ∈ edges, canRelaxB d e.source e.target e.weight = false ∧
      canRelaxB d e.target e.source e.weight = false) :
    ∀ (rest : List String) (h0 v : String),
      List.Chain' (linked edges) (h0 :: rest) →
      (∀ k ∈ h0 :: rest, (getKey d k).isSome) →
      finKeyB d h0 = true →
      (h0 :: rest).getLast? = some v →
      finKeyB d v = true := by
  intro rest
  induction rest with
  | nil =>
    intro h0 v _ _ hfin hlast
    have : h0 = v := by
      simpa using hlast
    exact this ▸ hfin
  | cons y rest2 ih =>
    intro h0 v hch hsome hfin hlast
    obtain ⟨hxy, hch2⟩ := List.chain'_cons.1 hch
    have hy : finKeyB d y = true :=
      fin_of_fixpoint hfix hxy hfin (hsome y (by simp))
    refine ih y v hch2 ?_ hy ?_
    · intro k hk
      exact hsome k (List.mem_cons_of_mem h0 hk)
    · rw [← hlast]
      exact (List.getLast?_cons_cons).symm

/-- One pass makes the successor of a finite node finite (the entry must
exist, which well-formed graphs guarantee). -/
theorem bfProcessEdge_fin_step {t : BFState} {e : Edge} {a b : String}
    (hd : (e.source = a ∧ e.target = b) ∨ (e.source = b ∧ e.target = a))
    (ha : finKeyB t.d a = true) (hb : (getKey t.d b).isSome) :
    finKeyB (bfProcessEdge t e).d b = true := by
  obtain ⟨vb, hvb⟩ := Option.isSome_iff_exists.1 hb
  cases vb with
  | fin n =>
    refine finKeyB_bfProcessEdge ?_
    unfold finKeyB
    rw [hvb]
  | inf =>
    obtain ⟨da, hda⟩ := finKeyB_elim ha
    rcases hd with ⟨h1, h2⟩ | ⟨h1, h2⟩
    · subst h1
      subst h2
      unfold bfProcessEdge
      have hc : canRelaxB t.d e.source e.target e.weight = true :=
        canRelax_fin_inf hda hvb
      rw [relaxDir_of_canRelax hda hc]
      refine finKeyB_relaxDir ?_
      unfold finKeyB
      dsimp only
      rw [getKey_setKey_self]
    · subst h1
      subst h2
      unfold bfProcessEdge
      have hc1 : canRelaxB t.d e.source e.target e.weight = false := by
        unfold canRelaxB
        rw [hvb]
      rw [relaxDir_of_not_canRelax hc1]
      have hc2 : canRelaxB t.d e.target e.source e.weight = true :=
        canRelax_fin_inf hda hvb
      rw [relaxDir_of_canRelax hda hc2]
      unfold finKeyB
      dsimp only
      rw [getKey_setKey_self]

/-- A pass over a list containing a link from a finite node makes the
linked node finite. -/
theorem bfPass_fin_step {l : List Edge} {s : BFState} {a b : String}
    (hl : linked l a b) (ha : finKeyB s.d a = true)
    (hb : (getKey s.d b).isSome) : finKeyB (bfPass l s).d b = true := by
  obtain ⟨e, he, hd⟩ := hl
  obtain ⟨l1, l2, rfl⟩ := List.append_of_mem he
  unfold bfPass
  rw [List.foldl_append, List.foldl_cons]
  refine finKeyB_foldl (bfProcessEdge_fin_step hd ?_ ?_)
  · exact finKeyB_foldl (s := { s with upd := false }) ha
  · exact isSome_foldl (s := { s with upd := false }) hb

/-- The pass loop makes the end of any linked walk finite, provided the
walk starts finite, all its entries exist, and the pass budget covers the
walk length. -/
theorem bfLoop_fin_walk {edges : List Edge} : ∀ (n : Nat) (s : BFState)
    (h0 : String) (rest : List String) (v : String),
    List.Chain' (linked edges) (h0 :: rest) →
    (∀ k ∈ h0 :: rest, (getKey s.d k).isSome) →
    finKeyB s.d h0 = true →
    (h0 :: rest).getLast? = some v →
    rest.length ≤ n →
    finKeyB (bfLoop edges s n).1.d v = true := by
  intro n
  induction n with
  | zero =>
    intro s h0 rest v _ _ hfin hlast hlen
    have hrest : rest = [] := List.length_eq_zero.1 (Nat.le_zero.1 hlen)
    subst hrest
    have : h0 = v := by simpa using hlast
    exact this ▸ hfin
  | succ n ih =>
    intro s h0 rest v hch hsome hfin hlast hlen
    cases rest with
    | nil =>
      have : h0 = v := by simpa using hlast
      exact this ▸ finKeyB_bfLoop (n + 1) s hfin
    | cons y rest2 =>
      obtain ⟨hxy, hch2⟩ := List.chain'_cons.1 hch
      simp only [bfLoop]
      split
      · refine ih (bfPass edges s) y rest2 v hch2 ?_ ?_ ?_ ?_
        · intro k hk
          exact isSome_bfPass (hsome k (List.mem_cons_of_mem h0 hk))
        · exact bfPass_fin_step hxy hfin (hsome y (by simp))
        · rw [← hlast]
          exact (List.getLast?_cons_cons).symm
        · simpa using Nat.le_of_succ_le_succ (by simpa using hlen)
      · next hupd =>
        have hupd' : (bfPass edges s).upd = false := by
          cases hu : (bfPass edges s).upd with
          | false => rfl
          | true => exact absurd hu hupd
        have heq := bfPass_of_upd_false hupd'
        rw [heq]
        exact fixpoint_walk (bfPass_fixpoint hupd') (y :: rest2) h0 v hch hsome hfin hlast

/-- Reachability yields a duplicate-free linked walk from the source. -/
theorem reaches_walk {edges : List Edge} {src v : String}
    (h : Reaches edges src v) :
    ∃ rest : List String, List.Chain' (linked edges) (src :: rest) ∧
      (src :: rest).getLast? = some v ∧ (src :: rest).Nodup := by
  induction h with
  | refl => exact ⟨[], by simp, by simp, by simp⟩
  | @step a b _ hl ih =>
    obtain ⟨rest, hch, hlast, hnd⟩ := ih
    by_cases hb : b ∈ src :: rest
    · obtain ⟨W1, W2, hsplit⟩ := List.append_of_mem hb
      cases W1 with
      | nil =>
        have hbs : src = b := by
          have := congrArg List.head? hsplit
          simpa using this
        exact ⟨[], by simp, by simp [hbs], by simp⟩
      | cons x W1' =>
        have hx : x = src ∧ rest = W1' ++ b :: W2 := by
          have := hsplit
          rw [List.cons_append] at this
          exact ⟨(List.cons.injEq _ _ _ _ ▸ this).1.symm,
            (List.cons.injEq _ _ _ _ ▸ this).2⟩
        obtain ⟨hx1, hx2⟩ := hx
        subst hx1
        subst hx2
        refine ⟨W1' ++ [b], ?_, ?_, ?_⟩
        · have hre : x :: (W1' ++ b :: W2) = (x :: (W1' ++ [b])) ++ W2 := by
            simp
          rw [hre] at hch
          exact hch.left_of_append
        · rw [show x :: (W1' ++ [b]) = (x :: W1') ++ [b] from by simp]
          exact List.getLast?_concat _
        · have hsub : List.Sublist (x :: (W1' ++ [b])) (x :: (W1' ++ b :: W2)) := by
            refine List.Sublist.cons₂ x ?_
            refine List.Sublist.append_left ?_ W1'
            exact (List.singleton_sublist.2 (List.mem_cons_self b W2))
          exact hnd.sublist hsub
    · refine ⟨rest ++ [b], ?_, ?_, ?_⟩
      · rw [show src :: (rest ++ [b]) = (src :: rest) ++ [b] from by simp]
        refine hch.append (List.chain'_singleton b) ?_
        intro x hx y hy
        rw [hlast] at hx
        simp only [Option.mem_def, Option.some.injEq] at hx
        simp only [List.head?_cons, Option.mem_def, Option.some.injEq] at hy
        rw [← hx, ← hy]
        exact hl
      · rw [show src :: (rest ++ [b]) = (src :: rest) ++ [b] from by simp]
        exact List.getLast?_concat _
      · rw [show src :: (rest ++ [b]) = (src :: rest) ++ [b] from by simp]
        rw [List.nodup_append]
        refine ⟨hnd, List.nodup_singleton b, ?_⟩
        intro x hx hxb
        rw [List.mem_singleton] at hxb
        subst hxb
        exact hb hx

/-- Every node of a linked walk starting inside the node list stays
inside the node list, for well-formed edges. -/
theorem walk_subset {edges : List Edge} {nodes : List Node}
    (hwf : ∀ e ∈ edges, e.source ∈ nodes.map (fun n => n.id) ∧
      e.target ∈ nodes.map (fun n => n.id)) :
    ∀ (rest : List String) (h0 : String),
      List.Chain' (linked edges) (h0 :: rest) →
      h0 ∈ nodes.map (fun n => n.id) →
      ∀ k ∈ h0 :: rest, k ∈ nodes.map (fun n => n.id) := by
  intro rest
  induction rest with
  | nil =>
    intro h0 _ hh k hk
    rw [List.mem_singleton] at hk
    exact hk ▸ hh
  | cons y rest2 ih =>
    intro h0 hch hh k hk
    obtain ⟨hxy, hch2⟩ := List.chain'_cons.1 hch
    have hy : y ∈ nodes.map (fun n => n.id) := by
      obtain ⟨e, he, hd⟩ := hxy
      rcases hd with ⟨_, h2⟩ | ⟨h1, _⟩
      · exact h2 ▸ (hwf e he).2
      · exact h1 ▸ (hwf e he).1
    rcases List.mem_cons.1 hk with hk | hk
    · exact hk ▸ hh
    · exact ih y hch2 hy k hk

/-- C10: on a well-formed graph, a single negative-weight edge whose two
endpoints are reachable from the source always drives
`BellmanFordAlgorithm.execute` into the negative-cycle error — the two
opposite traversals of the edge form a negative two-node cycle — so no
such run returns a result. -/
theorem c10_reachable_negative_edge (nodes : List Node) (edges : List Edge)
    (source destination : String) (e : Edge)
    (hwf : ∀ e2 ∈ edges, e2.source ∈ nodes.map (fun n => n.id) ∧
      e2.target ∈ nodes.map (fun n => n.id))
    (hsrc : source ∈ nodes.map (fun n => n.id))
    (he : e ∈ edges) (hw : e.weight < 0)
    (hru : Reaches edges source e.source) (hrv : Reaches edges source e.target) :
    BellmanFordExecute nodes edges source destination =
      some (Except.error "Graph contains negative cycle") := by
  have hids : (nodes.map (fun n => n.id)).length = nodes.length :=
    List.length_map _ _
  have hfin : ∀ v, Reaches edges source v →
      finKeyB (bfLoop edges ⟨initDistances nodes source, initPrevious nodes, false⟩
        (nodes.length - 1)).1.d v = true := by
    intro v hv
    obtain ⟨rest, hch, hlast, hnd⟩ := reaches_walk hv
    have hsubset : ∀ k ∈ source :: rest, k ∈ nodes.map (fun n => n.id) :=
      walk_subset hwf rest source hch hsrc
    have hlen : (source :: rest).length ≤ nodes.length := by
      have h1 := (List.subperm_of_subset hnd (fun k hk => hsubset k hk)).length_le
      rw [hids] at h1
      exact h1
    refine bfLoop_fin_walk (nodes.length - 1) _ source rest v hch ?_ ?_ hlast ?_
    · intro k hk
      show (getKey (initDistances nodes source) k).isSome = true
      rw [getKey_initDistances, if_pos (hsubset k hk)]
      rfl
    · show finKeyB (initDistances nodes source) source = true
      unfold finKeyB
      rw [getKey_initDistances, if_pos hsrc, if_pos rfl]
    · have h2 : (source :: rest).length = rest.length + 1 := by simp
      omega
  have hfu := hfin e.source hru
  have hfv := hfin e.target hrv
  have hpoison : PoisonB (bfLoop edges
      ⟨initDistances nodes source, initPrevious nodes, false⟩
      (nodes.length - 1)).1.d e = true := by
    unfold PoisonB
    rw [hfu, hfv]
    simp [hw]
  have hneg := negCheckB_of_poison he hpoison
  unfold BellmanFordExecute
  dsimp only
  rw [hneg]
  rfl

/-- Witness for C10: the reachable negative edge B-C(-3) on the line
graph drives the run into the error. -/
theorem c10_witness :
    BellmanFordExecute triangleNodes negReachEdges "A" "C" =
      some (Except.error "Graph contains negative cycle") :=
  c10_reachable_negative_edge triangleNodes negReachEdges "A" "C" ⟨"B", "C", -3⟩
    (by decide) (by decide) (by decide) (by decide)
    (Reaches.step Reaches.refl ⟨⟨"A", "B", 2⟩, by decide, Or.inl ⟨rfl, rfl⟩⟩)
    (Reaches.step
      (Reaches.step Reaches.refl ⟨⟨"A", "B", 2⟩, by decide, Or.inl ⟨rfl, rfl⟩⟩)
      ⟨⟨"B", "C", -3⟩, by decide, Or.inl ⟨rfl, rfl⟩⟩)

/-- Walk weights are non-negative on non-negatively weighted graphs. -/
theorem wwalk_nonneg {edges : List Edge} {src v : String} {m : Int}
    (hnn : ∀ e ∈ edges, 0 ≤ e.weight) (h : WWalk edges src v m) : 0 ≤ m := by
  induction h with
  | refl => exact le_refl 0
  | @step a b m e _ he _ ih => exact add_nonneg ih (hnn e he)

/-- A walk witnesses reachability. -/
theorem wwalk_reaches {edges : List Edge} {src v : String} {m : Int}
    (h : WWalk edges src v m) : Reaches edges src v := by
  induction h with
  | refl => exact Reaches.refl
  | @step a b m e _ he hd ih => exact Reaches.step ih ⟨e, he, hd⟩

/-- Reachability yields a walk of some weight. -/
theorem reaches_wwalk {edges : List Edge} {src v : String}
    (h : Reaches edges src v) : ∃ m, WWalk edges src v m := by
  induction h with
  | refl => exact ⟨0, WWalk.refl⟩
  | @step a b _ hl ih =>
    obtain ⟨m, hm⟩ := ih
    obtain ⟨e, he, hd⟩ := hl
    exact ⟨m + e.weight, WWalk.step hm he hd⟩

/-- Domination is reflexive. -/
theorem monoD_refl (d : DistMap) : MonoD d d :=
  fun _ n h => ⟨n, h, le_refl n⟩

/-- Domination is transitive. -/
theorem monoD_trans {d2 d1 d0 : DistMap} (h2 : MonoD d2 d1) (h1 : MonoD d1 d0) :
    MonoD d2 d0 := by
  intro k n h
  obtain ⟨n1, hn1, hle1⟩ := h1 k n h
  obtain ⟨n2, hn2, hle2⟩ := h2 k n1 hn1
  exact ⟨n2, hn2, le_trans hle2 hle1⟩

/-- One relaxation attempt only lowers finite entries. -/
theorem monoD_relaxDir {s : BFState} {a b : String} {w : Int} :
    MonoD (relaxDir s a b w).d s.d := by
  cases hc : canRelaxB s.d a b w with
  | false => rw [relaxDir_of_not_canRelax hc]; exact monoD_refl _
  | true =>
    obtain ⟨da, hda⟩ := canRelax_elim hc
    rw [relaxDir_of_canRelax hda hc]
    intro k n h
    by_cases hkb : k = b
    · subst hkb
      refine ⟨da + w, getKey_setKey_self _ _ _, ?_⟩
      unfold canRelaxB at hc
      rw [hda, h] at hc
      exact le_of_lt (of_decide_eq_true hc)
    · exact ⟨n, by rw [getKey_setKey_ne _ _ _ _ hkb]; exact h, le_refl n⟩

/-- Edge processing only lowers finite entries. -/
theorem monoD_bfProcessEdge {s : BFState} {e : Edge} :
    MonoD (bfProcessEdge s e).d s.d :=
  monoD_trans monoD_relaxDir monoD_relaxDir

/-- Any processing sequence only lowers finite entries. -/
theorem monoD_foldl {s : BFState} {l : List Edge} :
    MonoD (l.foldl bfProcessEdge s).d s.d := by
  refine foldl_invariant (P := fun t : BFState => MonoD t.d s.d) _ l s
    (monoD_refl s.d) ?_
  intro t e _ ht
  exact monoD_trans monoD_bfProcessEdge ht

/-- The pass loop only lowers finite entries. -/
theorem monoD_bfLoop {l : List Edge} (n : Nat) (s : BFState) :
    MonoD (bfLoop l s n).1.d s.d := by
  induction n generalizing s with
  | zero => exact monoD_refl s.d
  | succ n ih =>
    simp only [bfLoop]
    split
    · exact monoD_trans (ih (bfPass l s)) monoD_foldl
    · exact monoD_foldl

/-- The initial distance map is sound: its one finite entry is the
zero-weight walk at the source. -/
theorem soundD_init (edges : List Edge) (nodes : List Node) (source : String) :
    SoundD edges source (initDistances nodes source) := by
  intro k n hk
  rw [getKey_initDistances] at hk
  split at hk
  · split at hk
    · next hks =>
      injection hk with hk
      injection hk with hk
      subst hks
      subst hk
      exact WWalk.refl
    · cases hk
  · cases hk

/-- A relaxation along a listed edge preserves soundness. -/
theorem soundD_relaxDir {edges : List Edge} {src : String} {s : BFState}
    {e : Edge} {a b : String} (he : e ∈ edges)
    (hd : (e.source = a ∧ e.target = b) ∨ (e.source = b ∧ e.target = a))
    (hs : SoundD edges src s.d) : SoundD edges src (relaxDir s a b e.weight).d := by
  cases hc : canRelaxB s.d a b e.weight with
  | false => rw [relaxDir_of_not_canRelax hc]; exact hs
  | true =>
    obtain ⟨da, hda⟩ := canRelax_elim hc
    rw [relaxDir_of_canRelax hda hc]
    intro k n hk
    by_cases hkb : k = b
    · subst hkb
      rw [getKey_setKey_self] at hk
      injection hk with hk
      injection hk with hk
      subst hk
      exact WWalk.step (hs a da hda) he hd
    · rw [getKey_setKey_ne _ _ _ _ hkb] at hk
      exact hs k n hk

/-- Processing a listed edge preserves soundness. -/
theorem soundD_bfProcessEdge {edges : List Edge} {src : String} {s : BFState}
    {e : Edge} (he : e ∈ edges) (hs : SoundD edges src s.d) :
    SoundD edges src (bfProcessEdge s e).d :=
  soundD_relaxDir he (Or.inr ⟨rfl, rfl⟩)
    (soundD_relaxDir he (Or.inl ⟨rfl, rfl⟩) hs)

/-- A pass preserves soundness. -/
theorem soundD_bfPass {edges : List Edge} {src : String} {s : BFState}
    (hs : SoundD edges src s.d) : SoundD edges src (bfPass edges s).d := by
  unfold bfPass
  refine foldl_invariant (P := fun t : BFState => SoundD edges src t.d) _ edges _ hs ?_
  intro t e he ht
  exact soundD_bfProcessEdge he ht

/-- The pass loop preserves soundness. -/
theorem soundD_bfLoop {edges : List Edge} {src : String} (n : Nat) (s : BFState)
    (hs : SoundD edges src s.d) : SoundD edges src (bfLoop edges s n).1.d := by
  induction n generalizing s with
  | zero => exact hs
  | succ n ih =>
    simp only [bfLoop]
    split
    · exact ih (bfPass edges s) (soundD_bfPass hs)
    · exact soundD_bfPass hs

/-- Presence of a key in a written map traces to the written key or prior
presence. -/
theorem isSome_setKey_elim {α : Type} {m : List (String × α)} {k k' : String}
    {v : α} (h : (getKey (setKey m k v) k').isSome) :
    k' = k ∨ (getKey m k').isSome := by
  by_cases hk : k' = k
  · exact Or.inl hk
  · rw [getKey_setKey_ne _ _ _ _ hk] at h
    exact Or.inr h

/-- Keys of the Bellman-Ford distance map stay inside the node list, for
well-formed edges. -/
theorem bf_keysBound {edges : List Edge} {nodes : List Node} {source : String}
    (hwf : ∀ e ∈ edges, e.source ∈ nodes.map (fun n => n.id) ∧
      e.target ∈ nodes.map (fun n => n.id)) (n : Nat) :
    ∀ k, (getKey (bfLoop edges
        ⟨initDistances nodes source, initPrevious nodes, false⟩ n).1.d k).isSome →
      k ∈ nodes.map (fun n => n.id) := by
  have hstep : ∀ (s : BFState),
      (∀ k, (getKey s.d k).isSome → k ∈ nodes.map (fun n => n.id)) →
      ∀ e ∈ edges, ∀ k, (getKey (bfProcessEdge s e).d k).isSome →
        k ∈ nodes.map (fun n => n.id) := by
    intro s hk e he k h
    unfold bfProcessEdge at h
    have hsrc' := (hwf e he).1
    have htgt := (hwf e he).2
    have inner : ∀ (t : BFState) (a b : String),
        (b ∈ nodes.map (fun n => n.id)) →
        (∀ k2, (getKey t.d k2).isSome → k2 ∈ nodes.map (fun n => n.id)) →
        ∀ k2, (getKey (relaxDir t a b e.weight).d k2).isSome →
        k2 ∈ nodes.map (fun n => n.id) := by
      intro t a b hb ht k2 hsome
      cases hc : canRelaxB t.d a b e.weight with
      | false =>
        rw [relaxDir_of_not_canRelax hc] at hsome
        exact ht k2 hsome
      | true =>
        obtain ⟨da, hda⟩ := canRelax_elim hc
        rw [relaxDir_of_canRelax hda hc] at hsome
        rcases isSome_setKey_elim hsome with hkb | hkb
        · exact hkb ▸ hb
        · exact ht k2 hkb
    exact inner (relaxDir s e.source e.target e.weight) e.target e.source hsrc'
      (inner s e.source e.target htgt hk) k h
  have hfold : ∀ (s : BFState),
      (∀ k, (getKey s.d k).isSome → k ∈ nodes.map (fun n => n.id)) →
      ∀ k, (getKey (bfPass edges s).d k).isSome → k ∈ nodes.map (fun n => n.id) := by
    intro s hs
    unfold bfPass
    have := foldl_invariant
      (P := fun t : BFState =>
        ∀ k, (getKey t.d k).isSome → k ∈ nodes.map (fun n => n.id))
      bfProcessEdge edges { s with upd := false } hs
      (fun t e he ht => hstep t ht e he)
    exact this
  have hinit : ∀ k, (getKey (initDistances nodes source) k).isSome →
      k ∈ nodes.map (fun n => n.id) := by
    intro k h
    rw [getKey_initDistances] at h
    by_cases hk : k ∈ nodes.map (fun n => n.id)
    · exact hk
    · rw [if_neg hk] at h
      cases h
  have hloop : ∀ (m : Nat) (s : BFState),
      (∀ k, (getKey s.d k).isSome → k ∈ nodes.map (fun n => n.id)) →
      ∀ k, (getKey (bfLoop edges s m).1.d k).isSome →
        k ∈ nodes.map (fun n => n.id) := by
    intro m
    induction m with
    | zero => exact fun s hs => hs
    | succ m ih =>
      intro s hs
      simp only [bfLoop]
      split
      · exact ih (bfPass edges s) (hfold s hs)
      · exact hfold s hs
  exact hloop n _ hinit

/-- At a fixpoint with a zero-or-better source entry, every walk's target
carries a finite entry bounded by the walk weight. -/
theorem fix_complete {edges : List Edge} {src : String} {d : DistMap}
    (hfix : ∀ e ∈ edges, canRelaxB d e.source e.target e.weight = false ∧
      canRelaxB d e.target e.source e.weight = false)
    (hkeys : ∀ e ∈ edges, (getKey d e.source).isSome ∧ (getKey d e.target).isSome)
    (hs0 : ∃ n0, getKey d src = some (DNum.fin n0) ∧ n0 ≤ 0) :
    ∀ v m, WWalk edges src v m →
      ∃ n, getKey d v = some (DNum.fin n) ∧ n ≤ m := by
  intro v m h
  induction h with
  | refl => exact hs0
  | @step a b m e hw he hd ih =>
    obtain ⟨na, hna, hle⟩ := ih
    have hbsome : (getKey d b).isSome := by
      rcases hd with ⟨_, h2⟩ | ⟨h1, _⟩
      · exact h2 ▸ (hkeys e he).2
      · exact h1 ▸ (hkeys e he).1
    obtain ⟨vb, hvb⟩ := Option.isSome_iff_exists.1 hbsome
    cases vb with
    | inf =>
      have hcr : canRelaxB d a b e.weight = true := canRelax_fin_inf hna hvb
      rcases hd with ⟨h1, h2⟩ | ⟨h1, h2⟩
      · rw [← h1, ← h2] at hcr
        rw [(hfix e he).1] at hcr
        cases hcr
      · rw [← h2, ← h1] at hcr
        rw [(hfix e he).2] at hcr
        cases hcr
    | fin nb =>
      refine ⟨nb, hvb, ?_⟩
      have hcrf : canRelaxB d a b e.weight = false := by
        rcases hd with ⟨h1, h2⟩ | ⟨h1, h2⟩
        · rw [← h1, ← h2]
          exact (hfix e he).1
        · rw [← h2, ← h1]
          exact (hfix e he).2
      rw [canRelax_fin_fin hna hvb] at hcrf
      have h3 := of_decide_eq_false hcrf
      omega

/-- Membership in the deduplication accumulator loop. -/
theorem eraseDups_loop_mem (a : String) : ∀ (l acc : List String),
    a ∈ List.eraseDups.loop l acc ↔ a ∈ l ∨ a ∈ acc := by
  intro l
  induction l with
  | nil => intro acc; simp [List.eraseDups.loop]
  | cons x xs ih =>
    intro acc
    simp only [List.eraseDups.loop]
    split
    · next h =>
      rw [ih]
      have hx : x ∈ acc := List.elem_iff.1 h
      constructor
      · rintro (h1 | h1)
        · exact Or.inl (List.mem_cons_of_mem x h1)
        · exact Or.inr h1
      · rintro (h1 | h1)
        · rcases List.mem_cons.1 h1 with h2 | h2
          · exact Or.inr (h2 ▸ hx)
          · exact Or.inl h2
        · exact Or.inr h1
    · rw [ih]
      simp [List.mem_cons, or_assoc, or_comm, or_left_comm]

/-- The deduplication loop keeps the accumulator duplicate-free. -/
theorem eraseDups_loop_nodup : ∀ (l acc : List String), acc.Nodup →
    (List.eraseDups.loop l acc).Nodup := by
  intro l
  induction l with
  | nil => intro acc h; simpa [List.eraseDups.loop] using h
  | cons x xs ih =>
    intro acc h
    simp only [List.eraseDups.loop]
    split
    · exact ih acc h
    · next hne =>
      refine ih (x :: acc) (List.nodup_cons.2 ⟨?_, h⟩)
      intro hx
      rw [List.elem_iff.2 hx] at hne
      cases hne

/-- `eraseDups` keeps exactly the members. -/
theorem mem_eraseDups (a : String) (l : List String) :
    a ∈ l.eraseDups ↔ a ∈ l := by
  unfold List.eraseDups
  rw [eraseDups_loop_mem]
  simp

/-- `eraseDups` yields a duplicate-free list. -/
theorem nodup_eraseDups (l : List String) : l.eraseDups.Nodup :=
  eraseDups_loop_nodup l [] List.nodup_nil

/-- A successful association-list lookup exhibits a member pair. -/
theorem mem_of_getKey {α : Type} {m : List (String × α)} {k : String} {v : α}
    (h : getKey m k = some v) : (k, v) ∈ m := by
  induction m with
  | nil => cases h
  | cons p rest ih =>
    unfold getKey at h
    split at h
    · next hp =>
      injection h with h
      subst h
      have : p = (k, p.2) := by
        cases p
        simp at hp ⊢
        exact hp
      rw [← this]
      exact List.mem_cons_self p rest
    · exact List.mem_cons_of_mem p (ih h)

/-- A passed final scan means no edge is relaxable in either direction. -/
theorem negCheckB_false_elim {edges : List Edge} {d : DistMap}
    (h : negCheckB edges d = false) :
    ∀ e ∈ edges, canRelaxB d e.source e.target e.weight = false ∧
      canRelaxB d e.target e.source e.weight = false := by
  intro e he
  unfold negCheckB at h
  rw [List.any_eq_false] at h
  have := h e he
  rw [Bool.or_eq_true] at this
  constructor
  · cases hc : canRelaxB d e.source e.target e.weight
    · rfl
    · exact absurd (Or.inl hc) this
  · cases hc : canRelaxB d e.target e.source e.weight
    · rfl
    · exact absurd (Or.inr hc) this

/-- The pass loop keeps every present distance key present. -/
theorem isSome_bfLoop {l : List Edge} {k : String} (n : Nat) (s : BFState)
    (h : (getKey s.d k).isSome) : (getKey (bfLoop l s n).1.d k).isSome := by
  induction n generalizing s with
  | zero => exact h
  | succ n ih =>
    simp only [bfLoop]
    split
    · exact ih (bfPass l s) (isSome_bfPass h)
    · exact isSome_bfPass h

/-- A walk's endpoint is a node id, for well-formed edges and a listed
source. -/
theorem wwalk_mem_ids {edges : List Edge} {nodes : List Node} {src v : String}
    {m : Int}
    (hwf : ∀ e ∈ edges, e.source ∈ nodes.map (fun n => n.id) ∧
      e.target ∈ nodes.map (fun n => n.id))
    (hsrc : src ∈ nodes.map (fun n => n.id)) (h : WWalk edges src v m) :
    v ∈ nodes.map (fun n => n.id) := by
  induction h with
  | refl => exact hsrc
  | @step a b m e _ he hd _ =>
    rcases hd with ⟨_, h2⟩ | ⟨h1, _⟩
    · exact h2 ▸ (hwf e he).2
    · exact h1 ▸ (hwf e he).1

/-- Unpacking a normal Bellman-Ford return: the final scan passed, the
returned maps are the loop's final maps, and the destination walk
terminated. -/
theorem bf_ok_elim {nodes : List Node} {edges : List Edge}
    {source destination : String} {r : AlgorithmResult}
    (h : BellmanFordExecute nodes edges source destination =
      some (Except.ok r)) :
    negCheckB edges (bfLoop edges
      ⟨initDistances nodes source, initPrevious nodes, false⟩
      (nodes.length - 1)).1.d = false ∧
    r.distances = (bfLoop edges
      ⟨initDistances nodes source, initPrevious nodes, false⟩
      (nodes.length - 1)).1.d ∧
    r.previous = (bfLoop edges
      ⟨initDistances nodes source, initPrevious nodes, false⟩
      (nodes.length - 1)).1.p ∧
    (∃ path, walkPrev (bfLoop edges
        ⟨initDistances nodes source, initPrevious nodes, false⟩
        (nodes.length - 1)).1.p
      ((bfLoop edges
        ⟨initDistances nodes source, initPrevious nodes, false⟩
        (nodes.length - 1)).1.p.length + 1) destination = some path ∧
      r.path = (if source ∈ path then path else [])) ∧
    buildTable nodes source
      (bfLoop edges
        ⟨initDistances nodes source, initPrevious nodes, false⟩
        (nodes.length - 1)).1.d
      (bfLoop edges
        ⟨initDistances nodes source, initPrevious nodes, false⟩
        (nodes.length - 1)).1.p = some r.routingTable := by
  unfold BellmanFordExecute at h
  dsimp only at h
  split at h
  · exact absurd (Option.some.inj h) (fun hx => Except.noConfusion hx)
  · next hneg =>
    split at h
    · next path table hpath htable =>
      have h1 := Except.ok.inj (Option.some.inj h)
      subst h1
      exact ⟨Bool.eq_false_iff.2 hneg, rfl, rfl, ⟨path, hpath, rfl⟩, htable⟩
    · cases h

/-- The strict distance comparison is irreflexive. -/
theorem dLtB_irrefl (v : Option DNum) : dLtB v v = false := by
  cases v with
  | none => rfl
  | some w => cases w <;> simp [dLtB]

/-- The reduce-style minimum is one of the scanned nodes. -/
theorem minFold_mem (d : DistMap) (x : String) (xs : List String) :
    minFold d x xs ∈ x :: xs := by
  unfold minFold
  have key : ∀ (l : List String) (m : String),
      l.foldl (fun m n => if dLtB (getKey d n) (getKey d m) then n else m) m = m ∨
      l.foldl (fun m n => if dLtB (getKey d n) (getKey d m) then n else m) m ∈ l := by
    intro l
    induction l with
    | nil => exact fun m => Or.inl rfl
    | cons y ys ih =>
      intro m
      simp only [List.foldl_cons]
      by_cases hy : dLtB (getKey d y) (getKey d m) = true
      · rw [if_pos hy]
        rcases ih y with h | h
        · rw [h]
          exact Or.inr (List.mem_cons_self y ys)
        · exact Or.inr (List.mem_cons_of_mem y h)
      · rw [if_neg hy]
        rcases ih m with h | h
        · exact Or.inl h
        · exact Or.inr (List.mem_cons_of_mem y h)
  rcases key xs x with h | h
  · rw [h]
    exact List.mem_cons_self x xs
  · exact List.mem_cons_of_mem x h

/-- On a map holding every scanned key, no scanned node strictly beats the
reduce-style minimum. -/
theorem minFold_min {d : DistMap} {x : String} {xs : List String}
    (hsome : ∀ z ∈ x :: xs, (getKey d z).isSome) :
    ∀ z ∈ x :: xs, dLtB (getKey d z) (getKey d (minFold d x xs)) = false := by
  unfold minFold
  have key : ∀ (l : List String) (m : String), (getKey d m).isSome →
      (∀ z ∈ l, (getKey d z).isSome) →
      (l.foldl (fun m n => if dLtB (getKey d n) (getKey d m) then n else m) m = m ∨
        l.foldl (fun m n => if dLtB (getKey d n) (getKey d m) then n else m) m ∈ l) ∧
      dLtB (getKey d m)
        (getKey d (l.foldl (fun m n => if dLtB (getKey d n) (getKey d m) then n else m) m)) = false ∧
      ∀ z ∈ l, dLtB (getKey d z)
        (getKey d (l.foldl (fun m n => if dLtB (getKey d n) (getKey d m) then n else m) m)) = false := by
    intro l
    induction l with
    | nil =>
      intro m _ _
      refine ⟨Or.inl rfl, dLtB_irrefl _, ?_⟩
      intro z hz
      cases hz
    | cons y ys ih =>
      intro m hm hys
      have hy : (getKey d y).isSome := hys y (List.mem_cons_self y ys)
      have hys' : ∀ z ∈ ys, (getKey d z).isSome :=
        fun z hz => hys z (List.mem_cons_of_mem y hz)
      simp only [List.foldl_cons]
      by_cases hsw : dLtB (getKey d y) (getKey d m) = true
      · rw [if_pos hsw]
        obtain ⟨hmem, hbase, hall⟩ := ih y hy hys'
        have hr : (getKey d (ys.foldl
            (fun m n => if dLtB (getKey d n) (getKey d m) then n else m) y)).isSome := by
          rcases hmem with h | h
          · rw [h]; exact hy
          · exact hys' _ h
        refine ⟨?_, ?_, ?_⟩
        · rcases hmem with h | h
          · rw [h]
            exact Or.inr (List.mem_cons_self y ys)
          · exact Or.inr (List.mem_cons_of_mem y h)
        · obtain ⟨vm, hvm⟩ := Option.isSome_iff_exists.1 hm
          obtain ⟨vy, hvy⟩ := Option.isSome_iff_exists.1 hy
          obtain ⟨vr, hvr⟩ := Option.isSome_iff_exists.1 hr
          rw [hvm, hvy] at hsw
          rw [hvy, hvr] at hbase
          rw [hvm, hvr]
          cases vm with
          | inf =>
            cases vy with
            | inf => cases hsw
            | fin ny =>
              cases vr with
              | inf => cases hbase
              | fin nr => rfl
          | fin nm =>
            cases vy with
            | inf => cases hsw
            | fin ny =>
              cases vr with
              | inf => cases hbase
              | fin nr =>
                simp only [dLtB, decide_eq_true_eq] at hsw
                simp only [dLtB, decide_eq_false_iff_not] at hbase ⊢
                omega
        · intro z hz
          rcases List.mem_cons.1 hz with h | h
          · exact h ▸ hbase
          · exact hall z h
      · rw [if_neg hsw]
        obtain ⟨hmem, hbase, hall⟩ := ih m hm hys'
        have hr : (getKey d (ys.foldl
            (fun m n => if dLtB (getKey d n) (getKey d m) then n else m) m)).isSome := by
          rcases hmem with h | h
          · rw [h]; exact hm
          · exact hys' _ h
        refine ⟨?_, hbase, ?_⟩
        · rcases hmem with h | h
          · exact Or.inl h
          · exact Or.inr (List.mem_cons_of_mem y h)
        · intro z hz
          rcases List.mem_cons.1 hz with h | h
          · subst h
            obtain ⟨vm, hvm⟩ := Option.isSome_iff_exists.1 hm
            obtain ⟨vy, hvy⟩ := Option.isSome_iff_exists.1 hy
            obtain ⟨vr, hvr⟩ := Option.isSome_iff_exists.1 hr
            rw [hvy, hvm] at hsw
            rw [hvm, hvr] at hbase
            rw [hvy, hvr]
            cases vy with
            | inf =>
              cases vr with
              | inf => rfl
              | fin nr => rfl
            | fin ny =>
              cases vr with
              | inf =>
                cases vm with
                | inf => exact absurd rfl hsw
                | fin nm => cases hbase
              | fin nr =>
                cases vm with
                | inf => exact absurd rfl hsw
                | fin nm =>
                  simp only [dLtB, decide_eq_false_iff_not] at hbase ⊢
                  have hsw' : ¬ (ny < nm) := by
                    simpa [dLtB] using hsw
                  omega
          · exact hall z h
  intro z hz
  rcases List.mem_cons.1 hz with h | h
  · subst h
    exact (key xs z (hsome z hz) (fun w hw => hsome w (List.mem_cons_of_mem z hw))).2.1
  · exact (key xs x (hsome x (List.mem_cons_self x xs))
      (fun w hw => hsome w (List.mem_cons_of_mem x hw))).2.2 z h

/-- The outer keys of the built graph are exactly the node ids. -/
theorem buildGraph_keys (nodes : List Node) (edges : List Edge) (k : String) :
    (getKey (buildGraphT nodes edges) k).isSome = true ↔
      k ∈ nodes.map (fun n => n.id) := by
  unfold buildGraphT
  have hout : ∀ (l : List Edge) (g : List (String × List (String × Int))),
      (getKey (l.foldl (fun g e =>
        setInnerT (setInnerT g e.source e.target e.weight)
          e.target e.source e.weight) g) k).isSome = (getKey g k).isSome := by
    intro l
    induction l with
    | nil => intro g; rfl
    | cons e es ih =>
      intro g
      rw [List.foldl_cons, ih, isSome_setInner, isSome_setInner]
  rw [hout]
  rw [getKey_foldl_setKey (fun _ => ([] : List (String × Int)))]
  by_cases hk : k ∈ nodes.map (fun n => n.id) <;> simp [hk, getKey]

/-- An inner write preserves every adjacency trace. -/
theorem adjTrace_setInner {edges : List Edge}
    {g : List (String × List (String × Int))} {a b : String} {w : Int}
    (hw : ∃ e ∈ edges, ((e.source = a ∧ e.target = b) ∨
      (e.source = b ∧ e.target = a)) ∧ e.weight = w)
    (h : AdjTrace edges g) : AdjTrace edges (setInnerT g a b w) := by
  unfold setInnerT
  cases hg : getKey g a with
  | none => exact h
  | some inner =>
    intro x i hx pr hpr
    by_cases hxa : x = a
    · subst hxa
      rw [getKey_setKey_self] at hx
      injection hx with hx
      subst hx
      rcases mem_setKey hpr with hpr' | hpr'
      · obtain ⟨e, he, hd, hwe⟩ := hw
        subst hpr'
        exact ⟨e, he, hd, hwe⟩
      · exact h x inner hg pr hpr'
    · rw [getKey_setKey_ne _ _ _ _ hxa] at hx
      exact h x i hx pr hpr

/-- Every adjacency entry of the built graph traces to a listed edge. -/
theorem adjTrace_buildGraph (nodes : List Node) (edges : List Edge) :
    AdjTrace edges (buildGraphT nodes edges) := by
  unfold buildGraphT
  refine foldl_invariant (P := AdjTrace edges) _ edges _ ?_ ?_
  · intro a i ha pr hpr
    rw [getKey_foldl_setKey (fun _ => ([] : List (String × Int)))] at ha
    split at ha
    · injection ha with ha
      subst ha
      cases hpr
    · cases ha
  · intro g e he hg
    refine adjTrace_setInner ⟨e, he, Or.inr ⟨rfl, rfl⟩, rfl⟩
      (adjTrace_setInner ⟨e, he, Or.inl ⟨rfl, rfl⟩, rfl⟩ hg)

/-- An inner write preserves presence of any adjacency value. -/
theorem adjW_isSome_setInner {g : List (String × List (String × Int))}
    {x y : String} (a b : String) (w : Int)
    (h : (adjW g x y).isSome) : (adjW (setInnerT g a b w) x y).isSome := by
  unfold adjW at h ⊢
  unfold setInnerT
  cases hg : getKey g a with
  | none => exact h
  | some inner =>
    by_cases hx : x = a
    · subst hx
      rw [getKey_setKey_self]
      rw [hg] at h
      exact isSome_getKey_setKey inner b y w h
    · rw [getKey_setKey_ne _ _ _ _ hx]
      exact h

/-- An inner write creates its own adjacency value when the outer key
exists. -/
theorem adjW_setInner_self {g : List (String × List (String × Int))}
    {a : String} (b : String) (w : Int) (h : (getKey g a).isSome) :
    (adjW (setInnerT g a b w) a b).isSome := by
  obtain ⟨inner, hg⟩ := Option.isSome_iff_exists.1 h
  unfold setInnerT adjW
  rw [hg, getKey_setKey_self]
  simp [getKey_setKey_self]

/-- Both adjacency directions of every well-formed listed edge are present
in the built graph. -/
theorem buildGraph_adjW_isSome {nodes : List Node} {edges : List Edge}
    {e : Edge} (he : e ∈ edges)
    (hwf : ∀ e ∈ edges, e.source ∈ nodes.map (fun n => n.id) ∧
      e.target ∈ nodes.map (fun n => n.id)) :
    (adjW (buildGraphT nodes edges) e.source e.target).isSome ∧
    (adjW (buildGraphT nodes edges) e.target e.source).isSome := by
  obtain ⟨l1, l2, hsplit⟩ := List.append_of_mem he
  have hstep := fun (g : List (String × List (String × Int))) (e : Edge) =>
    setInnerT (setInnerT g e.source e.target e.weight) e.target e.source e.weight
  unfold buildGraphT
  rw [hsplit, List.foldl_append, List.foldl_cons]
  have hout : ∀ (l : List Edge) (g : List (String × List (String × Int)))
      (k : String),
      (getKey (l.foldl (fun g e =>
        setInnerT (setInnerT g e.source e.target e.weight)
          e.target e.source e.weight) g) k).isSome = (getKey g k).isSome := by
    intro l
    induction l with
    | nil => intro g k; rfl
    | cons x xs ih =>
      intro g k
      rw [List.foldl_cons, ih, isSome_setInner, isSome_setInner]
  have hpres : ∀ (l : List Edge) (g : List (String × List (String × Int)))
      (x y : String), (adjW g x y).isSome →
      (adjW (l.foldl (fun g e =>
        setInnerT (setInnerT g e.source e.target e.weight)
          e.target e.source e.weight) g) x y).isSome := by
    intro l
    induction l with
    | nil => intro g x y h; exact h
    | cons z zs ih =>
      intro g x y h
      rw [List.foldl_cons]
      exact ih _ x y (adjW_isSome_setInner _ _ _
        (adjW_isSome_setInner _ _ _ h))
  set g1 := l1.foldl (fun g e =>
    setInnerT (setInnerT g e.source e.target e.weight)
      e.target e.source e.weight)
    (nodes.foldl (fun g n => setKey g n.id ([] : List (String × Int))) []) with hg1
  have hkeys : ∀ k, k ∈ nodes.map (fun n => n.id) → (getKey g1 k).isSome := by
    intro k hk
    rw [hg1, hout]
    rw [getKey_foldl_setKey (fun _ => ([] : List (String × Int)))]
    simp [hk]
  have hsome_s : (getKey g1 e.source).isSome := hkeys _ (hwf e he).1
  have hfwd : (adjW (setInnerT (setInnerT g1 e.source e.target e.weight)
      e.target e.source e.weight) e.source e.target).isSome :=
    adjW_isSome_setInner _ _ _ (adjW_setInner_self e.target e.weight hsome_s)
  have hsome_t : (getKey (setInnerT g1 e.source e.target e.weight)
      e.target).isSome := by
    rw [isSome_setInner]
    exact hkeys _ (hwf e he).2
  have hbwd : (adjW (setInnerT (setInnerT g1 e.source e.target e.weight)
      e.target e.source e.weight) e.target e.source).isSome :=
    adjW_setInner_self e.source e.weight hsome_t
  exact ⟨hpres l2 _ _ _ hfwd, hpres l2 _ _ _ hbwd⟩

/-- Any adjacency value of the built graph is the weight of a listed edge
with the same unordered endpoints. -/
theorem adjW_trace {nodes : List Node} {edges : List Edge} {a b : String}
    {w : Int} (h : adjW (buildGraphT nodes edges) a b = some w) :
    ∃ e ∈ edges, ((e.source = a ∧ e.target = b) ∨
      (e.source = b ∧ e.target = a)) ∧ e.weight = w := by
  unfold adjW at h
  cases hg : getKey (buildGraphT nodes edges) a with
  | none => rw [hg] at h; cases h
  | some inner =>
    rw [hg] at h
    exact adjTrace_buildGraph nodes edges a inner hg (b, w) (mem_of_getKey h)

/-- `relaxNeighbors` is the fold of its step function. -/
theorem relaxNeighbors_eq_foldl (current : String) (visited : List String)
    (inner : List (String × Int)) (d0 : DistMap) (p0 : PrevMap) :
    relaxNeighbors current visited inner d0 p0 =
      inner.foldl (relaxStep current visited) (d0, p0) := rfl

/-- A neighbor-update step either leaves the state alone or relaxes one
unvisited neighbor from a finite current value. -/
theorem relaxStep_cases (current : String) (visited : List String)
    (dp : DistMap × PrevMap) (pr : String × Int) :
    relaxStep current visited dp pr = dp ∨
    (pr.1 ∉ visited ∧ ∃ da, getKey dp.1 current = some (DNum.fin da) ∧
      candLtB (da + pr.2) (getKey dp.1 pr.1) = true ∧
      relaxStep current visited dp pr =
        (setKey dp.1 pr.1 (DNum.fin (da + pr.2)),
         setKey dp.2 pr.1 (some current))) := by
  unfold relaxStep
  by_cases hv : pr.1 ∈ visited
  · rw [if_pos hv]
    exact Or.inl rfl
  · rw [if_neg hv]
    cases hc : getKey dp.1 current with
    | none => exact Or.inl rfl
    | some v =>
      cases v with
      | inf => exact Or.inl rfl
      | fin da =>
        dsimp only
        by_cases hr : candLtB (da + pr.2) (getKey dp.1 pr.1) = true
        · rw [if_pos hr]
          exact Or.inr ⟨hv, da, rfl, hr, rfl⟩
        · rw [if_neg hr]
          exact Or.inl rfl

/-- The neighbor fold never touches a visited node's distance. -/
theorem relaxFold_frozen_visited {current : String} {visited : List String}
    {x : String} (hx : x ∈ visited) :
    ∀ (inner : List (String × Int)) (dp : DistMap × PrevMap),
    getKey (inner.foldl (relaxStep current visited) dp).1 x = getKey dp.1 x := by
  intro inner
  induction inner with
  | nil => intro dp; rfl
  | cons pr rest ih =>
    intro dp
    rw [List.foldl_cons, ih]
    rcases relaxStep_cases current visited dp pr with h | ⟨hv, da, _, _, h⟩
    · rw [h]
    · rw [h]
      exact getKey_setKey_ne _ _ _ _ (fun hxx => hv (hxx ▸ hx))

/-- The neighbor fold only ever lowers finite distances and never loses
one. -/
theorem relaxFold_monoD (current : String) (visited : List String) :
    ∀ (inner : List (String × Int)) (dp : DistMap × PrevMap),
    MonoD (inner.foldl (relaxStep current visited) dp).1 dp.1 := by
  intro inner
  induction inner with
  | nil => intro dp; exact monoD_refl _
  | cons pr rest ih =>
    intro dp
    rw [List.foldl_cons]
    refine monoD_trans (ih _) ?_
    rcases relaxStep_cases current visited dp pr with h | ⟨_, da, _, hlt, h⟩
    · rw [h]
      exact monoD_refl _
    · rw [h]
      intro k n hk
      by_cases hkp : k = pr.1
      · subst hkp
        rw [hk] at hlt
        simp only [candLtB, decide_eq_true_eq] at hlt
        exact ⟨da + pr.2, getKey_setKey_self _ _ _, le_of_lt hlt⟩
      · exact ⟨n, by rw [getKey_setKey_ne _ _ _ _ hkp]; exact hk, le_refl n⟩

/-- The neighbor fold keeps every present distance key present. -/
theorem relaxFold_isSome {current : String} {visited : List String}
    {k : String} :
    ∀ (inner : List (String × Int)) (dp : DistMap × PrevMap),
    (getKey dp.1 k).isSome →
    (getKey (inner.foldl (relaxStep current visited) dp).1 k).isSome := by
  intro inner
  induction inner with
  | nil => intro dp h; exact h
  | cons pr rest ih =>
    intro dp h
    rw [List.foldl_cons]
    refine ih _ ?_
    rcases relaxStep_cases current visited dp pr with heq | ⟨_, da, _, _, heq⟩
    · rw [heq]; exact h
    · rw [heq]
      exact isSome_getKey_setKey _ _ _ _ h

/-- Distance keys created by the neighbor fold name scanned adjacency
entries. -/
theorem relaxFold_keys {current : String} {visited : List String} {k : String} :
    ∀ (inner : List (String × Int)) (dp : DistMap × PrevMap),
    (getKey (inner.foldl (relaxStep current visited) dp).1 k).isSome →
    (getKey dp.1 k).isSome ∨ ∃ w, (k, w) ∈ inner := by
  intro inner
  induction inner with
  | nil => intro dp h; exact Or.inl h
  | cons pr rest ih =>
    intro dp h
    rw [List.foldl_cons] at h
    rcases ih _ h with h' | ⟨w, hw⟩
    · rcases relaxStep_cases current visited dp pr with heq | ⟨_, da, _, _, heq⟩
      · rw [heq] at h'
        exact Or.inl h'
      · rw [heq] at h'
        rcases isSome_setKey_elim h' with hk | hk
        · exact Or.inr ⟨pr.2, by rw [hk]; exact List.mem_cons_self pr rest⟩
        · exact Or.inl hk
    · exact Or.inr ⟨w, List.mem_cons_of_mem pr hw⟩

/-- With non-negative scanned weights the fold never changes the current
node's own distance. -/
theorem relaxFold_frozen_current {current : String} {visited : List String} :
    ∀ (inner : List (String × Int)) (dp : DistMap × PrevMap),
    (∀ pr ∈ inner, 0 ≤ pr.2) →
    getKey (inner.foldl (relaxStep current visited) dp).1 current =
      getKey dp.1 current := by
  intro inner
  induction inner with
  | nil => intro dp _; rfl
  | cons pr rest ih =>
    intro dp hw
    rw [List.foldl_cons,
      ih _ (fun q hq => hw q (List.mem_cons_of_mem pr hq))]
    rcases relaxStep_cases current visited dp pr with heq | ⟨_, da, hda, hlt, heq⟩
    · rw [heq]
    · rw [heq]
      by_cases hpc : pr.1 = current
      · subst hpc
        rw [hda] at hlt
        simp only [candLtB, decide_eq_true_eq] at hlt
        have := hw pr (List.mem_cons_self pr rest)
        omega
      · exact getKey_setKey_ne _ _ _ _ (fun hc => hpc hc.symm)

/-- The neighbor fold preserves walk-soundness when every scanned entry
traces to a listed edge out of the current node. -/
theorem relaxFold_sound {edges : List Edge} {src current : String}
    {visited : List String} :
    ∀ (inner : List (String × Int)) (dp : DistMap × PrevMap),
    (∀ pr ∈ inner, ∃ e ∈ edges, ((e.source = current ∧ e.target = pr.1) ∨
      (e.source = pr.1 ∧ e.target = current)) ∧ e.weight = pr.2) →
    SoundD edges src dp.1 →
    SoundD edges src (inner.foldl (relaxStep current visited) dp).1 := by
  intro inner
  induction inner with
  | nil => intro dp _ h; exact h
  | cons pr rest ih =>
    intro dp htr hs
    rw [List.foldl_cons]
    refine ih _ (fun q hq => htr q (List.mem_cons_of_mem pr hq)) ?_
    rcases relaxStep_cases current visited dp pr with heq | ⟨_, da, hda, _, heq⟩
    · rw [heq]; exact hs
    · rw [heq]
      intro k n hk
      by_cases hkp : k = pr.1
      · subst hkp
        rw [getKey_setKey_self] at hk
        injection hk with hk
        injection hk with hk
        obtain ⟨e, he, hd, hwe⟩ := htr pr (List.mem_cons_self pr rest)
        have hwalk := WWalk.step (hs current da hda) he hd
        rw [hwe] at hwalk
        rw [← hk]
        exact hwalk
      · rw [getKey_setKey_ne _ _ _ _ hkp] at hk
        exact hs k n hk

/-- After the fold, every unvisited scanned neighbor with a present entry
sits at most one relaxation above the (frozen, finite) current value. -/
theorem relaxFold_bound {current : String} {visited : List String}
    {z : String} {w : Int} :
    ∀ (inner : List (String × Int)) (dp : DistMap × PrevMap),
    (∀ pr ∈ inner, 0 ≤ pr.2) → (z, w) ∈ inner → z ∉ visited →
    (getKey dp.1 z).isSome →
    ∀ nc, getKey dp.1 current = some (DNum.fin nc) →
    ∃ nz, getKey (inner.foldl (relaxStep current visited) dp).1 z =
      some (DNum.fin nz) ∧ nz ≤ nc + w := by
  intro inner
  induction inner with
  | nil =>
    intro dp _ hz
    cases hz
  | cons pr rest ih =>
    intro dp hw hz hzv hzsome nc hnc
    rw [List.foldl_cons]
    rcases List.mem_cons.1 hz with hhit | htail
    · have hz1 : pr.1 = z := by rw [← hhit]
      have hz2 : pr.2 = w := by rw [← hhit]
      have hstep : ∃ nz0, getKey (relaxStep current visited dp pr).1 z =
          some (DNum.fin nz0) ∧ nz0 ≤ nc + w := by
        unfold relaxStep
        rw [if_neg (hz1 ▸ hzv), hnc]
        dsimp only
        by_cases hr : candLtB (nc + pr.2) (getKey dp.1 pr.1) = true
        · rw [if_pos hr]
          refine ⟨nc + pr.2, ?_, by rw [hz2]⟩
          simp only
          rw [hz1, getKey_setKey_self]
        · rw [if_neg hr]
          obtain ⟨vz, hvz⟩ := Option.isSome_iff_exists.1 hzsome
          cases vz with
          | inf =>
            rw [hz1, hvz] at hr
            cases hr rfl
          | fin nb =>
            refine ⟨nb, hvz, ?_⟩
            rw [hz1, hvz] at hr
            simp only [candLtB, decide_eq_true_eq] at hr
            omega
      obtain ⟨nz0, hnz0, hle0⟩ := hstep
      obtain ⟨nz, hnz, hle⟩ := relaxFold_monoD current visited rest
        (relaxStep current visited dp pr) z nz0 hnz0
      exact ⟨nz, hnz, le_trans hle hle0⟩
    · have hfr : getKey (relaxStep current visited dp pr).1 current =
          some (DNum.fin nc) := by
        rcases relaxStep_cases current visited dp pr with heq | ⟨_, da, hda, hlt, heq⟩
        · rw [heq]; exact hnc
        · rw [heq]
          by_cases hpc : pr.1 = current
          · subst hpc
            rw [hda] at hlt
            simp only [candLtB, decide_eq_true_eq] at hlt
            have := hw pr (List.mem_cons_self pr rest)
            omega
          · rw [getKey_setKey_ne _ _ _ _ (fun hc => hpc hc.symm)]
            exact hnc
      have hzsome' : (getKey (relaxStep current visited dp pr).1 z).isSome := by
        rcases relaxStep_cases current visited dp pr with heq | ⟨_, da, _, _, heq⟩
        · rw [heq]; exact hzsome
        · rw [heq]
          exact isSome_getKey_setKey _ _ _ _ hzsome
      exact ih _ (fun q hq => hw q (List.mem_cons_of_mem pr hq)) htail hzv
        hzsome' nc hfr

/-- Without unequal parallel edges, the built graph's adjacency value
between a listed edge's endpoints is that edge's weight (in either
direction). -/
theorem adjW_of_edge {nodes : List Node} {edges : List Edge} {e : Edge}
    {a b : String}
    (hwf : ∀ e ∈ edges, e.source ∈ nodes.map (fun n => n.id) ∧
      e.target ∈ nodes.map (fun n => n.id))
    (hnp : ∀ e1 ∈ edges, ∀ e2 ∈ edges, sameEnds e1 e2 → e1.weight = e2.weight)
    (he : e ∈ edges)
    (hd : (e.source = a ∧ e.target = b) ∨ (e.source = b ∧ e.target = a)) :
    adjW (buildGraphT nodes edges) a b = some e.weight := by
  have hiso : (adjW (buildGraphT nodes edges) a b).isSome := by
    rcases hd with ⟨h1, h2⟩ | ⟨h1, h2⟩
    · rw [← h1, ← h2]
      exact (buildGraph_adjW_isSome he hwf).1
    · rw [← h1, ← h2]
      exact (buildGraph_adjW_isSome he hwf).2
  obtain ⟨t, ht⟩ := Option.isSome_iff_exists.1 hiso
  obtain ⟨e2, he2, hd2, hw2⟩ := adjW_trace ht
  have hsame : sameEnds e2 e := by
    unfold sameEnds
    rcases hd with ⟨h1, h2⟩ | ⟨h1, h2⟩ <;>
      rcases hd2 with ⟨h3, h4⟩ | ⟨h3, h4⟩ <;>
      [exact Or.inl ⟨h3.trans h1.symm, h4.trans h2.symm⟩;
       exact Or.inr ⟨h3.trans h2.symm, h4.trans h1.symm⟩;
       exact Or.inr ⟨h3.trans h2.symm, h4.trans h1.symm⟩;
       exact Or.inl ⟨h3.trans h1.symm, h4.trans h2.symm⟩]
  rw [ht, ← hw2, hnp e2 he2 e he hsame]

/-- Greedy pop bound: with the loop invariants in force, the selected
minimum's distance under-approximates the weight of every walk ending at
any still-unvisited node. -/
theorem dij_pop_bound {nodes : List Node} {edges : List Edge} {source : String}
    {d : DistMap} {vis uv : List String} {c : String} {nc : Int}
    (hwf : ∀ e ∈ edges, e.source ∈ nodes.map (fun n => n.id) ∧
      e.target ∈ nodes.map (fun n => n.id))
    (hnn : ∀ e ∈ edges, 0 ≤ e.weight)
    (hnp : ∀ e1 ∈ edges, ∀ e2 ∈ edges, sameEnds e1 e2 → e1.weight = e2.weight)
    (hpart : ∀ k ∈ nodes.map (fun n => n.id), k ∈ vis ∨ k ∈ uv)
    (hUB : ∀ x ∈ vis, ∀ m, WWalk edges source x m →
      ∃ n, getKey d x = some (DNum.fin n) ∧ n ≤ m)
    (hR : ∀ x ∈ vis, ∀ z t, z ∈ uv →
      adjW (buildGraphT nodes edges) x z = some t →
      ∃ nx nz, getKey d x = some (DNum.fin nx) ∧
        getKey d z = some (DNum.fin nz) ∧ nz ≤ nx + t)
    (hZ : ∃ n0, getKey d source = some (DNum.fin n0) ∧ n0 ≤ 0)
    (hmin : ∀ z ∈ uv, dLtB (getKey d z) (getKey d c) = false)
    (hnc : getKey d c = some (DNum.fin nc)) :
    ∀ v m, WWalk edges source v m → v ∈ uv → nc ≤ m := by
  intro v m h
  induction h with
  | refl =>
    intro hv
    obtain ⟨n0, hn0, hn0le⟩ := hZ
    have := hmin source hv
    rw [hn0, hnc] at this
    simp only [dLtB, decide_eq_false_iff_not] at this
    omega
  | @step a b m e hw he hd ih =>
    intro hb
    have hwnn : 0 ≤ e.weight := hnn e he
    have ha_ids : a ∈ nodes.map (fun n => n.id) := by
      rcases hd with ⟨h1, _⟩ | ⟨_, h2⟩
      · exact h1 ▸ (hwf e he).1
      · exact h2 ▸ (hwf e he).2
    rcases hpart a ha_ids with havis | hauv
    · obtain ⟨na, hna, hnale⟩ := hUB a havis m hw
      have hadj : adjW (buildGraphT nodes edges) a b = some e.weight :=
        adjW_of_edge hwf hnp he hd
      obtain ⟨nx, nz, hnx, hnz, hnzle⟩ := hR a havis b e.weight hb hadj
      rw [hna] at hnx
      injection hnx with hnx
      injection hnx with hnx
      subst hnx
      have := hmin b hb
      rw [hnz, hnc] at this
      simp only [dLtB, decide_eq_false_iff_not] at this
      omega
    · have := ih hauv
      omega

/-- When every unvisited node sits at infinity (the `Infinity`-break), no
walk from the source reaches an unvisited node. -/
theorem dij_inf_break {nodes : List Node} {edges : List Edge} {source : String}
    {d : DistMap} {vis uv : List String}
    (hwf : ∀ e ∈ edges, e.source ∈ nodes.map (fun n => n.id) ∧
      e.target ∈ nodes.map (fun n => n.id))
    (hnp : ∀ e1 ∈ edges, ∀ e2 ∈ edges, sameEnds e1 e2 → e1.weight = e2.weight)
    (hpart : ∀ k ∈ nodes.map (fun n => n.id), k ∈ vis ∨ k ∈ uv)
    (hR : ∀ x ∈ vis, ∀ z t, z ∈ uv →
      adjW (buildGraphT nodes edges) x z = some t →
      ∃ nx nz, getKey d x = some (DNum.fin nx) ∧
        getKey d z = some (DNum.fin nz) ∧ nz ≤ nx + t)
    (hZ : ∃ n0, getKey d source = some (DNum.fin n0) ∧ n0 ≤ 0)
    (hallinf : ∀ z ∈ uv, getKey d z = some DNum.inf) :
    ∀ v m, WWalk edges source v m → v ∈ uv → False := by
  intro v m h
  induction h with
  | refl =>
    intro hv
    obtain ⟨n0, hn0, _⟩ := hZ
    rw [hallinf source hv] at hn0
    cases hn0
  | @step a b m e hw he hd ih =>
    intro hb
    have ha_ids : a ∈ nodes.map (fun n => n.id) := by
      rcases hd with ⟨h1, _⟩ | ⟨_, h2⟩
      · exact h1 ▸ (hwf e he).1
      · exact h2 ▸ (hwf e he).2
    rcases hpart a ha_ids with havis | hauv
    · have hadj : adjW (buildGraphT nodes edges) a b = some e.weight :=
        adjW_of_edge hwf hnp he hd
      obtain ⟨nx, nz, _, hnz, _⟩ := hR a havis b e.weight hb hadj
      rw [hallinf b hb] at hnz
      cases hnz
    · exact ih hauv

/-- Main Dijkstra loop invariant: on a well-formed, non-negatively
weighted graph without unequal parallel edges, the loop preserves
walk-soundness and key coverage, and its final destination entry
under-approximates every walk weight to the destination. -/
theorem dijkstraLoop_main {nodes : List Node} {edges : List Edge}
    {source : String} (destination : String)
    (hwf : ∀ e ∈ edges, e.source ∈ nodes.map (fun n => n.id) ∧
      e.target ∈ nodes.map (fun n => n.id))
    (hnn : ∀ e ∈ edges, 0 ≤ e.weight)
    (hnp : ∀ e1 ∈ edges, ∀ e2 ∈ edges, sameEnds e1 e2 → e1.weight = e2.weight)
    (hsrc : source ∈ nodes.map (fun n => n.id)) :
    ∀ (fuel : Nat) (uv vis : List String) (d : DistMap) (p : PrevMap) (it : Nat),
    fuel = uv.length →
    uv.Nodup →
    (∀ k ∈ uv, k ∈ nodes.map (fun n => n.id)) →
    (∀ k ∈ nodes.map (fun n => n.id), k ∈ vis ∨ k ∈ uv) →
    (∀ k, k ∈ vis → k ∈ uv → False) →
    (∀ k, (getKey d k).isSome = true ↔ k ∈ nodes.map (fun n => n.id)) →
    SoundD edges source d →
    (∀ x ∈ vis, ∀ m, WWalk edges source x m →
      ∃ n, getKey d x = some (DNum.fin n) ∧ n ≤ m) →
    (∀ x ∈ vis, ∀ z t, z ∈ uv →
      adjW (buildGraphT nodes edges) x z = some t →
      ∃ nx nz, getKey d x = some (DNum.fin nx) ∧
        getKey d z = some (DNum.fin nz) ∧ nz ≤ nx + t) →
    (∃ n0, getKey d source = some (DNum.fin n0) ∧ n0 ≤ 0) →
    SoundD edges source
      (dijkstraLoop (buildGraphT nodes edges) destination fuel uv vis d p it).1 ∧
    (∀ k, (getKey (dijkstraLoop (buildGraphT nodes edges) destination
        fuel uv vis d p it).1 k).isSome = true ↔
      k ∈ nodes.map (fun n => n.id)) ∧
    (∀ m, WWalk edges source destination m →
      ∃ n, getKey (dijkstraLoop (buildGraphT nodes edges) destination
        fuel uv vis d p it).1 destination = some (DNum.fin n) ∧ n ≤ m) := by
  intro fuel
  induction fuel with
  | zero =>
    intro uv vis d p it hfuel _ _ hpart _ hK hsound hUB _ _
    have huv0 : uv = [] := List.length_eq_zero.1 hfuel.symm
    subst huv0
    refine ⟨hsound, hK, ?_⟩
    intro m hm
    have hids := wwalk_mem_ids hwf hsrc hm
    rcases hpart destination hids with h | h
    · exact hUB destination h m hm
    · cases h
  | succ fuel ih =>
    intro uv vis d p it hfuel hnod huv hpart hdisj hK hsound hUB hR hZ
    cases uv with
    | nil =>
      refine ⟨hsound, hK, ?_⟩
      intro m hm
      have hids := wwalk_mem_ids hwf hsrc hm
      rcases hpart destination hids with h | h
      · exact hUB destination h m hm
      · cases h
    | cons u us =>
      simp only [dijkstraLoop]
      have hcuv : minFold d u us ∈ u :: us := minFold_mem d u us
      have hcids : minFold d u us ∈ nodes.map (fun n => n.id) :=
        huv _ hcuv
      have hcsome : (getKey d (minFold d u us)).isSome := (hK _).2 hcids
      obtain ⟨vc, hvc⟩ := Option.isSome_iff_exists.1 hcsome
      have hallsome : ∀ z ∈ u :: us, (getKey d z).isSome :=
        fun z hz => (hK z).2 (huv z hz)
      have hmin := minFold_min hallsome
      rw [hvc]
      cases vc with
      | inf =>
        have hallinf : ∀ z ∈ u :: us, getKey d z = some DNum.inf := by
          intro z hz
          obtain ⟨vz, hvz⟩ := Option.isSome_iff_exists.1 (hallsome z hz)
          cases vz with
          | inf => exact hvz
          | fin nz =>
            have := hmin z hz
            rw [hvz, hvc] at this
            cases this
        refine ⟨hsound, hK, ?_⟩
        intro m hm
        have hids := wwalk_mem_ids hwf hsrc hm
        rcases hpart destination hids with h | h
        · exact hUB destination h m hm
        · exact (dij_inf_break hwf hnp hpart hR hZ hallinf destination m hm h).elim
      | fin nc =>
        have hginner : (getKey (buildGraphT nodes edges)
            (minFold d u us)).isSome := (buildGraph_keys nodes edges _).2 hcids
        obtain ⟨inner, hinner⟩ := Option.isSome_iff_exists.1 hginner
        rw [hinner]
        have htr : ∀ pr ∈ inner, ∃ e ∈ edges,
            ((e.source = minFold d u us ∧ e.target = pr.1) ∨
             (e.source = pr.1 ∧ e.target = minFold d u us)) ∧
            e.weight = pr.2 :=
          adjTrace_buildGraph nodes edges _ inner hinner
        have hwnn : ∀ pr ∈ inner, 0 ≤ pr.2 := by
          intro pr hpr
          obtain ⟨e, he, _, hwe⟩ := htr pr hpr
          rw [← hwe]
          exact hnn e he
        have hfold := relaxNeighbors_eq_foldl (minFold d u us) vis inner d p
        have hfrozc : getKey (relaxNeighbors
            (minFold d u us) vis inner d p).1 (minFold d u us) =
            some (DNum.fin nc) := by
          rw [hfold, relaxFold_frozen_current inner (d, p) hwnn]
          exact hvc
        have hpop : ∀ m, WWalk edges source (minFold d u us) m → nc ≤ m :=
          fun m hm =>
            dij_pop_bound hwf hnn hnp hpart hUB hR hZ hmin hvc _ m hm hcuv
        have hmono : MonoD (relaxNeighbors
            (minFold d u us) vis inner d p).1 d := by
          rw [hfold]
          exact relaxFold_monoD _ vis inner (d, p)
        have hsound' : SoundD edges source
            (relaxNeighbors (minFold d u us) vis inner d p).1 := by
          rw [hfold]
          exact relaxFold_sound inner (d, p) htr hsound
        have hK' : ∀ k, (getKey (relaxNeighbors
            (minFold d u us) vis inner d p).1 k).isSome = true ↔
            k ∈ nodes.map (fun n => n.id) := by
          intro k
          constructor
          · intro h
            rw [hfold] at h
            rcases relaxFold_keys inner (d, p) h with h' | ⟨w, hw⟩
            · exact (hK k).1 h'
            · obtain ⟨e, he, hd, _⟩ := htr (k, w) hw
              rcases hd with ⟨_, h2⟩ | ⟨h1, _⟩
              · have h2' : e.target = k := h2
                exact h2' ▸ (hwf e he).2
              · have h1' : e.source = k := h1
                exact h1' ▸ (hwf e he).1
          · intro h
            rw [hfold]
            exact relaxFold_isSome inner (d, p) ((hK k).2 h)
        have hfrozvis : ∀ x ∈ vis, getKey (relaxNeighbors
            (minFold d u us) vis inner d p).1 x = getKey d x := by
          intro x hx
          rw [hfold]
          exact relaxFold_frozen_visited hx inner (d, p)
        have hUB' : ∀ x ∈ vis ++ [minFold d u us], ∀ m,
            WWalk edges source x m →
            ∃ n, getKey (relaxNeighbors
              (minFold d u us) vis inner d p).1 x =
              some (DNum.fin n) ∧ n ≤ m := by
          intro x hx m hm
          rcases (by simpa using hx : x ∈ vis ∨ x = minFold d u us) with
            hx' | hx'
          · rw [hfrozvis x hx']
            exact hUB x hx' m hm
          · subst hx'
            exact ⟨nc, hfrozc, hpop m hm⟩
        have hR' : ∀ x ∈ vis ++ [minFold d u us], ∀ z t,
            z ∈ (u :: us).erase (minFold d u us) →
            adjW (buildGraphT nodes edges) x z = some t →
            ∃ nx nz, getKey (relaxNeighbors
              (minFold d u us) vis inner d p).1 x = some (DNum.fin nx) ∧
              getKey (relaxNeighbors
                (minFold d u us) vis inner d p).1 z = some (DNum.fin nz) ∧
              nz ≤ nx + t := by
          intro x hx z t hz hadj
          have hzuv : z ∈ u :: us := List.mem_of_mem_erase hz
          rcases (by simpa using hx : x ∈ vis ∨ x = minFold d u us) with
            hx' | hx'
          · obtain ⟨nx, nz, hnx, hnz, hle⟩ := hR x hx' z t hzuv hadj
            obtain ⟨nz', hnz', hle'⟩ := hmono z nz hnz
            exact ⟨nx, nz', by rw [hfrozvis x hx']; exact hnx, hnz', by omega⟩
          · subst hx'
            unfold adjW at hadj
            rw [hinner] at hadj
            have hmem : (z, t) ∈ inner := mem_of_getKey hadj
            have hznv : z ∉ vis := fun hzv => hdisj z hzv hzuv
            have hzsome : (getKey d z).isSome := (hK z).2 (huv z hzuv)
            have hb : ∃ nz, getKey (relaxNeighbors
                (minFold d u us) vis inner d p).1 z = some (DNum.fin nz) ∧
                nz ≤ nc + t := by
              rw [hfold]
              exact relaxFold_bound inner (d, p) hwnn hmem hznv hzsome nc hvc
            obtain ⟨nz, hnz, hle⟩ := hb
            exact ⟨nc, nz, hfrozc, hnz, hle⟩
        have hZ' : ∃ n0, getKey (relaxNeighbors
            (minFold d u us) vis inner d p).1 source =
            some (DNum.fin n0) ∧ n0 ≤ 0 := by
          obtain ⟨n0, hn0, hn0le⟩ := hZ
          obtain ⟨n0', hn0', hle'⟩ := hmono source n0 hn0
          exact ⟨n0', hn0', by omega⟩
        dsimp only
        by_cases hdest : minFold d u us = destination
        · rw [if_pos hdest]
          refine ⟨hsound', hK', ?_⟩
          intro m hm
          rw [← hdest] at hm ⊢
          exact ⟨nc, hfrozc, hpop m hm⟩
        · rw [if_neg hdest]
          refine ih ((u :: us).erase (minFold d u us)) (vis ++ [minFold d u us])
            _ _ _ ?_ (hnod.erase _) ?_ ?_ ?_ hK' hsound' hUB' hR' hZ'
          · rw [List.length_erase_of_mem hcuv]
            simp only [List.length_cons] at hfuel ⊢
            omega
          · intro k hk
            exact huv k (List.mem_of_mem_erase hk)
          · intro k hk
            rcases hpart k hk with h | h
            · left
              simp [h]
            · by_cases hkc : k = minFold d u us
              · left
                simp [hkc]
              · right
                exact (List.mem_erase_of_ne hkc).2 h
          · intro k hkv hku
            rcases (by simpa using hkv : k ∈ vis ∨ k = minFold d u us) with
              h | h
            · exact hdisj k h (List.mem_of_mem_erase hku)
            · subst h
              exact ((List.Nodup.mem_erase_iff hnod).1 hku).1 rfl

/-- Characterization of the distance map Dijkstra's main loop produces
from the initial state, on a well-formed non-negative graph without
unequal parallel edges: sound for walks, covering exactly the node ids,
and optimal at the destination. -/
theorem dijkstra_char {nodes : List Node} {edges : List Edge}
    {source : String} (destination : String)
    (hwf : ∀ e ∈ edges, e.source ∈ nodes.map (fun n => n.id) ∧
      e.target ∈ nodes.map (fun n => n.id))
    (hnn : ∀ e ∈ edges, 0 ≤ e.weight)
    (hnp : ∀ e1 ∈ edges, ∀ e2 ∈ edges, sameEnds e1 e2 → e1.weight = e2.weight)
    (hsrc : source ∈ nodes.map (fun n => n.id)) :
    SoundD edges source
      (dijkstraLoop (buildGraphT nodes edges) destination
        ((nodes.map (fun n => n.id)).eraseDups).length
        ((nodes.map (fun n => n.id)).eraseDups) []
        (initDistances nodes source) (initPrevious nodes) 0).1 ∧
    (∀ k, (getKey (dijkstraLoop (buildGraphT nodes edges) destination
        ((nodes.map (fun n => n.id)).eraseDups).length
        ((nodes.map (fun n => n.id)).eraseDups) []
        (initDistances nodes source) (initPrevious nodes) 0).1 k).isSome = true ↔
      k ∈ nodes.map (fun n => n.id)) ∧
    (∀ m, WWalk edges source destination m →
      ∃ n, getKey (dijkstraLoop (buildGraphT nodes edges) destination
        ((nodes.map (fun n => n.id)).eraseDups).length
        ((nodes.map (fun n => n.id)).eraseDups) []
        (initDistances nodes source) (initPrevious nodes) 0).1 destination =
        some (DNum.fin n) ∧ n ≤ m) := by
  exact dijkstraLoop_main destination hwf hnn hnp hsrc
    ((nodes.map (fun n => n.id)).eraseDups).length
    ((nodes.map (fun n => n.id)).eraseDups) []
    (initDistances nodes source) (initPrevious nodes) 0
    rfl
    (nodup_eraseDups _)
    (fun k hk => (mem_eraseDups k _).1 hk)
    (fun k hk => Or.inr ((mem_eraseDups k _).2 hk))
    (fun k hk => absurd hk (List.not_mem_nil k))
    (fun k => by
      rw [getKey_initDistances]
      by_cases hk : k ∈ nodes.map (fun n => n.id) <;> simp [hk])
    (soundD_init edges nodes source)
    (fun x hx => absurd hx (List.not_mem_nil x))
    (fun x hx => absurd hx (List.not_mem_nil x))
    ⟨0, by rw [getKey_initDistances]; simp [hsrc], le_refl 0⟩

/-- Characterization of a normally returned Bellman-Ford distances map:
sound for walks, its keys are exactly the node ids, and its value at
every node under-approximates every walk weight to that node. -/
theorem bf_char {nodes : List Node} {edges : List Edge}
    {source destination : String} {r : AlgorithmResult}
    (hwf : ∀ e ∈ edges, e.source ∈ nodes.map (fun n => n.id) ∧
      e.target ∈ nodes.map (fun n => n.id))
    (hsrc : source ∈ nodes.map (fun n => n.id))
    (hok : BellmanFordExecute nodes edges source destination =
      some (Except.ok r)) :
    SoundD edges source r.distances ∧
    (∀ k, (getKey r.distances k).isSome → k ∈ nodes.map (fun n => n.id)) ∧
    (∀ k ∈ nodes.map (fun n => n.id), (getKey r.distances k).isSome) ∧
    (∀ v m, WWalk edges source v m →
      ∃ n, getKey r.distances v = some (DNum.fin n) ∧ n ≤ m) := by
  obtain ⟨hneg, hdist, _, _⟩ := bf_ok_elim hok
  rw [hdist]
  have hpresence : ∀ k ∈ nodes.map (fun n => n.id),
      (getKey (bfLoop edges
        ⟨initDistances nodes source, initPrevious nodes, false⟩
        (nodes.length - 1)).1.d k).isSome := by
    intro k hk
    refine isSome_bfLoop _ _ ?_
    show (getKey (initDistances nodes source) k).isSome
    rw [getKey_initDistances]
    simp [hk]
  refine ⟨soundD_bfLoop _ _ (soundD_init edges nodes source),
    fun k => bf_keysBound hwf _ k, hpresence, ?_⟩
  refine fix_complete (negCheckB_false_elim hneg) ?_ ?_
  · intro e he
    exact ⟨hpresence _ (hwf e he).1, hpresence _ (hwf e he).2⟩
  · have hinit : getKey (initDistances nodes source) source =
        some (DNum.fin 0) := by
      rw [getKey_initDistances]
      simp [hsrc]
    obtain ⟨n0, hn0, hle⟩ := monoD_bfLoop (nodes.length - 1)
      ⟨initDistances nodes source, initPrevious nodes, false⟩ source 0 hinit
    exact ⟨n0, hn0, hle⟩


/-- A walk that terminates starts on a present key. -/
theorem walkPrev_isSome_key {p : PrevMap} {fuel : Nat} {k : String}
    (h : (walkPrev p fuel k).isSome) : (getKey p k).isSome := by
  cases fuel with
  | zero => cases h
  | succ n =>
    unfold walkPrev at h
    by_cases hg : (getKey p k).isSome
    · exact hg
    · rw [Option.not_isSome_iff_eq_none.1 hg] at h
      simp at h

/-- Measure-based termination of the predecessor walk: when every pointer
step lands on a present key and strictly decreases a measure, any fuel
exceeding the start's measure completes the walk. -/
theorem walkPrev_total {p : PrevMap} {f : String → Nat}
    (hstep : ∀ j nxt, getKey p j = some (some nxt) →
      (getKey p nxt).isSome ∧ f nxt < f j) :
    ∀ (fuel : Nat) (k : String), (getKey p k).isSome → f k < fuel →
      (walkPrev p fuel k).isSome := by
  intro fuel
  induction fuel with
  | zero =>
    intro k _ h
    omega
  | succ n ih =>
    intro k hk hf
    unfold walkPrev
    obtain ⟨v, hv⟩ := Option.isSome_iff_exists.1 hk
    rw [hv]
    cases v with
    | none => rfl
    | some nxt =>
      obtain ⟨h1, h2⟩ := hstep k nxt hv
      obtain ⟨l, hl⟩ := Option.isSome_iff_exists.1 (ih nxt h1 (by omega))
      dsimp only
      rw [hl]
      rfl

/-- The neighbor fold keeps every present predecessor key present. -/
theorem relaxFold_prev_isSome {current : String} {visited : List String}
    {k : String} :
    ∀ (inner : List (String × Int)) (dp : DistMap × PrevMap),
    (getKey dp.2 k).isSome →
    (getKey (inner.foldl (relaxStep current visited) dp).2 k).isSome := by
  intro inner
  induction inner with
  | nil => intro dp h; exact h
  | cons pr rest ih =>
    intro dp h
    rw [List.foldl_cons]
    refine ih _ ?_
    rcases relaxStep_cases current visited dp pr with heq | ⟨_, da, _, _, heq⟩
    · rw [heq]; exact h
    · rw [heq]
      exact isSome_getKey_setKey _ _ _ _ h

/-- Predecessor keys created by the neighbor fold name scanned adjacency
entries. -/
theorem relaxFold_prev_keys {current : String} {visited : List String}
    {k : String} :
    ∀ (inner : List (String × Int)) (dp : DistMap × PrevMap),
    (getKey (inner.foldl (relaxStep current visited) dp).2 k).isSome →
    (getKey dp.2 k).isSome ∨ ∃ w, (k, w) ∈ inner := by
  intro inner
  induction inner with
  | nil => intro dp h; exact Or.inl h
  | cons pr rest ih =>
    intro dp h
    rw [List.foldl_cons] at h
    rcases ih _ h with h' | ⟨w, hw⟩
    · rcases relaxStep_cases current visited dp pr with heq | ⟨_, da, _, _, heq⟩
      · rw [heq] at h'
        exact Or.inl h'
      · rw [heq] at h'
        rcases isSome_setKey_elim h' with hk | hk
        · exact Or.inr ⟨pr.2, by rw [hk]; exact List.mem_cons_self pr rest⟩
        · exact Or.inl hk
    · exact Or.inr ⟨w, List.mem_cons_of_mem pr hw⟩

/-- Every predecessor pointer after the neighbor fold is an old pointer,
or a fresh pointer to the current node written at an unvisited, non-self
key (self entries carrying non-negative weights never fire). -/
theorem relaxFold_prev_writes {current : String} {visited : List String} :
    ∀ (inner : List (String × Int)) (dp : DistMap × PrevMap),
    (∀ pr ∈ inner, pr.1 = current → 0 ≤ pr.2) →
    ∀ j nxt, getKey (inner.foldl (relaxStep current visited) dp).2 j =
        some (some nxt) →
      getKey dp.2 j = some (some nxt) ∨
      (nxt = current ∧ j ∉ visited ∧ j ≠ current) := by
  intro inner
  induction inner with
  | nil =>
    intro dp _ j nxt h
    exact Or.inl h
  | cons pr rest ih =>
    intro dp hself j nxt h
    rw [List.foldl_cons] at h
    rcases ih _ (fun q hq => hself q (List.mem_cons_of_mem pr hq)) j nxt h with
      h2 | h2
    · rcases relaxStep_cases current visited dp pr with heq | ⟨hv, da, hda, hlt, heq⟩
      · rw [heq] at h2
        exact Or.inl h2
      · rw [heq] at h2
        by_cases hj : j = pr.1
        · subst hj
          rw [getKey_setKey_self] at h2
          have hnc : pr.1 ≠ current := by
            intro hjc
            have h0 := hself pr (List.mem_cons_self pr rest) hjc
            rw [hjc] at hlt
            rw [hda] at hlt
            simp only [candLtB, decide_eq_true_eq] at hlt
            omega
          have h3 := Option.some.inj h2
          exact Or.inr ⟨(Option.some.inj h3).symm, hv, hnc⟩
        · rw [getKey_setKey_ne _ _ _ _ hj] at h2
          exact Or.inl h2
    · exact Or.inr h2

/-- The routing-table builder succeeds as soon as every node's
predecessor walk terminates. -/
theorem buildTable_isSome {nodes : List Node} {source : String} {d : DistMap}
    {p : PrevMap}
    (hwalk : ∀ node ∈ nodes, (walkPrev p (p.length + 1) node.id).isSome) :
    (buildTable nodes source d p).isSome := by
  unfold buildTable
  refine foldl_invariant
    (P := fun acc : Option (List RoutingTableEntry) => acc.isSome) _ nodes _
    rfl ?_
  intro acc node hnode hacc
  obtain ⟨rows, hrows⟩ := Option.isSome_iff_exists.1 hacc
  subst hrows
  show (if node.id = source then some rows else _).isSome
  split
  · rfl
  · split
    · obtain ⟨path2, hp2⟩ := Option.isSome_iff_exists.1 (hwalk node hnode)
      rw [hp2]
      rfl
    · rfl

/-- The throwing fold is absorbing on `none`. -/
theorem buildGraph_foldl_none (l : List Edge) :
    l.foldl (fun acc e => acc.bind (fun g =>
      (setInner g e.source e.target e.weight).bind (fun g2 =>
        setInner g2 e.target e.source e.weight))) none = none := by
  induction l with
  | nil => rfl
  | cons e es ih => exact ih

/-- On well-formed edges the throwing builder succeeds with the normal
form. -/
theorem buildGraph_eq_someT {nodes : List Node} {edges : List Edge}
    (hwf : ∀ e ∈ edges, e.source ∈ nodes.map (fun n => n.id) ∧
      e.target ∈ nodes.map (fun n => n.id)) :
    buildGraph nodes edges = some (buildGraphT nodes edges) := by
  unfold buildGraph buildGraphT
  dsimp only
  have main : ∀ (l : List Edge),
      (∀ e ∈ l, e.source ∈ nodes.map (fun n => n.id) ∧
        e.target ∈ nodes.map (fun n => n.id)) →
      ∀ (g : List (String × List (String × Int))),
      (∀ k ∈ nodes.map (fun n => n.id), (getKey g k).isSome) →
      l.foldl (fun acc e => acc.bind (fun g =>
        (setInner g e.source e.target e.weight).bind (fun g2 =>
          setInner g2 e.target e.source e.weight))) (some g) =
      some (l.foldl (fun g e =>
        setInnerT (setInnerT g e.source e.target e.weight)
          e.target e.source e.weight) g) := by
    intro l
    induction l with
    | nil => intro _ g _; rfl
    | cons e es ih =>
      intro hl g hkeys
      simp only [List.foldl_cons]
      have hs : (getKey g e.source).isSome :=
        hkeys _ (hl e (List.mem_cons_self e es)).1
      have ht : (getKey (setInnerT g e.source e.target e.weight)
          e.target).isSome := by
        rw [isSome_setInner]
        exact hkeys _ (hl e (List.mem_cons_self e es)).2
      have hred : (some g).bind (fun g =>
          (setInner g e.source e.target e.weight).bind (fun g2 =>
            setInner g2 e.target e.source e.weight)) =
          some (setInnerT (setInnerT g e.source e.target e.weight)
            e.target e.source e.weight) := by
        show (setInner g e.source e.target e.weight).bind (fun g2 =>
          setInner g2 e.target e.source e.weight) = _
        rw [setInner_eq_someT _ _ hs]
        show setInner (setInnerT g e.source e.target e.weight)
          e.target e.source e.weight = _
        rw [setInner_eq_someT _ _ ht]
      rw [hred]
      refine ih (fun q hq => hl q (List.mem_cons_of_mem e hq)) _ ?_
      intro k hk
      rw [isSome_setInner, isSome_setInner]
      exact hkeys k hk
  refine main edges hwf _ ?_
  intro k hk
  rw [getKey_foldl_setKey (fun _ => ([] : List (String × Int)))]
  simp [hk]

/-- A successful build forces well-formed edges and yields the normal
form. -/
theorem buildGraph_some_elim {nodes : List Node} {edges : List Edge}
    {g : List (String × List (String × Int))}
    (h : buildGraph nodes edges = some g) :
    (∀ e ∈ edges, e.source ∈ nodes.map (fun n => n.id) ∧
      e.target ∈ nodes.map (fun n => n.id)) ∧
    g = buildGraphT nodes edges := by
  unfold buildGraph at h
  dsimp only at h
  have main : ∀ (l : List Edge) (g0 : List (String × List (String × Int))),
      (∀ k, (getKey g0 k).isSome = true ↔ k ∈ nodes.map (fun n => n.id)) →
      l.foldl (fun acc e => acc.bind (fun g =>
        (setInner g e.source e.target e.weight).bind (fun g2 =>
          setInner g2 e.target e.source e.weight))) (some g0) = some g →
      (∀ e ∈ l, e.source ∈ nodes.map (fun n => n.id) ∧
        e.target ∈ nodes.map (fun n => n.id)) ∧
      g = l.foldl (fun g e =>
        setInnerT (setInnerT g e.source e.target e.weight)
          e.target e.source e.weight) g0 := by
    intro l
    induction l with
    | nil =>
      intro g0 _ h0
      exact ⟨fun e he => absurd he (List.not_mem_nil e),
        (Option.some.inj h0).symm⟩
    | cons e es ih =>
      intro g0 hkeys h0
      simp only [List.foldl_cons] at h0
      by_cases hs : (getKey g0 e.source).isSome
      · have ht0 : ∀ k, (getKey (setInnerT g0 e.source e.target e.weight)
            k).isSome = true ↔ k ∈ nodes.map (fun n => n.id) := by
          intro k
          rw [isSome_setInner]
          exact hkeys k
        by_cases ht : (getKey g0 e.target).isSome
        · have hred : (some g0).bind (fun g =>
              (setInner g e.source e.target e.weight).bind (fun g2 =>
                setInner g2 e.target e.source e.weight)) =
              some (setInnerT (setInnerT g0 e.source e.target e.weight)
                e.target e.source e.weight) := by
            show (setInner g0 e.source e.target e.weight).bind (fun g2 =>
              setInner g2 e.target e.source e.weight) = _
            rw [setInner_eq_someT _ _ hs]
            show setInner (setInnerT g0 e.source e.target e.weight)
              e.target e.source e.weight = _
            rw [setInner_eq_someT _ _ (by rw [isSome_setInner]; exact ht)]
          rw [hred] at h0
          have hkeys2 : ∀ k, (getKey (setInnerT
              (setInnerT g0 e.source e.target e.weight)
              e.target e.source e.weight) k).isSome = true ↔
              k ∈ nodes.map (fun n => n.id) := by
            intro k
            rw [isSome_setInner, isSome_setInner]
            exact hkeys k
          obtain ⟨h1, h2⟩ := ih _ hkeys2 h0
          refine ⟨?_, h2⟩
          intro q hq
          rcases List.mem_cons.1 hq with hq2 | hq2
          · subst hq2
            exact ⟨(hkeys _).1 hs, (hkeys _).1 ht⟩
          · exact h1 q hq2
        · exfalso
          have hred : (some g0).bind (fun g =>
              (setInner g e.source e.target e.weight).bind (fun g2 =>
                setInner g2 e.target e.source e.weight)) =
              (none : Option (List (String × List (String × Int)))) := by
            show (setInner g0 e.source e.target e.weight).bind (fun g2 =>
              setInner g2 e.target e.source e.weight) = _
            rw [setInner_eq_someT _ _ hs]
            show setInner (setInnerT g0 e.source e.target e.weight)
              e.target e.source e.weight = _
            refine setInner_eq_none _ _ ?_
            refine Option.not_isSome_iff_eq_none.1 ?_
            rw [isSome_setInner]
            exact ht
          rw [hred, buildGraph_foldl_none] at h0
          cases h0
      · exfalso
        have hred : (some g0).bind (fun g =>
            (setInner g e.source e.target e.weight).bind (fun g2 =>
              setInner g2 e.target e.source e.weight)) =
            (none : Option (List (String × List (String × Int)))) := by
          show (setInner g0 e.source e.target e.weight).bind (fun g2 =>
            setInner g2 e.target e.source e.weight) = _
          rw [setInner_eq_none _ _ (Option.not_isSome_iff_eq_none.1 hs)]
          rfl
        rw [hred, buildGraph_foldl_none] at h0
        cases h0
  have hkeys0 : ∀ k, (getKey (nodes.foldl
      (fun g n => setKey g n.id ([] : List (String × Int))) []) k).isSome =
      true ↔ k ∈ nodes.map (fun n => n.id) := by
    intro k
    rw [getKey_foldl_setKey (fun _ => ([] : List (String × Int)))]
    by_cases hk : k ∈ nodes.map (fun n => n.id) <;> simp [hk, getKey]
  exact main edges _ hkeys0 h

/-- Keys of the Bellman-Ford predecessor map stay inside the node list,
for well-formed edges. -/
theorem bf_p_keysBound {edges : List Edge} {nodes : List Node} {source : String}
    (hwf : ∀ e ∈ edges, e.source ∈ nodes.map (fun n => n.id) ∧
      e.target ∈ nodes.map (fun n => n.id)) (n : Nat) :
    ∀ k, (getKey (bfLoop edges
        ⟨initDistances nodes source, initPrevious nodes, false⟩ n).1.p k).isSome →
      k ∈ nodes.map (fun n => n.id) := by
  have hstep : ∀ (s : BFState),
      (∀ k, (getKey s.p k).isSome → k ∈ nodes.map (fun n => n.id)) →
      ∀ e ∈ edges, ∀ k, (getKey (bfProcessEdge s e).p k).isSome →
        k ∈ nodes.map (fun n => n.id) := by
    intro s hk e he k h
    unfold bfProcessEdge at h
    have hsrc' := (hwf e he).1
    have htgt := (hwf e he).2
    have inner : ∀ (t : BFState) (a b : String),
        (b ∈ nodes.map (fun n => n.id)) →
        (∀ k2, (getKey t.p k2).isSome → k2 ∈ nodes.map (fun n => n.id)) →
        ∀ k2, (getKey (relaxDir t a b e.weight).p k2).isSome →
        k2 ∈ nodes.map (fun n => n.id) := by
      intro t a b hb ht k2 hsome
      cases hc : canRelaxB t.d a b e.weight with
      | false =>
        rw [relaxDir_of_not_canRelax hc] at hsome
        exact ht k2 hsome
      | true =>
        obtain ⟨da, hda⟩ := canRelax_elim hc
        rw [relaxDir_of_canRelax hda hc] at hsome
        rcases isSome_setKey_elim hsome with hkb | hkb
        · exact hkb ▸ hb
        · exact ht k2 hkb
    exact inner (relaxDir s e.source e.target e.weight) e.target e.source hsrc'
      (inner s e.source e.target htgt hk) k h
  have hfold : ∀ (s : BFState),
      (∀ k, (getKey s.p k).isSome → k ∈ nodes.map (fun n => n.id)) →
      ∀ k, (getKey (bfPass edges s).p k).isSome → k ∈ nodes.map (fun n => n.id) := by
    intro s hs
    unfold bfPass
    exact foldl_invariant
      (P := fun t : BFState =>
        ∀ k, (getKey t.p k).isSome → k ∈ nodes.map (fun n => n.id))
      bfProcessEdge edges { s with upd := false } hs
      (fun t e he ht => hstep t ht e he)
  have hinit : ∀ k, (getKey (initPrevious nodes) k).isSome →
      k ∈ nodes.map (fun n => n.id) := by
    intro k h
    rw [getKey_initPrevious] at h
    by_cases hk : k ∈ nodes.map (fun n => n.id)
    · exact hk
    · rw [if_neg hk] at h
      cases h
  have hloop : ∀ (m : Nat) (s : BFState),
      (∀ k, (getKey s.p k).isSome → k ∈ nodes.map (fun n => n.id)) →
      ∀ k, (getKey (bfLoop edges s m).1.p k).isSome →
        k ∈ nodes.map (fun n => n.id) := by
    intro m
    induction m with
    | zero => exact fun s hs => hs
    | succ m ih =>
      intro s hs
      simp only [bfLoop]
      split
      · exact ih (bfPass edges s) (hfold s hs)
      · exact hfold s hs
  exact hloop n _ hinit

/-- The Dijkstra main loop leaves a predecessor map whose keys are
exactly the node ids and whose pointers run strictly backwards along
some duplicate-free visited list of node ids — the shape on which every
predecessor walk terminates. -/
theorem dijkstraLoop_prevOrder {nodes : List Node} {edges : List Edge}
    (destination : String)
    (hwf : ∀ e ∈ edges, e.source ∈ nodes.map (fun n => n.id) ∧
      e.target ∈ nodes.map (fun n => n.id))
    (hsl : ∀ e ∈ edges, e.source = e.target → 0 ≤ e.weight) :
    ∀ (fuel : Nat) (uv vis : List String) (d : DistMap) (p : PrevMap) (it : Nat),
    uv.Nodup →
    vis.Nodup →
    (∀ k ∈ vis, k ∈ nodes.map (fun n => n.id)) →
    (∀ k ∈ uv, k ∈ nodes.map (fun n => n.id)) →
    (∀ k ∈ vis, k ∈ uv → False) →
    (∀ k, (getKey p k).isSome = true ↔ k ∈ nodes.map (fun n => n.id)) →
    (∀ j nxt, getKey p j = some (some nxt) →
      nxt ∈ vis ∧ (j ∈ vis → vis.indexOf nxt < vis.indexOf j)) →
    ∃ vis2 : List String, vis2.Nodup ∧
      (∀ k ∈ vis2, k ∈ nodes.map (fun n => n.id)) ∧
      (∀ k, (getKey (dijkstraLoop (buildGraphT nodes edges) destination
          fuel uv vis d p it).2.1 k).isSome = true ↔
        k ∈ nodes.map (fun n => n.id)) ∧
      (∀ j nxt, getKey (dijkstraLoop (buildGraphT nodes edges) destination
          fuel uv vis d p it).2.1 j = some (some nxt) →
        nxt ∈ vis2 ∧ (j ∈ vis2 → vis2.indexOf nxt < vis2.indexOf j)) := by
  intro fuel
  induction fuel with
  | zero =>
    intro uv vis d p it _ hnd hvids _ _ hK hPO
    exact ⟨vis, hnd, hvids, hK, hPO⟩
  | succ fuel ih =>
    intro uv vis d p it huvnd hnd hvids huvids hdisj hK hPO
    cases uv with
    | nil => exact ⟨vis, hnd, hvids, hK, hPO⟩
    | cons u us =>
      simp only [dijkstraLoop]
      have hcuv : minFold d u us ∈ u :: us := minFold_mem d u us
      have hcids : minFold d u us ∈ nodes.map (fun n => n.id) := huvids _ hcuv
      have hcnvis : minFold d u us ∉ vis := fun hc => hdisj _ hc hcuv
      cases hvc : getKey d (minFold d u us) with
      | none => exact ⟨vis, hnd, hvids, hK, hPO⟩
      | some v =>
        cases v with
        | inf => exact ⟨vis, hnd, hvids, hK, hPO⟩
        | fin nc =>
          have hginner : (getKey (buildGraphT nodes edges)
              (minFold d u us)).isSome := (buildGraph_keys nodes edges _).2 hcids
          obtain ⟨inner, hinner⟩ := Option.isSome_iff_exists.1 hginner
          rw [hinner]
          dsimp only
          have htr := adjTrace_buildGraph nodes edges _ inner hinner
          have hself : ∀ pr ∈ inner, pr.1 = minFold d u us → 0 ≤ pr.2 := by
            intro pr hpr hpc
            obtain ⟨e, he, hd, hwe⟩ := htr pr hpr
            have hee : e.source = e.target := by
              rcases hd with ⟨h1, h2⟩ | ⟨h1, h2⟩
              · rw [h1, h2, hpc]
              · rw [h1, h2, hpc]
            rw [← hwe]
            exact hsl e he hee
          have hfold := relaxNeighbors_eq_foldl (minFold d u us) vis inner d p
          have hK' : ∀ k, (getKey (relaxNeighbors
              (minFold d u us) vis inner d p).2 k).isSome = true ↔
              k ∈ nodes.map (fun n => n.id) := by
            intro k
            constructor
            · intro h
              rw [hfold] at h
              rcases relaxFold_prev_keys inner (d, p) h with h' | ⟨w, hw⟩
              · exact (hK k).1 h'
              · obtain ⟨e, he, hd, _⟩ := htr (k, w) hw
                rcases hd with ⟨_, h2⟩ | ⟨h1, _⟩
                · have h2' : e.target = k := h2
                  exact h2' ▸ (hwf e he).2
                · have h1' : e.source = k := h1
                  exact h1' ▸ (hwf e he).1
            · intro h
              rw [hfold]
              exact relaxFold_prev_isSome inner (d, p) ((hK k).2 h)
          have hnd' : (vis ++ [minFold d u us]).Nodup := by
            simp [List.nodup_append, hnd, hcnvis]
          have hvids' : ∀ k ∈ vis ++ [minFold d u us],
              k ∈ nodes.map (fun n => n.id) := by
            intro k hk
            rcases List.mem_append.1 hk with hk2 | hk2
            · exact hvids k hk2
            · rw [List.mem_singleton.1 hk2]
              exact hcids
          have hPO' : ∀ j nxt,
              getKey (relaxNeighbors (minFold d u us) vis inner d p).2 j =
                some (some nxt) →
              nxt ∈ vis ++ [minFold d u us] ∧
                (j ∈ vis ++ [minFold d u us] →
                  (vis ++ [minFold d u us]).indexOf nxt <
                    (vis ++ [minFold d u us]).indexOf j) := by
            intro j nxt h
            rw [hfold] at h
            rcases relaxFold_prev_writes inner (d, p) hself j nxt h with
              h2 | ⟨he1, he2, he3⟩
            · obtain ⟨hn1, hn2⟩ := hPO j nxt h2
              refine ⟨List.mem_append.2 (Or.inl hn1), ?_⟩
              intro hj
              rcases List.mem_append.1 hj with hj2 | hj2
              · rw [List.indexOf_append_of_mem hn1,
                  List.indexOf_append_of_mem hj2]
                exact hn2 hj2
              · have hjc : j = minFold d u us := List.mem_singleton.1 hj2
                subst hjc
                rw [List.indexOf_append_of_mem hn1,
                  List.indexOf_append_of_not_mem hcnvis]
                have := List.indexOf_lt_length.2 hn1
                simp [List.indexOf_cons_self]
                omega
            · subst he1
              refine ⟨List.mem_append.2 (Or.inr (List.mem_singleton.2 rfl)), ?_⟩
              intro hj
              rcases List.mem_append.1 hj with hj2 | hj2
              · exact absurd hj2 he2
              · exact absurd (List.mem_singleton.1 hj2) he3
          by_cases hdest2 : minFold d u us = destination
          · rw [if_pos hdest2]
            exact ⟨vis ++ [minFold d u us], hnd', hvids', hK', hPO'⟩
          · rw [if_neg hdest2]
            refine ih ((u :: us).erase (minFold d u us))
              (vis ++ [minFold d u us]) _ _ _
              (huvnd.erase _) hnd' hvids'
              (fun k hk => huvids k (List.mem_of_mem_erase hk))
              ?_ hK' hPO'
            intro k hkv hku
            rcases List.mem_append.1 hkv with h2 | h2
            · exact hdisj k h2 (List.mem_of_mem_erase hku)
            · rw [List.mem_singleton.1 h2] at hku
              exact ((List.Nodup.mem_erase_iff huvnd).1 hku).1 rfl

/-- Every predecessor walk on Dijkstra's final map terminates, on a
well-formed graph without negative self-loops. -/
theorem dijkstra_walk_total {nodes : List Node} {edges : List Edge}
    (source destination : String)
    (hwf : ∀ e ∈ edges, e.source ∈ nodes.map (fun n => n.id) ∧
      e.target ∈ nodes.map (fun n => n.id))
    (hsl : ∀ e ∈ edges, e.source = e.target → 0 ≤ e.weight) :
    ∀ k ∈ nodes.map (fun n => n.id),
      (walkPrev (dijkstraLoop (buildGraphT nodes edges) destination
          ((nodes.map (fun n => n.id)).eraseDups).length
          ((nodes.map (fun n => n.id)).eraseDups) []
          (initDistances nodes source) (initPrevious nodes) 0).2.1
        ((dijkstraLoop (buildGraphT nodes edges) destination
          ((nodes.map (fun n => n.id)).eraseDups).length
          ((nodes.map (fun n => n.id)).eraseDups) []
          (initDistances nodes source) (initPrevious nodes) 0).2.1.length + 1)
        k).isSome := by
  obtain ⟨vis2, hnd2, hids2, hK2, hPO2⟩ := dijkstraLoop_prevOrder
    destination hwf hsl
    ((nodes.map (fun n => n.id)).eraseDups).length
    ((nodes.map (fun n => n.id)).eraseDups) []
    (initDistances nodes source) (initPrevious nodes) 0
    (nodup_eraseDups _)
    List.nodup_nil
    (fun k hk => absurd hk (List.not_mem_nil k))
    (fun k hk => (mem_eraseDups k _).1 hk)
    (fun k hk _ => absurd hk (List.not_mem_nil k))
    (fun k => by
      rw [getKey_initPrevious]
      by_cases hk : k ∈ nodes.map (fun n => n.id) <;> simp [hk])
    (fun j nxt h => by
      rw [getKey_initPrevious] at h
      split at h
      · exact absurd (Option.some.inj h) (fun hx => Option.noConfusion hx)
      · cases h)
  intro k hkids
  have hsub : ∀ x ∈ vis2,
      x ∈ (dijkstraLoop (buildGraphT nodes edges) destination
        ((nodes.map (fun n => n.id)).eraseDups).length
        ((nodes.map (fun n => n.id)).eraseDups) []
        (initDistances nodes source) (initPrevious nodes) 0).2.1.map
        Prod.fst := by
    intro x hx
    obtain ⟨v, hv⟩ := Option.isSome_iff_exists.1 ((hK2 x).2 (hids2 x hx))
    exact List.mem_map.2 ⟨(x, v), mem_of_getKey hv, rfl⟩
  have hlen2 : vis2.length ≤ (dijkstraLoop (buildGraphT nodes edges) destination
      ((nodes.map (fun n => n.id)).eraseDups).length
      ((nodes.map (fun n => n.id)).eraseDups) []
      (initDistances nodes source) (initPrevious nodes) 0).2.1.length := by
    have h1 := (List.subperm_of_subset hnd2 hsub).length_le
    rwa [List.length_map] at h1
  refine walkPrev_total
    (f := fun x => if x ∈ vis2 then vis2.indexOf x + 1 else vis2.length + 1)
    ?_ _ k ((hK2 k).2 hkids) ?_
  · intro j nxt hpt
    obtain ⟨hn1, hn2⟩ := hPO2 j nxt hpt
    refine ⟨(hK2 nxt).2 (hids2 nxt hn1), ?_⟩
    dsimp only
    by_cases hj : j ∈ vis2
    · rw [if_pos hn1, if_pos hj]
      exact Nat.succ_lt_succ (hn2 hj)
    · rw [if_pos hn1, if_neg hj]
      have := List.indexOf_lt_length.2 hn1
      omega
  · dsimp only
    by_cases hk : k ∈ vis2
    · rw [if_pos hk]
      have := List.indexOf_lt_length.2 hk
      omega
    · rw [if_neg hk]
      have hsub2 : ∀ x ∈ k :: vis2,
          x ∈ (dijkstraLoop (buildGraphT nodes edges) destination
            ((nodes.map (fun n => n.id)).eraseDups).length
            ((nodes.map (fun n => n.id)).eraseDups) []
            (initDistances nodes source) (initPrevious nodes) 0).2.1.map
            Prod.fst := by
        intro x hx
        rcases List.mem_cons.1 hx with hx2 | hx2
        · subst hx2
          obtain ⟨v, hv⟩ := Option.isSome_iff_exists.1 ((hK2 x).2 hkids)
          exact List.mem_map.2 ⟨(x, v), mem_of_getKey hv, rfl⟩
        · exact hsub x hx2
      have h1 := (List.subperm_of_subset (List.nodup_cons.2 ⟨hk, hnd2⟩)
        hsub2).length_le
      rw [List.length_map] at h1
      simp only [List.length_cons] at h1
      omega

/-- On a well-formed graph without negative self-loops and a listed
destination, Dijkstra's run builds its graph, terminates every
predecessor walk and returns normally with the loop's maps. -/
theorem dijkstra_returns {nodes : List Node} {edges : List Edge}
    {source : String} (destination : String)
    (hwf : ∀ e ∈ edges, e.source ∈ nodes.map (fun n => n.id) ∧
      e.target ∈ nodes.map (fun n => n.id))
    (hsl : ∀ e ∈ edges, e.source = e.target → 0 ≤ e.weight)
    (hdest : destination ∈ nodes.map (fun n => n.id)) :
    ∃ r, DijkstraExecute nodes edges source destination =
      some (Except.ok r) ∧
      r.distances = (dijkstraLoop (buildGraphT nodes edges) destination
        ((nodes.map (fun n => n.id)).eraseDups).length
        ((nodes.map (fun n => n.id)).eraseDups) []
        (initDistances nodes source) (initPrevious nodes) 0).1 ∧
      r.previous = (dijkstraLoop (buildGraphT nodes edges) destination
        ((nodes.map (fun n => n.id)).eraseDups).length
        ((nodes.map (fun n => n.id)).eraseDups) []
        (initDistances nodes source) (initPrevious nodes) 0).2.1 ∧
      (∃ path, walkPrev r.previous (r.previous.length + 1) destination =
          some path ∧
        r.path = if source ∈ path then path else []) ∧
      buildTable nodes source r.distances r.previous =
        some r.routingTable := by
  have htot := dijkstra_walk_total source destination hwf hsl
  obtain ⟨path, hpath⟩ := Option.isSome_iff_exists.1 (htot destination hdest)
  have htabs : (buildTable nodes source
      (dijkstraLoop (buildGraphT nodes edges) destination
        ((nodes.map (fun n => n.id)).eraseDups).length
        ((nodes.map (fun n => n.id)).eraseDups) []
        (initDistances nodes source) (initPrevious nodes) 0).1
      (dijkstraLoop (buildGraphT nodes edges) destination
        ((nodes.map (fun n => n.id)).eraseDups).length
        ((nodes.map (fun n => n.id)).eraseDups) []
        (initDistances nodes source) (initPrevious nodes) 0).2.1).isSome :=
    buildTable_isSome (fun node hn =>
      htot node.id (List.mem_map.2 ⟨node, hn, rfl⟩))
  obtain ⟨table, htable⟩ := Option.isSome_iff_exists.1 htabs
  refine ⟨{ distances := (dijkstraLoop (buildGraphT nodes edges) destination
              ((nodes.map (fun n => n.id)).eraseDups).length
              ((nodes.map (fun n => n.id)).eraseDups) []
              (initDistances nodes source) (initPrevious nodes) 0).1,
            previous := (dijkstraLoop (buildGraphT nodes edges) destination
              ((nodes.map (fun n => n.id)).eraseDups).length
              ((nodes.map (fun n => n.id)).eraseDups) []
              (initDistances nodes source) (initPrevious nodes) 0).2.1,
            path := if source ∈ path then path else [],
            routingTable := table,
            iterations := (dijkstraLoop (buildGraphT nodes edges) destination
              ((nodes.map (fun n => n.id)).eraseDups).length
              ((nodes.map (fun n => n.id)).eraseDups) []
              (initDistances nodes source) (initPrevious nodes) 0).2.2 },
    ?_, rfl, rfl, ⟨path, hpath, rfl⟩, htable⟩
  unfold DijkstraExecute
  rw [buildGraph_eq_someT hwf]
  dsimp only
  rw [hpath, htable]

/-- C1: on a well-formed graph whose weights are non-negative and where
parallel edges (same unordered endpoint pair) carry equal weights,
whenever Bellman-Ford returns normally, Dijkstra also returns normally
and its distance entry for the queried destination equals Bellman-Ford's
— both are the least walk weight from the source, `inf` when unreachable
— the hypothesis already forcing the destination to be a listed node,
since an unlisted destination makes Bellman-Ford's predecessor walk spin
forever.  (Without these provisos the per-node claim fails: see the
counterexample.) -/
theorem c1_destination_agreement (nodes : List Node) (edges : List Edge)
    (source destination : String) {r : AlgorithmResult}
    (hwf : ∀ e ∈ edges, e.source ∈ nodes.map (fun n => n.id) ∧
      e.target ∈ nodes.map (fun n => n.id))
    (hsrc : source ∈ nodes.map (fun n => n.id))
    (hnn : ∀ e ∈ edges, 0 ≤ e.weight)
    (hnp : ∀ e1 ∈ edges, ∀ e2 ∈ edges, sameEnds e1 e2 → e1.weight = e2.weight)
    (hok : BellmanFordExecute nodes edges source destination =
      some (Except.ok r)) :
    ∃ rd, DijkstraExecute nodes edges source destination =
      some (Except.ok rd) ∧
      getKey rd.distances destination = getKey r.distances destination := by
  have hdest : destination ∈ nodes.map (fun n => n.id) := by
    obtain ⟨_, _, _, ⟨path0, hpath0, _⟩, _⟩ := bf_ok_elim hok
    exact bf_p_keysBound hwf (nodes.length - 1) destination
      (walkPrev_isSome_key (by rw [hpath0]; rfl))
  obtain ⟨rd, hrd, hrdd, _, _, _⟩ := dijkstra_returns destination hwf
    (fun e he _ => hnn e he) hdest
  refine ⟨rd, hrd, ?_⟩
  rw [hrdd]
  obtain ⟨hdsound, hdK, hdcomp⟩ := dijkstra_char destination hwf hnn hnp hsrc
  obtain ⟨hbsound, hbK, hbpres, hbcomp⟩ := bf_char hwf hsrc hok
  cases hbf : getKey r.distances destination with
  | none =>
    have hnid : destination ∉ nodes.map (fun n => n.id) := by
      intro hid
      have := hbpres destination hid
      rw [hbf] at this
      cases this
    exact absurd hdest hnid
  | some vb =>
    obtain ⟨vd, hvd⟩ := Option.isSome_iff_exists.1 ((hdK destination).2 hdest)
    cases vb with
    | inf =>
      have hnowalk : ∀ m, ¬ WWalk edges source destination m := by
        intro m hm
        obtain ⟨n, hn, _⟩ := hbcomp destination m hm
        rw [hbf] at hn
        cases hn
      cases vd with
      | inf => exact hvd
      | fin nd => exact absurd (hdsound destination nd hvd) (hnowalk nd)
    | fin nb =>
      have hwalk : WWalk edges source destination nb :=
        hbsound destination nb hbf
      cases vd with
      | inf =>
        obtain ⟨n1, hn1, _⟩ := hdcomp nb hwalk
        rw [hvd] at hn1
        cases hn1
      | fin nd =>
        obtain ⟨n1, hn1, hle1⟩ := hdcomp nb hwalk
        rw [hvd] at hn1
        injection hn1 with hn1
        injection hn1 with hn1
        subst hn1
        have hwalkd : WWalk edges source destination nd :=
          hdsound destination nd hvd
        obtain ⟨n2, hn2, hle2⟩ := hbcomp destination nd hwalkd
        rw [hbf] at hn2
        injection hn2 with hn2
        injection hn2 with hn2
        subst hn2
        rw [hvd]
        congr 2
        omega

/-- Witness for C1 on the default scenario: Bellman-Ford returns normally
and Dijkstra returns normally with an agreeing destination entry. -/
theorem c1_witness :
    BellmanFordExecute defaultNodes defaultEdges "A" "E" =
      some (Except.ok bfResultAE) ∧
    (∃ rd, DijkstraExecute defaultNodes defaultEdges "A" "E" =
      some (Except.ok rd) ∧
      getKey rd.distances "E" = getKey bfResultAE.distances "E") :=
  ⟨rfl, c1_destination_agreement defaultNodes defaultEdges "A" "E"
    (by decide) (by decide) (by decide) (by decide) rfl⟩

/-- The neighbor fold never writes a predecessor for a node unreachable
from the source: every write's key is one hop from the finitely-distanced
current node. -/
theorem relaxFold_unreach {edges : List Edge} {src current u : String}
    {visited : List String} (hu : ¬ Reaches edges src u) :
    ∀ (inner : List (String × Int)) (dp : DistMap × PrevMap),
    (∀ pr ∈ inner, linked edges current pr.1) →
    FinReaches edges src dp.1 → getKey dp.2 u = some none →
    FinReaches edges src (inner.foldl (relaxStep current visited) dp).1 ∧
    getKey (inner.foldl (relaxStep current visited) dp).2 u = some none := by
  intro inner
  induction inner with
  | nil => intro dp _ hfr hp; exact ⟨hfr, hp⟩
  | cons pr rest ih =>
    intro dp hlink hfr hp
    rw [List.foldl_cons]
    have hstep : FinReaches edges src (relaxStep current visited dp pr).1 ∧
        getKey (relaxStep current visited dp pr).2 u = some none := by
      rcases relaxStep_cases current visited dp pr with heq | ⟨_, da, hda, _, heq⟩
      · rw [heq]
        exact ⟨hfr, hp⟩
      · rw [heq]
        have hreach : Reaches edges src pr.1 :=
          Reaches.step (hfr current da hda)
            (hlink pr (List.mem_cons_self pr rest))
      
        constructor
        · intro k n hk
          by_cases hkp : k = pr.1
          · subst hkp
            exact hreach
          · rw [getKey_setKey_ne _ _ _ _ hkp] at hk
            exact hfr k n hk
        · have hne : u ≠ pr.1 := by
            intro he
            exact hu (he ▸ hreach)
          rw [getKey_setKey_ne _ _ _ _ hne]
          exact hp
    exact ih _ (fun q hq => hlink q (List.mem_cons_of_mem pr hq))
      hstep.1 hstep.2

/-- The Dijkstra main loop never writes a predecessor for an unreachable
node. -/
theorem dijkstraLoop_unreach {edges : List Edge} {src u : String}
    (g : List (String × List (String × Int))) (dest : String)
    (hadj : AdjOk edges g) (hu : ¬ Reaches edges src u) :
    ∀ (fuel : Nat) (uv vis : List String) (d : DistMap) (p : PrevMap) (it : Nat),
    FinReaches edges src d → getKey p u = some none →
    getKey (dijkstraLoop g dest fuel uv vis d p it).2.1 u = some none := by
  intro fuel
  induction fuel with
  | zero => intro uv vis d p it _ hp; exact hp
  | succ fuel ih =>
    intro uv vis d p it hfr hp
    match uv with
    | [] => exact hp
    | u2 :: us =>
      simp only [dijkstraLoop]
      split
      · split
        · next inner hinner =>
          have hfold := relaxNeighbors_eq_foldl (minFold d u2 us) vis inner d p
          obtain ⟨hfr2, hp2⟩ := relaxFold_unreach hu inner (d, p)
            (fun pr hpr => hadj (minFold d u2 us) inner hinner pr hpr) hfr hp
          rw [← hfold] at hfr2 hp2
          split
          · exact hp2
          · exact ih _ _ _ _ _ hfr2 hp2
        · exact hp
      · exact hp

/-- A directed relaxation never writes a predecessor for an unreachable
node. -/
theorem relaxDir_unreach {edges : List Edge} {src u : String} {s : BFState}
    {a b : String} {w : Int} (hl : linked edges a b)
    (hu : ¬ Reaches edges src u) (hfr : FinReaches edges src s.d)
    (hp : getKey s.p u = some none) :
    getKey (relaxDir s a b w).p u = some none := by
  cases hc : canRelaxB s.d a b w with
  | false => rw [relaxDir_of_not_canRelax hc]; exact hp
  | true =>
    obtain ⟨da, hda⟩ := canRelax_elim hc
    rw [relaxDir_of_canRelax hda hc]
    have hreach : Reaches edges src b := Reaches.step (hfr a da hda) hl
    have hne : u ≠ b := fun he => hu (he ▸ hreach)
    show getKey (setKey s.p b (some a)) u = some none
    rw [getKey_setKey_ne _ _ _ _ hne]
    exact hp

/-- Edge processing never writes a predecessor for an unreachable node. -/
theorem bfProcessEdge_unreach {edges : List Edge} {src u : String}
    {s : BFState} {e : Edge} (he : e ∈ edges) (hu : ¬ Reaches edges src u)
    (hfr : FinReaches edges src s.d) (hp : getKey s.p u = some none) :
    getKey (bfProcessEdge s e).p u = some none := by
  obtain ⟨h1, h2⟩ := linked_of_mem he
  unfold bfProcessEdge
  exact relaxDir_unreach h2 hu
    (relaxDir_pres (s := s) (w := e.weight) h1 hfr).1
    (relaxDir_unreach h1 hu hfr hp)

/-- The pass loop never writes a predecessor for an unreachable node. -/
theorem bfLoop_unreach {edges : List Edge} {src u : String}
    (hu : ¬ Reaches edges src u) :
    ∀ (n : Nat) (s : BFState), FinReaches edges src s.d →
    getKey s.p u = some none →
    getKey (bfLoop edges s n).1.p u = some none := by
  have hpass : ∀ (s : BFState), FinReaches edges src s.d →
      getKey s.p u = some none →
      getKey (bfPass edges s).p u = some none := by
    intro s hfr hp
    unfold bfPass
    have := foldl_invariant
      (P := fun t : BFState =>
        FinReaches edges src t.d ∧ getKey t.p u = some none)
      bfProcessEdge edges { s with upd := false } ⟨hfr, hp⟩ ?_
    · exact this.2
    · intro t e he ⟨ht1, ht2⟩
      exact ⟨(bfProcessEdge_pres he ht1).1, bfProcessEdge_unreach he hu ht1 ht2⟩
  intro n
  induction n with
  | zero => intro s _ hp; exact hp
  | succ n ih =>
    intro s hfr hp
    simp only [bfLoop]
    split
    · exact ih (bfPass edges s) (bfPass_pres (s := s) hfr).1 (hpass s hfr hp)
    · exact hpass s hfr hp

/-- A `null`-predecessor start ends the walk at once. -/
theorem walkPrev_none_entry {p : PrevMap} {k : String}
    (h : getKey p k = some none) (n : Nat) :
    walkPrev p (n + 1) k = some [k] := by
  unfold walkPrev
  rw [h]

/-- C6 (amended): on a well-formed graph (edge endpoints and the queried
destination listed nodes, no negative self-loops) whose destination is
unreachable from the source, Dijkstra returns normally with an empty
path and a routing table that omits the destination — and any node of
infinite distance — entirely; Bellman-Ford throws the negative-cycle
error exactly when some edge is still relaxable after its passes (which
a reachable negative edge elsewhere causes even though the destination
is unreachable, see the counterexample), and any normally returned
Bellman-Ford result has the same empty path and omissions.  Outside
these provisos the programs need not return at all: the predecessor walk
loops forever on an unlisted destination and Dijkstra throws a TypeError
on a dangling edge endpoint. -/
theorem c6_unreachable_semantics (nodes : List Node) (edges : List Edge)
    (source destination : String)
    (hwf : ∀ e ∈ edges, e.source ∈ nodes.map (fun n => n.id) ∧
      e.target ∈ nodes.map (fun n => n.id))
    (hsl : ∀ e ∈ edges, e.source = e.target → 0 ≤ e.weight)
    (hdest : destination ∈ nodes.map (fun n => n.id))
    (hunreach : ¬ Reaches edges source destination) :
    (∃ r, DijkstraExecute nodes edges source destination =
      some (Except.ok r) ∧
      r.path = [] ∧
      ∀ entry ∈ r.routingTable,
        (∃ c, getKey r.distances entry.destination = some (DNum.fin c)) ∧
        entry.destination ≠ destination) ∧
    (BellmanFordExecute nodes edges source destination =
        some (Except.error "Graph contains negative cycle") ↔
      negCheckB edges (bfLoop edges
        ⟨initDistances nodes source, initPrevious nodes, false⟩
        (nodes.length - 1)).1.d = true) ∧
    (∀ r, BellmanFordExecute nodes edges source destination =
        some (Except.ok r) →
      r.path = [] ∧
      ∀ entry ∈ r.routingTable,
        (∃ c, getKey r.distances entry.destination = some (DNum.fin c)) ∧
        entry.destination ≠ destination) := by
  have hinitp : getKey (initPrevious nodes) destination = some none := by
    rw [getKey_initPrevious, if_pos hdest]
  refine ⟨?_, ?_, ?_⟩
  · -- Dijkstra
    obtain ⟨r, hr, hrd, hrp, ⟨path, hpath, hrpath⟩, htable⟩ :=
      dijkstra_returns destination hwf hsl hdest
    have hfr : FinReaches edges source
        (dijkstraLoop (buildGraphT nodes edges) destination
          ((nodes.map (fun n => n.id)).eraseDups).length
          ((nodes.map (fun n => n.id)).eraseDups) []
          (initDistances nodes source) (initPrevious nodes) 0).1 :=
      (dijkstraLoop_pres (buildGraphT nodes edges) destination
        ((nodes.map (fun n => n.id)).eraseDups).length
        ((nodes.map (fun n => n.id)).eraseDups) []
        (initDistances nodes source) (initPrevious nodes) 0
        (adjOk_buildGraph nodes edges)
        (finReaches_init edges nodes source)).1
    have hpnone : getKey (dijkstraLoop (buildGraphT nodes edges) destination
        ((nodes.map (fun n => n.id)).eraseDups).length
        ((nodes.map (fun n => n.id)).eraseDups) []
        (initDistances nodes source) (initPrevious nodes) 0).2.1
        destination = some none :=
      dijkstraLoop_unreach (buildGraphT nodes edges) destination
        (adjOk_buildGraph nodes edges) hunreach
        ((nodes.map (fun n => n.id)).eraseDups).length
        ((nodes.map (fun n => n.id)).eraseDups) []
        (initDistances nodes source) (initPrevious nodes) 0
        (finReaches_init edges nodes source) hinitp
    have hpath2 : path = [destination] := by
      rw [hrp] at hpath
      rw [walkPrev_none_entry hpnone] at hpath
      exact (Option.some.inj hpath).symm
    refine ⟨r, hr, ?_, ?_⟩
    · rw [hrpath, hpath2]
      rw [if_neg ?_]
      intro hsmem
      have hsd : source = destination := List.mem_singleton.1 hsmem
      exact hunreach (hsd ▸ Reaches.refl)
    · intro entry hentry
      rw [hrd] at htable ⊢
      obtain ⟨c, hc⟩ := mem_buildTable htable hentry
      refine ⟨⟨c, hc⟩, ?_⟩
      intro hed
      exact hunreach (hed ▸ hfr entry.destination c hc)
  · -- Bellman-Ford error iff
    unfold BellmanFordExecute
    dsimp only
    split
    · next h => simp [h]
    · next h =>
      have hne := Bool.eq_false_iff.2 h
      constructor
      · intro hc
        exfalso
        split at hc
        · exact Except.noConfusion (Option.some.inj hc)
        · cases hc
      · intro hc
        rw [hc] at hne
        cases hne
  · -- Bellman-Ford normal return
    intro r hok
    obtain ⟨hneg, hdist, hprev, ⟨path, hpath, hrpath⟩, htable⟩ :=
      bf_ok_elim hok
    have hfr : FinReaches edges source
        (bfLoop edges ⟨initDistances nodes source, initPrevious nodes, false⟩
          (nodes.length - 1)).1.d :=
      (bfLoop_pres ⟨initDistances nodes source, initPrevious nodes, false⟩
        (nodes.length - 1) (finReaches_init edges nodes source)).1
    have hpnone : getKey (bfLoop edges
        ⟨initDistances nodes source, initPrevious nodes, false⟩
        (nodes.length - 1)).1.p destination = some none :=
      bfLoop_unreach hunreach (nodes.length - 1)
        ⟨initDistances nodes source, initPrevious nodes, false⟩
        (finReaches_init edges nodes source) hinitp
    have hpath2 : path = [destination] := by
      rw [walkPrev_none_entry hpnone] at hpath
      exact (Option.some.inj hpath).symm
    refine ⟨?_, ?_⟩
    · rw [hrpath, hpath2]
      rw [if_neg ?_]
      intro hsmem
      have hsd : source = destination := List.mem_singleton.1 hsmem
      exact hunreach (hsd ▸ Reaches.refl)
    · intro entry hentry
      rw [hdist]
      obtain ⟨c, hc⟩ := mem_buildTable htable hentry
      refine ⟨⟨c, hc⟩, ?_⟩
      intro hed
      exact hunreach (hed ▸ hfr entry.destination c hc)

/-- Witness for C6: the single negative edge A-B(-1) with listed,
unreachable destination D — Dijkstra returns normally with an empty path
and no D row, while the negative-cycle scan drives Bellman-Ford's iff. -/
theorem c6_witness :
    (∃ r, DijkstraExecute negEdgeNodes negEdgeEdges "A" "D" =
      some (Except.ok r) ∧
      r.path = [] ∧
      ∀ entry ∈ r.routingTable,
        (∃ c, getKey r.distances entry.destination = some (DNum.fin c)) ∧
        entry.destination ≠ "D") ∧
    (BellmanFordExecute negEdgeNodes negEdgeEdges "A" "D" =
        some (Except.error "Graph contains negative cycle") ↔
      negCheckB negEdgeEdges (bfLoop negEdgeEdges
        ⟨initDistances negEdgeNodes "A", initPrevious negEdgeNodes, false⟩
        (negEdgeNodes.length - 1)).1.d = true) := by
  have hunreach : ¬ Reaches negEdgeEdges "A" "D" := by
    intro h
    rcases reaches_negEdge "D" h with h' | h' <;> exact absurd h' (by decide)
  have h := c6_unreachable_semantics negEdgeNodes negEdgeEdges "A" "D"
    (by decide) (by decide) (by decide) hunreach
  exact ⟨h.1, h.2.1⟩

/-- C7 (amended): for every normally returned Dijkstra result and every
normally returned Bellman-Ford result, the distances and previous maps
contain an entry for every input node, with the distance entry `inf` for
every node unreachable from the source (neither engine returns at all
when the queried destination is not a listed node, and Dijkstra throws a
TypeError instead on a dangling edge endpoint); for BGP the same holds
whenever at least one source-to-destination path exists, with `inf` for
every node off the winning path, but when no path exists both maps are
returned completely empty (the counterexample). -/
theorem c7_result_map_coverage (nodes : List Node) (edges : List Edge)
    (source destination : String) (attrs : Nat → Nat × Nat) :
    (∀ r, DijkstraExecute nodes edges source destination =
        some (Except.ok r) →
      ∀ node ∈ nodes,
        (getKey r.distances node.id).isSome ∧
        (getKey r.previous node.id).isSome ∧
        (¬ Reaches edges source node.id →
          getKey r.distances node.id = some DNum.inf)) ∧
    (∀ r, BellmanFordExecute nodes edges source destination =
        some (Except.ok r) →
      ∀ node ∈ nodes,
        (getKey r.distances node.id).isSome ∧
        (getKey r.previous node.id).isSome ∧
        (¬ Reaches edges source node.id →
          getKey r.distances node.id = some DNum.inf)) ∧
    (findAllPaths edges source destination ≠ [] →
      ∀ node ∈ nodes,
        (getKey (BGPExecute nodes edges source destination attrs).distances node.id).isSome ∧
        (getKey (BGPExecute nodes edges source destination attrs).previous node.id).isSome ∧
        (node.id ∉ (BGPExecute nodes edges source destination attrs).path →
          getKey (BGPExecute nodes edges source destination attrs).distances node.id =
            some DNum.inf)) ∧
    (findAllPaths edges source destination = [] →
      (BGPExecute nodes edges source destination attrs).distances = [] ∧
      (BGPExecute nodes edges source destination attrs).previous = []) := by
  refine ⟨?_, ?_, ?_, ?_⟩
  · -- Dijkstra, conditional on a normal return
    intro r hok node hnode
    have hid : node.id ∈ nodes.map (fun n => n.id) :=
      List.mem_map.2 ⟨node, hnode, rfl⟩
    have hinit : getKey (initDistances nodes source) node.id =
        some (if node.id = source then DNum.fin 0 else DNum.inf) := by
      rw [getKey_initDistances, if_pos hid]
    have hinitp : getKey (initPrevious nodes) node.id = some none := by
      rw [getKey_initPrevious, if_pos hid]
    unfold DijkstraExecute at hok
    cases hbg : buildGraph nodes edges with
    | none =>
      rw [hbg] at hok
      exact absurd (Option.some.inj hok) (fun hx => Except.noConfusion hx)
    | some g =>
      rw [hbg] at hok
      dsimp only at hok
      obtain ⟨_, hgT⟩ := buildGraph_some_elim hbg
      subst hgT
      split at hok
      · next path table hpath htable =>
        have h1 := Except.ok.inj (Option.some.inj hok)
        subst h1
        obtain ⟨l1, l2, l3⟩ := dijkstraLoop_pres
          (buildGraphT nodes edges) destination
          ((nodes.map (fun n => n.id)).eraseDups).length
          ((nodes.map (fun n => n.id)).eraseDups) [] (initDistances nodes source)
          (initPrevious nodes) 0 (adjOk_buildGraph nodes edges)
          (finReaches_init edges nodes source)
        refine ⟨l2 node.id (by rw [hinit]; rfl),
          l3 node.id (by rw [hinitp]; rfl), ?_⟩
        intro hunreach
        obtain ⟨v, hv⟩ := Option.isSome_iff_exists.1 (l2 node.id (by rw [hinit]; rfl))
        cases v with
        | inf => exact hv
        | fin n => exact absurd (l1 node.id n hv) hunreach
      · cases hok
  · -- Bellman-Ford, conditional on a normal return
    intro r hok node hnode
    have hid : node.id ∈ nodes.map (fun n => n.id) :=
      List.mem_map.2 ⟨node, hnode, rfl⟩
    have hinit : getKey (initDistances nodes source) node.id =
        some (if node.id = source then DNum.fin 0 else DNum.inf) := by
      rw [getKey_initDistances, if_pos hid]
    have hinitp : getKey (initPrevious nodes) node.id = some none := by
      rw [getKey_initPrevious, if_pos hid]
    obtain ⟨_, hdist, hprev, _, _⟩ := bf_ok_elim hok
    rw [hdist, hprev]
    obtain ⟨l1, l2, l3⟩ := bfLoop_pres
      ⟨initDistances nodes source, initPrevious nodes, false⟩ (nodes.length - 1)
      (finReaches_init edges nodes source)
    refine ⟨l2 node.id (by rw [hinit]; rfl), l3 node.id (by rw [hinitp]; rfl), ?_⟩
    intro hunreach
    obtain ⟨v, hv⟩ := Option.isSome_iff_exists.1 (l2 node.id (by rw [hinit]; rfl))
    cases v with
    | inf => exact hv
    | fin n => exact absurd (l1 node.id n hv) hunreach
  · -- BGP, at least one path
    intro hne node hnode
    have hid : node.id ∈ nodes.map (fun n => n.id) :=
      List.mem_map.2 ⟨node, hnode, rfl⟩
    have hd0 : getKey (nodes.foldl (fun m n => setKey m n.id DNum.inf) []) node.id =
        some DNum.inf := by
      rw [getKey_foldl_setKey (fun _ => DNum.inf), if_pos hid]
    have hinitp : getKey (initPrevious nodes) node.id = some none := by
      rw [getKey_initPrevious, if_pos hid]
    have hlen : ¬ (findAllPaths edges source destination).length = 0 := by
      intro h0
      exact hne (List.length_eq_zero.1 h0)
    have hbgp : ((findAllPaths edges source destination).enum.map
        (fun pr => mkBGPPath edges attrs pr.1 pr.2)) ≠ [] := by
      intro h0
      rcases List.map_eq_nil_iff.1 h0 with h1
      exact hne (List.enum_eq_nil.1 h1)
    obtain ⟨bp, hbp⟩ := Option.isSome_iff_exists.1 (selectBestPath_isSome hbgp)
    unfold BGPExecute
    dsimp only
    rw [if_neg hlen, hbp]
    dsimp only
    obtain ⟨s1, s2, s3⟩ := seedFromBest_pres bp
      (nodes.foldl (fun m n => setKey m n.id DNum.inf) []) (initPrevious nodes)
    refine ⟨s1 node.id (by rw [hd0]; rfl), s2 node.id (by rw [hinitp]; rfl), ?_⟩
    intro hoff
    rw [s3 node.id hoff]
    exact hd0
  · -- BGP, no path at all
    intro h
    unfold BGPExecute
    dsimp only
    rw [if_pos (by rw [h]; rfl)]
    exact ⟨rfl, rfl⟩

/-- Witness for C7: on the default topology, node B holds entries in the
distance maps of the normally returned Dijkstra result and of the BGP
result. -/
theorem c7_witness :
    (getKey dijResultAE.distances "B").isSome ∧
    (getKey (BGPExecute defaultNodes defaultEdges "A" "E" attrsZero).distances "B").isSome := by
  constructor
  · exact ((c7_result_map_coverage defaultNodes defaultEdges "A" "E" attrsZero).1
      dijResultAE (by rfl) ⟨"B"⟩ (by decide)).1
  · exact ((c7_result_map_coverage defaultNodes defaultEdges "A" "E" attrsZero).2.2.1
      (by decide) ⟨"B"⟩ (by decide)).1
